import Mathlib

/-!
Verification of the LAMB lambda-calculus engine (prebiotic-lambda)

Shallow embedding of the core of `src/prebiotic-lambda/lamb/` (lamb_lib.c,
lamb_grid.c, lamb.h) and proofs about it.

Two embeddings are used:

* a *tree-level* embedding, in which an arena index denotes the expression
  tree it unfolds to.  Allocation (`var`, `fun`, `app`, `magic` in C) builds
  fresh nodes, so the functions `replace`, `eval1`, `eval_bounded`,
  `is_var_free_there`, `expr_display`, the parser and the combinator
  generator act on trees.  The process-wide fresh-tag counter of
  `symbol_fresh` and the `rand()` stream are passed explicitly.

* an *arena-level* embedding (`EngineState`) with explicit slots, free-list
  (`GC.dead`), generation lists and mark bits, for the claims that speak
  about indices, slots and the collector.

Symbols: `intern_label` interns label strings, so the C pointer comparison
in `symbol_eq` is exactly string equality; a `Symbol` is modelled as a
(label, tag) pair with structural equality.
-/

namespace Lamb

/-- A symbol: interned label plus α-renaming tag (`Symbol` in lamb.h).
`symbol_eq` compares the interned label pointer and the tag, which by
interning is structural equality of this record. -/
structure Symbol where
  label : String
  tag : Nat
deriving DecidableEq, Repr

/-- Expression trees: the four `Expr_Kind`s of lamb.h (`EXPR_VAR`,
`EXPR_FUN`, `EXPR_APP`, `EXPR_MAG`).  At tree level the arena indices
`fun.body`, `app.lhs`, `app.rhs` are replaced by the subtrees they denote.
`fun` is a Lean keyword, so the constructor is named `fn`. -/
inductive Expr where
  | var (s : Symbol)
  | mag (label : String)
  | fn (param : Symbol) (body : Expr)
  | app (lhs rhs : Expr)
deriving DecidableEq, Repr

/-- `expr_mass`: the number of AST nodes (Var 1, Magic 1, Fun 1+body,
App 1+lhs+rhs).  The `live` test of the C code never fails on a tree. -/
def Expr.mass : Expr → Nat
  | .var _ => 1
  | .mag _ => 1
  | .fn _ b => 1 + b.mass
  | .app l r => 1 + l.mass + r.mass

theorem Expr.mass_pos (e : Expr) : 0 < e.mass := by
  cases e <;> simp [Expr.mass]

/-- `is_var_free_there(name, there)`: true iff `name` occurs as a Var
outside the scope of any Fun binding it; Magic has no free variables. -/
def isVarFreeThere (name : Symbol) : Expr → Bool
  | .var v => v = name
  | .fn p b => if p = name then false else isVarFreeThere name b
  | .app l r => isVarFreeThere name l || isVarFreeThere name r
  | .mag _ => false

/-- Is this expression a `Var` node? (used for the termination measure of
`replace`: substituting a variable for a variable preserves mass). -/
def Expr.isVar : Expr → Bool
  | .var _ => true
  | _ => false

/-- `replace(param, body, arg)` of lamb_lib.c with the global fresh-tag
counter passed explicitly: `symbol_fresh` becomes `tag := ctr+1`,
`ctr := ctr+1`.  The value is bundled with the fact that substituting a
`Var` argument preserves mass, which justifies termination of the
α-renaming case (the outer recursive call runs on the renamed body, which
is not a subterm but has the same mass as the original body). -/
def replaceAux (param : Symbol) (body arg : Expr) (ctr : Nat) :
    { r : Expr × Nat // arg.isVar = true → r.1.mass = body.mass } :=
  match body with
  | .mag m => ⟨(.mag m, ctr), fun _ => rfl⟩
  | .var v =>
    if v = param then
      ⟨(arg, ctr), fun h => by cases arg <;> simp_all [Expr.isVar, Expr.mass]⟩
    else
      ⟨(.var v, ctr), fun _ => rfl⟩
  | .fn p b =>
    if p = param then ⟨(.fn p b, ctr), fun _ => rfl⟩
    else if isVarFreeThere p arg = false then
      let rb := replaceAux param b arg ctr
      ⟨(.fn p rb.1.1, rb.1.2), fun h => by
        simp [Expr.mass, rb.2 h]⟩
    else
      let freshParam : Symbol := ⟨p.label, ctr + 1⟩
      let inner := replaceAux p b (.var freshParam) (ctr + 1)
      have hinner : inner.1.1.mass = b.mass := inner.2 rfl
      let outer := replaceAux param inner.1.1 arg inner.1.2
      ⟨(.fn freshParam outer.1.1, outer.1.2), fun h => by
        simp [Expr.mass, outer.2 h, hinner]⟩
  | .app l r =>
    let rl := replaceAux param l arg ctr
    let rr := replaceAux param r arg rl.1.2
    ⟨(.app rl.1.1 rr.1.1, rr.1.2), fun h => by
      simp [Expr.mass, rl.2 h, rr.2 h]⟩
termination_by body.mass
decreasing_by
  all_goals simp_all [Expr.mass] <;> omega

/-- `replace` as a plain function: result expression and updated fresh
counter. -/
def replace (param : Symbol) (body arg : Expr) (ctr : Nat) : Expr × Nat :=
  (replaceAux param body arg ctr).1

theorem replace_mag (param : Symbol) (m : String) (arg : Expr) (ctr : Nat) :
    replace param (.mag m) arg ctr = (.mag m, ctr) := by
  simp [replace, replaceAux]

theorem replace_var (param v : Symbol) (arg : Expr) (ctr : Nat) :
    replace param (.var v) arg ctr =
      if v = param then (arg, ctr) else (.var v, ctr) := by
  by_cases h : v = param <;> simp [replace, replaceAux, h]

theorem replace_fn_shadow (param : Symbol) (b arg : Expr) (ctr : Nat) :
    replace param (.fn param b) arg ctr = (.fn param b, ctr) := by
  simp [replace, replaceAux]

theorem replace_fn_nocapture (param p : Symbol) (b arg : Expr) (ctr : Nat)
    (hp : p ≠ param) (hfree : isVarFreeThere p arg = false) :
    replace param (.fn p b) arg ctr =
      ((.fn p (replace param b arg ctr).1), (replace param b arg ctr).2) := by
  simp [replace, replaceAux, hp, hfree]

theorem replace_fn_rename (param p : Symbol) (b arg : Expr) (ctr : Nat)
    (hp : p ≠ param) (hfree : isVarFreeThere p arg = true) :
    replace param (.fn p b) arg ctr =
      (let freshParam : Symbol := ⟨p.label, ctr + 1⟩
       let inner := replace p b (.var freshParam) (ctr + 1)
       let outer := replace param inner.1 arg inner.2
       ((.fn freshParam outer.1), outer.2)) := by
  simp [replace, replaceAux, hp, hfree]

theorem replace_app (param : Symbol) (l r arg : Expr) (ctr : Nat) :
    replace param (.app l r) arg ctr =
      (let rl := replace param l arg ctr
       let rr := replace param r arg rl.2
       ((.app rl.1 rr.1), rr.2)) := by
  simp [replace, replaceAux]

/-- Substituting a `Var` argument preserves mass (used for the α-renaming
recursion and the free-variable theorem). -/
theorem replace_var_arg_mass (param v : Symbol) (b : Expr) (ctr : Nat) :
    (replace param b (.var v) ctr).1.mass = b.mass :=
  (replaceAux param b (.var v) ctr).2 rfl

/-!
Single-step reducer

`eval1(expr, &expr1)` of lamb_lib.c returns false on failure (unknown
magic) and signals "unchanged" by returning the input arena index.  At
tree level the result is `Option (Expr × Bool × Nat)`: `none` is failure,
the `Bool` is the changed flag (in C: returned index ≠ input index; the
arena-level theorem for C4 below proves this correspondence), the `Nat`
the fresh-tag counter.  The `TRACE:` printf of the `#trace` normal-form
case is a side effect outside the embedding.  String comparison of magic
labels against `intern_label("trace")` is string equality by interning.
-/

def eval1 (ctr : Nat) : Expr → Option (Expr × Bool × Nat)
  | .var v => some (.var v, false, ctr)
  | .fn p b =>
    match eval1 ctr b with
    | none => none
    | some (b', ch, ctr') =>
      if ch then some (.fn p b', true, ctr') else some (.fn p b, false, ctr')
  | .app l r =>
    match l with
    | .fn p b =>
      some ((replace p b r ctr).1, true, (replace p b r ctr).2)
    | .mag m =>
      if m = "trace" then
        match eval1 ctr r with
        | none => none
        | some (r', ch, ctr') =>
          if ch then some (.app (.mag m) r', true, ctr')
          else some (r, true, ctr')
      else if m = "void" then
        match eval1 ctr r with
        | none => none
        | some (r', ch, ctr') =>
          if ch then some (.app (.mag m) r', true, ctr')
          else some (.mag m, true, ctr')
      else none
    | .var lv =>
      match eval1 ctr (.var lv) with
      | none => none
      | some (l', ch, ctr') =>
        if ch then some (.app l' r, true, ctr')
        else
          match eval1 ctr' r with
          | none => none
          | some (r', ch2, ctr'') =>
            if ch2 then some (.app (.var lv) r', true, ctr'')
            else some (.app (.var lv) r, false, ctr'')
    | .app ll lr =>
      match eval1 ctr (.app ll lr) with
      | none => none
      | some (l', ch, ctr') =>
        if ch then some (.app l' r, true, ctr')
        else
          match eval1 ctr' r with
          | none => none
          | some (r', ch2, ctr'') =>
            if ch2 then some (.app (.app ll lr) r', true, ctr'')
            else some (.app (.app ll lr) r, false, ctr'')
  | .mag m => some (.mag m, false, ctr)

/-- `Eval_Result` of lamb.h, with `EVAL_DONE`'s out-parameter inlined. -/
inductive EvalResult where
  | done (e : Expr)
  | limit
  | error
deriving DecidableEq, Repr

/-- `eval_bounded(start, &out, limit, max_mass)`: iterate `eval1` up to
`limit` times; before each step, if `max_mass > 0` and the mass exceeds
`max_mass`, give up with `EVAL_LIMIT`; stop with `EVAL_DONE` when a step
reports no change.  The fresh-tag counter is threaded through and
returned (on `EVAL_ERROR` it is returned as it was at entry to the
failing step, the C global having no defined value there). -/
def evalBounded : Nat → Nat → Expr → Nat → EvalResult × Nat
  | 0, _, _, ctr => (.limit, ctr)
  | limit + 1, maxMass, curr, ctr =>
    if maxMass > 0 ∧ curr.mass > maxMass then (.limit, ctr)
    else
      match eval1 ctr curr with
      | none => (.error, ctr)
      | some (next, ch, ctr') =>
        if ch then evalBounded limit maxMass next ctr'
        else (.done curr, ctr')

/-!
Claims C1 and C2: the substitution engine
-/

/-- C1: `replace(param, body, arg)` follows the spec's case analysis
exactly: a `Var` equal to `param` becomes `arg`, any other `Var` is
unchanged; `Magic` is unchanged; `App` substitutes into both children
(left first, threading the fresh counter); a `Fun` binding `param` is
unchanged; a `Fun` whose parameter is not free in `arg` substitutes into
its body under the same parameter; a `Fun` whose parameter is free in
`arg` is first α-renamed with a fresh-tagged parameter
(`symbol_fresh`: tag `ctr+1`) and then substituted into. -/
theorem C1_replace_case_analysis (param : Symbol) (arg : Expr) (ctr : Nat) :
    (∀ v, replace param (.var v) arg ctr =
        if v = param then (arg, ctr) else (.var v, ctr))
  ∧ (∀ m, replace param (.mag m) arg ctr = (.mag m, ctr))
  ∧ (∀ l r, replace param (.app l r) arg ctr =
        ((.app (replace param l arg ctr).1
               (replace param r arg (replace param l arg ctr).2).1),
         (replace param r arg (replace param l arg ctr).2).2))
  ∧ (∀ b, replace param (.fn param b) arg ctr = (.fn param b, ctr))
  ∧ (∀ p b, p ≠ param → isVarFreeThere p arg = false →
        replace param (.fn p b) arg ctr =
          ((.fn p (replace param b arg ctr).1), (replace param b arg ctr).2))
  ∧ (∀ p b, p ≠ param → isVarFreeThere p arg = true →
        replace param (.fn p b) arg ctr =
          ((.fn ⟨p.label, ctr + 1⟩
              (replace param
                (replace p b (.var ⟨p.label, ctr + 1⟩) (ctr + 1)).1 arg
                (replace p b (.var ⟨p.label, ctr + 1⟩) (ctr + 1)).2).1),
           (replace param
              (replace p b (.var ⟨p.label, ctr + 1⟩) (ctr + 1)).1 arg
              (replace p b (.var ⟨p.label, ctr + 1⟩) (ctr + 1)).2).2)) := by
  refine ⟨fun v => replace_var param v arg ctr,
          fun m => replace_mag param m arg ctr,
          fun l r => replace_app param l r arg ctr,
          fun b => replace_fn_shadow param b arg ctr,
          fun p b hp hf => replace_fn_nocapture param p b arg ctr hp hf,
          fun p b hp hf => ?_⟩
  simpa using replace_fn_rename param p b arg ctr hp hf

/-- Witness for C1 exercising the α-renaming case at a concrete input:
substituting `x` for `y` in `\x.x` with argument `x` renames the binder
to the fresh-tagged `x:1`. -/
theorem C1_replace_case_analysis_witness :
    (⟨"x", 0⟩ : Symbol) ≠ ⟨"y", 0⟩ ∧
    isVarFreeThere ⟨"x", 0⟩ (.var ⟨"x", 0⟩) = true ∧
    replace ⟨"y", 0⟩ (.fn ⟨"x", 0⟩ (.var ⟨"x", 0⟩)) (.var ⟨"x", 0⟩) 0 =
      ((.fn ⟨"x", 1⟩
          (replace ⟨"y", 0⟩
            (replace ⟨"x", 0⟩ (.var ⟨"x", 0⟩) (.var ⟨"x", 1⟩) 1).1 (.var ⟨"x", 0⟩)
            (replace ⟨"x", 0⟩ (.var ⟨"x", 0⟩) (.var ⟨"x", 1⟩) 1).2).1),
       (replace ⟨"y", 0⟩
          (replace ⟨"x", 0⟩ (.var ⟨"x", 0⟩) (.var ⟨"x", 1⟩) 1).1 (.var ⟨"x", 0⟩)
          (replace ⟨"x", 0⟩ (.var ⟨"x", 0⟩) (.var ⟨"x", 1⟩) 1).2).2) :=
  ⟨by decide, by decide,
   (C1_replace_case_analysis ⟨"y", 0⟩ (.var ⟨"x", 0⟩) 0).2.2.2.2.2
     ⟨"x", 0⟩ (.var ⟨"x", 0⟩) (by decide) (by decide)⟩

/-- C2: the free variables of `replace(param, body, arg)` are contained in
`(free(body) \ {param}) ∪ free(arg)`, freeness being `is_var_free_there`;
in particular α-renaming introduces no new free variable. -/
theorem C2_replace_free_subset :
    ∀ (body : Expr) (param : Symbol) (arg : Expr) (ctr : Nat) (v : Symbol),
      isVarFreeThere v (replace param body arg ctr).1 = true →
      (isVarFreeThere v body = true ∧ v ≠ param) ∨
        isVarFreeThere v arg = true := by
  suffices H : ∀ n (body : Expr), body.mass ≤ n →
      ∀ (param : Symbol) (arg : Expr) (ctr : Nat) (v : Symbol),
        isVarFreeThere v (replace param body arg ctr).1 = true →
        (isVarFreeThere v body = true ∧ v ≠ param) ∨
          isVarFreeThere v arg = true by
    exact fun body => H body.mass body le_rfl
  intro n
  induction n with
  | zero =>
    intro body hm
    have := body.mass_pos
    omega
  | succ n ih =>
    intro body hm param arg ctr v hfree
    match body with
    | .mag m =>
      rw [replace_mag] at hfree
      simp [isVarFreeThere] at hfree
    | .var w =>
      rw [replace_var] at hfree
      by_cases hw : w = param
      · simp [hw] at hfree
        exact Or.inr hfree
      · simp [hw] at hfree
        simp [isVarFreeThere] at hfree ⊢
        subst hfree
        exact Or.inl ⟨rfl, hw⟩
    | .app l r =>
      rw [replace_app] at hfree
      simp only [isVarFreeThere, Bool.or_eq_true] at hfree ⊢
      have hml : l.mass ≤ n := by simp [Expr.mass] at hm; have := r.mass_pos; omega
      have hmr : r.mass ≤ n := by simp [Expr.mass] at hm; have := l.mass_pos; omega
      rcases hfree with hfl | hfr
      · rcases ih l hml param arg ctr v hfl with ⟨h1, h2⟩ | h
        · exact Or.inl ⟨Or.inl h1, h2⟩
        · exact Or.inr h
      · rcases ih r hmr param arg (replace param l arg ctr).2 v hfr with ⟨h1, h2⟩ | h
        · exact Or.inl ⟨Or.inr h1, h2⟩
        · exact Or.inr h
    | .fn p b =>
      have hmb : b.mass ≤ n := by simp [Expr.mass] at hm; omega
      by_cases hp : p = param
      · subst hp
        rw [replace_fn_shadow] at hfree
        simp only [isVarFreeThere] at hfree
        by_cases hpv : p = v
        · simp [hpv] at hfree
        · simp [hpv] at hfree
          exact Or.inl ⟨by simp [isVarFreeThere, hpv, hfree],
            fun h => hpv (h ▸ rfl)⟩
      · by_cases hf : isVarFreeThere p arg = true
        · rw [replace_fn_rename param p b arg ctr hp hf] at hfree
          simp only [isVarFreeThere] at hfree
          by_cases hqv : (⟨p.label, ctr + 1⟩ : Symbol) = v
          · simp [hqv] at hfree
          · simp only [hqv, if_false] at hfree
            -- the outer substitution acts on the renamed body, whose mass
            -- equals that of b
            have hmouter :
                (replace p b (.var ⟨p.label, ctr + 1⟩) (ctr + 1)).1.mass ≤ n := by
              rw [replace_var_arg_mass]; exact hmb
            rcases ih _ hmouter param arg
                (replace p b (.var ⟨p.label, ctr + 1⟩) (ctr + 1)).2 v hfree with
              ⟨h1, h2⟩ | h
            · rcases ih b hmb p (.var ⟨p.label, ctr + 1⟩) (ctr + 1) v h1 with
                ⟨h3, h4⟩ | h5
              · refine Or.inl ⟨?_, h2⟩
                simp [isVarFreeThere, h3]
                intro hc; exact h4 hc.symm
              · simp [isVarFreeThere] at h5
                exact absurd h5 hqv
            · exact Or.inr h
        · have hf' : isVarFreeThere p arg = false := by
            simpa using hf
          rw [replace_fn_nocapture param p b arg ctr hp hf'] at hfree
          simp only [isVarFreeThere] at hfree
          by_cases hpv : p = v
          · simp [hpv] at hfree
          · simp only [hpv, if_false] at hfree
            rcases ih b hmb param arg ctr v hfree with ⟨h1, h2⟩ | h
            · exact Or.inl ⟨by simp [isVarFreeThere, hpv, h1], h2⟩
            · exact Or.inr h

/-- Witness for C2: substituting `z` for `x` in `\y.x y` at a concrete
input; the free variables of the result are among `{y} ∪ {z}`. -/
theorem C2_replace_free_subset_witness :
    isVarFreeThere ⟨"y", 0⟩
      (replace ⟨"x", 0⟩ (.fn ⟨"w", 0⟩ (.app (.var ⟨"x", 0⟩) (.var ⟨"y", 0⟩)))
        (.var ⟨"z", 0⟩) 0).1 = true ∧
    ((isVarFreeThere ⟨"y", 0⟩
        (.fn ⟨"w", 0⟩ (.app (.var ⟨"x", 0⟩) (.var ⟨"y", 0⟩))) = true ∧
      (⟨"y", 0⟩ : Symbol) ≠ ⟨"x", 0⟩) ∨
      isVarFreeThere ⟨"y", 0⟩ (.var ⟨"z", 0⟩) = true) := by
  have hfree : isVarFreeThere ⟨"y", 0⟩
      (replace ⟨"x", 0⟩ (.fn ⟨"w", 0⟩ (.app (.var ⟨"x", 0⟩) (.var ⟨"y", 0⟩)))
        (.var ⟨"z", 0⟩) 0).1 = true := by
    rw [replace_fn_nocapture _ _ _ _ _ (by decide) (by decide)]
    simp [replace_app, replace_var, isVarFreeThere]
  exact ⟨hfree,
    C2_replace_free_subset _ ⟨"x", 0⟩ (.var ⟨"z", 0⟩) 0 ⟨"y", 0⟩ hfree⟩

/-!
Claim C3: the bounded driver

`drive k` runs exactly `k` iterations of the driver loop body of
`eval_bounded` (mass check, then one `eval1` step that must succeed and
report a change), returning the current expression and counter.
-/

def drive : Nat → Nat → Expr → Nat → Option (Expr × Nat)
  | 0, _, e, c => some (e, c)
  | k + 1, maxMass, e, c =>
    if maxMass > 0 ∧ e.mass > maxMass then none
    else
      match eval1 c e with
      | some (e', true, c') => drive k maxMass e' c'
      | _ => none

/-- When `eval1` reports "no change", the returned expression is the input
expression (at arena level: the returned index is the input index). -/
theorem eval1_unchanged_eq {c : Nat} {e e' : Expr} {c' : Nat}
    (h : eval1 c e = some (e', false, c')) : e' = e := by
  cases e with
  | var v => simp only [eval1, Option.some.injEq, Prod.mk.injEq] at h; exact h.1.symm
  | mag m => simp only [eval1, Option.some.injEq, Prod.mk.injEq] at h; exact h.1.symm
  | fn p b =>
    simp only [eval1] at h
    rcases hb : eval1 c b with _ | ⟨b', ch, cb⟩ <;> rw [hb] at h
    · exact absurd h (by simp)
    · cases ch
      · simp only [Bool.false_eq_true, if_false, Option.some.injEq,
          Prod.mk.injEq] at h
        exact h.1.symm
      · simp only [if_true, Option.some.injEq, Prod.mk.injEq] at h
        exact absurd h.2.1 (by simp)
  | app l r =>
    cases l with
    | fn p b =>
      simp only [eval1, Option.some.injEq, Prod.mk.injEq] at h
      exact absurd h.2.1 (by simp)
    | mag m =>
      simp only [eval1] at h
      by_cases ht : m = "trace"
      · rw [if_pos ht] at h
        rcases hr : eval1 c r with _ | ⟨r', ch, cr⟩ <;> rw [hr] at h
        · exact Option.noConfusion h
        · cases ch <;>
            simp only [Bool.false_eq_true, if_false, if_true,
              Option.some.injEq, Prod.mk.injEq] at h <;>
            exact absurd h.2.1 (by simp)
      · rw [if_neg ht] at h
        by_cases hv : m = "void"
        · rw [if_pos hv] at h
          rcases hr : eval1 c r with _ | ⟨r', ch, cr⟩ <;> rw [hr] at h
          · exact Option.noConfusion h
          · cases ch <;>
              simp only [Bool.false_eq_true, if_false, if_true,
                Option.some.injEq, Prod.mk.injEq] at h <;>
              exact absurd h.2.1 (by simp)
        · rw [if_neg hv] at h
          exact Option.noConfusion h
    | var lv =>
      simp only [eval1, Bool.false_eq_true, if_false] at h
      rcases hr : eval1 c r with _ | ⟨r', ch2, cr⟩ <;> rw [hr] at h
      · exact absurd h (by simp)
      · cases ch2
        · simp only [Bool.false_eq_true, if_false, Option.some.injEq,
            Prod.mk.injEq] at h
          exact h.1.symm
        · simp only [if_true, Option.some.injEq, Prod.mk.injEq] at h
          exact absurd h.2.1 (by simp)
    | app ll lr =>
      simp only [eval1] at h
      rcases hl : eval1 c (.app ll lr) with _ | ⟨l', ch, cl⟩ <;> rw [hl] at h
      · exact absurd h (by simp)
      · cases ch
        · simp only [Bool.false_eq_true, if_false] at h
          rcases hr : eval1 cl r with _ | ⟨r', ch2, cr⟩ <;> rw [hr] at h
          · exact absurd h (by simp)
          · cases ch2
            · simp only [Bool.false_eq_true, if_false, Option.some.injEq,
                Prod.mk.injEq] at h
              exact h.1.symm
            · simp only [if_true, Option.some.injEq, Prod.mk.injEq] at h
              exact absurd h.2.1 (by simp)
        · simp only [if_true, Option.some.injEq, Prod.mk.injEq] at h
          exact absurd h.2.1 (by simp)

/-- C3 counterexample: the claim says `eval_bounded` returns `Limit`
whenever the pre-step mass check finds `mass(curr) > mass_limit`, for
every `mass_limit`; but the code disables the check when
`mass_limit = 0`: starting from the variable `x` (mass 1 > 0) with
`mass_limit = 0` it returns `Done`, not `Limit`. -/
theorem C3_counterexample :
    (Expr.var ⟨"x", 0⟩).mass > 0 ∧
    evalBounded 1 0 (.var ⟨"x", 0⟩) 0 = (.done (.var ⟨"x", 0⟩), 0) := by
  constructor
  · decide
  · simp [evalBounded, eval1]

/-- C3 (amended: the mass ceiling is only enforced when `mass_limit > 0`;
`mass_limit = 0` disables the mass check): `eval_bounded` iterates `eval1`
at most `step_limit` times; it returns `Done(curr)` exactly when, after
`k < step_limit` changed steps that each passed the mass check, the next
mass check passes and `eval1` reports no change; it returns `Error`
exactly when the next `eval1` step fails; and it returns `Limit` either
after `step_limit` changed iterations without convergence or when a mass
check performed before a step (with `mass_limit > 0`) finds
`mass(curr) > mass_limit`. -/
theorem C3_eval_bounded_characterisation (limit maxMass : Nat) (start : Expr)
    (ctr : Nat) :
    (∀ out ctr', evalBounded limit maxMass start ctr = (.done out, ctr') ↔
      ∃ k, k < limit ∧ ∃ ec : Expr × Nat, drive k maxMass start ctr = some ec ∧
        ¬(maxMass > 0 ∧ ec.1.mass > maxMass) ∧
        eval1 ec.2 ec.1 = some (ec.1, false, ctr') ∧ out = ec.1)
  ∧ (∀ ctr', evalBounded limit maxMass start ctr = (.error, ctr') ↔
      ∃ k, k < limit ∧ ∃ ec : Expr × Nat, drive k maxMass start ctr = some ec ∧
        ¬(maxMass > 0 ∧ ec.1.mass > maxMass) ∧
        eval1 ec.2 ec.1 = none ∧ ctr' = ec.2)
  ∧ (∀ ctr', evalBounded limit maxMass start ctr = (.limit, ctr') ↔
      ((∃ ec : Expr × Nat, drive limit maxMass start ctr = some ec ∧
          ctr' = ec.2) ∨
        ∃ k, k < limit ∧ ∃ ec : Expr × Nat,
          drive k maxMass start ctr = some ec ∧
          maxMass > 0 ∧ ec.1.mass > maxMass ∧ ctr' = ec.2)) := by
  induction limit generalizing start ctr with
  | zero =>
    refine ⟨fun out ctr' => ?_, fun ctr' => ?_, fun ctr' => ?_⟩
    · simp [evalBounded]
    · simp [evalBounded]
    · simp only [evalBounded, drive]
      constructor
      · rintro h
        exact Or.inl ⟨(start, ctr), rfl, by
          simpa using congrArg Prod.snd h.symm⟩
      · rintro (⟨ec, hec, hc⟩ | ⟨k, hk, _⟩)
        · obtain rfl : ec = (start, ctr) := by simpa using hec.symm
          simp [hc]
        · omega
  | succ n ih =>
    by_cases hmass : maxMass > 0 ∧ start.mass > maxMass
    · have hEB : evalBounded (n + 1) maxMass start ctr = (.limit, ctr) := by
        simp [evalBounded, hmass]
      have hdriveS : ∀ k, drive (k + 1) maxMass start ctr = none := by
        intro k; simp [drive, hmass]
      refine ⟨fun out ctr' => ?_, fun ctr' => ?_, fun ctr' => ?_⟩
      · rw [hEB]
        constructor
        · intro h; exact absurd (congrArg Prod.fst h) (by simp)
        · rintro ⟨k, hk, ec, hec, hm, hev, rfl⟩
          match k with
          | 0 =>
            obtain rfl : ec = (start, ctr) := by simpa [drive] using hec.symm
            exact absurd hmass hm
          | k + 1 => rw [hdriveS] at hec; cases hec
      · rw [hEB]
        constructor
        · intro h; exact absurd (congrArg Prod.fst h) (by simp)
        · rintro ⟨k, hk, ec, hec, hm, hev, rfl⟩
          match k with
          | 0 =>
            obtain rfl : ec = (start, ctr) := by simpa [drive] using hec.symm
            exact absurd hmass hm
          | k + 1 => rw [hdriveS] at hec; cases hec
      · rw [hEB]
        constructor
        · intro h
          obtain rfl : ctr = ctr' := by simpa using congrArg Prod.snd h
          exact Or.inr ⟨0, Nat.succ_pos n, (start, ctr), rfl, hmass.1, hmass.2, rfl⟩
        · rintro (⟨ec, hec, rfl⟩ | ⟨k, hk, ec, hec, _, _, rfl⟩)
          · rw [hdriveS] at hec; cases hec
          · match k with
            | 0 =>
              obtain rfl : ec = (start, ctr) := by simpa [drive] using hec.symm
              rfl
            | k + 1 => rw [hdriveS] at hec; cases hec
    · rcases hev : eval1 ctr start with _ | ⟨next, ch, c1⟩
      · have hEB : evalBounded (n + 1) maxMass start ctr = (.error, ctr) := by
          simp [evalBounded, hmass, hev]
        have hdriveS : ∀ k, drive (k + 1) maxMass start ctr = none := by
          intro k; simp [drive, hmass, hev]
        refine ⟨fun out ctr' => ?_, fun ctr' => ?_, fun ctr' => ?_⟩
        · rw [hEB]
          constructor
          · intro h; exact absurd (congrArg Prod.fst h) (by simp)
          · rintro ⟨k, hk, ec, hec, hm, hev2, rfl⟩
            match k with
            | 0 =>
              obtain rfl : ec = (start, ctr) := by simpa [drive] using hec.symm
              rw [hev] at hev2; cases hev2
            | k + 1 => rw [hdriveS] at hec; cases hec
        · rw [hEB]
          constructor
          · intro h
            obtain rfl : ctr = ctr' := by simpa using congrArg Prod.snd h
            exact ⟨0, Nat.succ_pos n, (start, ctr), rfl, hmass, hev, rfl⟩
          · rintro ⟨k, hk, ec, hec, hm, hev2, rfl⟩
            match k with
            | 0 =>
              obtain rfl : ec = (start, ctr) := by simpa [drive] using hec.symm
              rfl
            | k + 1 => rw [hdriveS] at hec; cases hec
        · rw [hEB]
          constructor
          · intro h; exact absurd (congrArg Prod.fst h) (by simp)
          · rintro (⟨ec, hec, rfl⟩ | ⟨k, hk, ec, hec, h1, h2, rfl⟩)
            · rw [hdriveS] at hec; cases hec
            · match k with
              | 0 =>
                obtain rfl : ec = (start, ctr) := by simpa [drive] using hec.symm
                exact absurd ⟨h1, h2⟩ hmass
              | k + 1 => rw [hdriveS] at hec; cases hec
      · cases ch
        · -- unchanged step: EVAL_DONE with the input expression
          have hns : next = start := eval1_unchanged_eq hev
          rw [hns] at hev
          have hEB : evalBounded (n + 1) maxMass start ctr =
              (.done start, c1) := by
            simp [evalBounded, hmass, hev]
          have hdriveS : ∀ k, drive (k + 1) maxMass start ctr = none := by
            intro k; simp [drive, hmass, hev]
          refine ⟨fun out ctr' => ?_, fun ctr' => ?_, fun ctr' => ?_⟩
          · rw [hEB]
            constructor
            · intro h
              obtain rfl : start = out := by
                simpa using congrArg Prod.fst h
              obtain rfl : c1 = ctr' := by
                simpa using congrArg Prod.snd h
              exact ⟨0, Nat.succ_pos n, (start, ctr), rfl, hmass, hev, rfl⟩
            · rintro ⟨k, hk, ec, hec, hm, hev2, rfl⟩
              match k with
              | 0 =>
                obtain rfl : ec = (start, ctr) := by simpa [drive] using hec.symm
                rw [hev] at hev2
                simp only [Option.some.injEq, Prod.mk.injEq] at hev2
                rw [hev2.2.2]
              | k + 1 => rw [hdriveS] at hec; cases hec
          · rw [hEB]
            constructor
            · intro h; exact absurd (congrArg Prod.fst h) (by simp)
            · rintro ⟨k, hk, ec, hec, hm, hev2, rfl⟩
              match k with
              | 0 =>
                obtain rfl : ec = (start, ctr) := by simpa [drive] using hec.symm
                rw [hev] at hev2; cases hev2
              | k + 1 => rw [hdriveS] at hec; cases hec
          · rw [hEB]
            constructor
            · intro h; exact absurd (congrArg Prod.fst h) (by simp)
            · rintro (⟨ec, hec, rfl⟩ | ⟨k, hk, ec, hec, h1, h2, rfl⟩)
              · rw [hdriveS] at hec; cases hec
              · match k with
                | 0 =>
                  obtain rfl : ec = (start, ctr) := by simpa [drive] using hec.symm
                  exact absurd ⟨h1, h2⟩ hmass
                | k + 1 => rw [hdriveS] at hec; cases hec
        · -- changed step: recurse
          have hEB : evalBounded (n + 1) maxMass start ctr =
              evalBounded n maxMass next c1 := by
            simp [evalBounded, hmass, hev]
          have hdrive : ∀ k, drive (k + 1) maxMass start ctr =
              drive k maxMass next c1 := by
            intro k; simp [drive, hmass, hev]
          refine ⟨fun out ctr' => ?_, fun ctr' => ?_, fun ctr' => ?_⟩
          · rw [hEB, (ih next c1).1 out ctr']
            constructor
            · rintro ⟨k, hk, ec, hec, hm, hev2, rfl⟩
              exact ⟨k + 1, by omega, ec, by rw [hdrive]; exact hec, hm, hev2, rfl⟩
            · rintro ⟨k, hk, ec, hec, hm, hev2, rfl⟩
              match k with
              | 0 =>
                obtain rfl : ec = (start, ctr) := by simpa [drive] using hec.symm
                rw [hev] at hev2
                simp only [Option.some.injEq, Prod.mk.injEq] at hev2
                exact absurd hev2.2.1 (by simp)
              | k + 1 =>
                rw [hdrive] at hec
                exact ⟨k, by omega, ec, hec, hm, hev2, rfl⟩
          · rw [hEB, (ih next c1).2.1 ctr']
            constructor
            · rintro ⟨k, hk, ec, hec, hm, hev2, rfl⟩
              exact ⟨k + 1, by omega, ec, by rw [hdrive]; exact hec, hm, hev2, rfl⟩
            · rintro ⟨k, hk, ec, hec, hm, hev2, rfl⟩
              match k with
              | 0 =>
                obtain rfl : ec = (start, ctr) := by simpa [drive] using hec.symm
                rw [hev] at hev2; cases hev2
              | k + 1 =>
                rw [hdrive] at hec
                exact ⟨k, by omega, ec, hec, hm, hev2, rfl⟩
          · rw [hEB, (ih next c1).2.2 ctr']
            constructor
            · rintro (⟨ec, hec, rfl⟩ | ⟨k, hk, ec, hec, h1, h2, rfl⟩)
              · exact Or.inl ⟨ec, by rw [hdrive]; exact hec, rfl⟩
              · exact Or.inr ⟨k + 1, by omega, ec, by rw [hdrive]; exact hec,
                  h1, h2, rfl⟩
            · rintro (⟨ec, hec, rfl⟩ | ⟨k, hk, ec, hec, h1, h2, rfl⟩)
              · rw [hdrive] at hec
                exact Or.inl ⟨ec, hec, rfl⟩
              · match k with
                | 0 =>
                  obtain rfl : ec = (start, ctr) := by simpa [drive] using hec.symm
                  exact absurd ⟨h1, h2⟩ hmass
                | k + 1 =>
                  rw [hdrive] at hec
                  exact Or.inr ⟨k, by omega, ec, hec, h1, h2, rfl⟩

/-- Witness for C3: `(\x.x) y` with step limit 2 converges to `y` after one
changed step; the characterisation yields the witnessing trajectory. -/
theorem C3_eval_bounded_characterisation_witness :
    ∃ k, k < 2 ∧ ∃ ec : Expr × Nat,
      drive k 0 (.app (.fn ⟨"x", 0⟩ (.var ⟨"x", 0⟩)) (.var ⟨"y", 0⟩)) 0 =
        some ec ∧
      ¬((0 : Nat) > 0 ∧ ec.1.mass > 0) ∧
      eval1 ec.2 ec.1 = some (ec.1, false, 0) ∧ (Expr.var ⟨"y", 0⟩) = ec.1 :=
  ((C3_eval_bounded_characterisation 2 0
      (.app (.fn ⟨"x", 0⟩ (.var ⟨"x", 0⟩)) (.var ⟨"y", 0⟩)) 0).1
    (.var ⟨"y", 0⟩) 0).mp
    (by simp [evalBounded, eval1, replace_var])

/-!
Claim C5: magic-operator dispatch
-/

/-- C5: with a `Magic` head, `#void e` steps its argument: if `e` steps to
`e'` the result is `App(#void, e')`, and if `e` is a normal form the
result is the `Magic(void)` node itself (the argument is discarded);
`#trace` steps analogously but returns a normal-form argument unchanged
(the `TRACE:` line is a side effect outside the embedding); any other
magic label makes `eval1` fail, which `eval_bounded` reports as `Error`. -/
theorem C5_magic_dispatch :
    (∀ r ctr r' ctr', eval1 ctr r = some (r', true, ctr') →
        eval1 ctr (.app (.mag "void") r) = some (.app (.mag "void") r', true, ctr'))
  ∧ (∀ r ctr r' ctr', eval1 ctr r = some (r', false, ctr') →
        eval1 ctr (.app (.mag "void") r) = some (.mag "void", true, ctr'))
  ∧ (∀ r ctr r' ctr', eval1 ctr r = some (r', true, ctr') →
        eval1 ctr (.app (.mag "trace") r) = some (.app (.mag "trace") r', true, ctr'))
  ∧ (∀ r ctr r' ctr', eval1 ctr r = some (r', false, ctr') →
        eval1 ctr (.app (.mag "trace") r) = some (r, true, ctr'))
  ∧ (∀ (m : String) r ctr, m ≠ "trace" → m ≠ "void" →
        eval1 ctr (.app (.mag m) r) = none)
  ∧ (∀ (m : String) r ctr n maxMass, m ≠ "trace" → m ≠ "void" →
        ¬(maxMass > 0 ∧ (Expr.app (.mag m) r).mass > maxMass) →
        evalBounded (n + 1) maxMass (.app (.mag m) r) ctr = (.error, ctr)) := by
  refine ⟨fun r ctr r' ctr' h => ?_, fun r ctr r' ctr' h => ?_,
          fun r ctr r' ctr' h => ?_, fun r ctr r' ctr' h => ?_,
          fun m r ctr ht hv => ?_, fun m r ctr n maxMass ht hv hm => ?_⟩
  · simp [eval1, h]
  · simp [eval1, h]
  · simp [eval1, h]
  · simp [eval1, h]
  · simp [eval1, ht, hv]
  · simp [evalBounded, eval1, ht, hv, hm]

/-- Witness for C5: `#void (\x.x)` yields `#void` in one step, and
`#foo x` makes `eval_bounded` report an error. -/
theorem C5_magic_dispatch_witness :
    eval1 0 (.fn ⟨"x", 0⟩ (.var ⟨"x", 0⟩)) =
      some (.fn ⟨"x", 0⟩ (.var ⟨"x", 0⟩), false, 0) ∧
    eval1 0 (.app (.mag "void") (.fn ⟨"x", 0⟩ (.var ⟨"x", 0⟩))) =
      some (.mag "void", true, 0) ∧
    evalBounded 5 0 (.app (.mag "foo") (.var ⟨"x", 0⟩)) 0 = (.error, 0) :=
  ⟨by decide,
   C5_magic_dispatch.2.1 (.fn ⟨"x", 0⟩ (.var ⟨"x", 0⟩)) 0
     (.fn ⟨"x", 0⟩ (.var ⟨"x", 0⟩)) 0 (by decide),
   by
    have := C5_magic_dispatch.2.2.2.2.2 "foo" (.var ⟨"x", 0⟩) 0 4 0
      (by decide) (by decide) (by decide)
    simpa using this⟩

/-!
Claim C9: the combinator generator

`generate_rich_combinator(current_depth, max_depth, env, env_count)` of
lamb_lib.c.  `rand()` is modelled as a stream `f : Nat → Nat` with a
cursor `k` that is threaded through and returned (each `rand()` call is
`f k` and advances `k`; in the App case the left operand's stream
position is consumed first).  The C `goto do_abs`/`do_app` bodies are
inlined at each jump site.  `env` is the C array of interned parameter
names; `env_count` is its length.
-/

/-- The identity `\x.x` used as the emergency fallback. -/
def identityFun : Expr := .fn ⟨"x", 0⟩ (.var ⟨"x", 0⟩)

def generate_rich_combinator (f : Nat → Nat) (currentDepth maxDepth : Nat)
    (env : List String) (k : Nat) : Expr × Nat :=
  -- 1. HARD STOP at the depth limit
  if currentDepth ≥ maxDepth then
    if he : env.length > 0 then
      (.var ⟨env.get ⟨f k % env.length, Nat.mod_lt _ he⟩, 0⟩, k + 1)
    else
      (identityFun, k)
  else
    -- 3. WEIGHTED CHOICE; with no bound variables we must Abstract
    if env.length = 0 then
      -- do_abs with no random draw
      let paramName := "v" ++ toString env.length
      if env.length ≥ 63 then (identityFun, k)
      else
        let rb := generate_rich_combinator f (currentDepth + 1) maxDepth
          (env ++ [paramName]) k
        (.fn ⟨paramName, 0⟩ rb.1, rb.2)
    else
      let r := f k % 100
      if currentDepth < maxDepth / 3 then
        -- force growth: 60% App, 40% Abs
        if r < 60 then
          let rl := generate_rich_combinator f (currentDepth + 1) maxDepth env (k + 1)
          let rr := generate_rich_combinator f (currentDepth + 1) maxDepth env rl.2
          (.app rl.1 rr.1, rr.2)
        else
          let paramName := "v" ++ toString env.length
          if env.length ≥ 63 then (identityFun, k + 1)
          else
            let rb := generate_rich_combinator f (currentDepth + 1) maxDepth
              (env ++ [paramName]) (k + 1)
            (.fn ⟨paramName, 0⟩ rb.1, rb.2)
      else
        -- late game: 50% App, 30% Abs, 20% Var
        if r < 50 then
          let rl := generate_rich_combinator f (currentDepth + 1) maxDepth env (k + 1)
          let rr := generate_rich_combinator f (currentDepth + 1) maxDepth env rl.2
          (.app rl.1 rr.1, rr.2)
        else if r < 80 then
          let paramName := "v" ++ toString env.length
          if env.length ≥ 63 then (identityFun, k + 1)
          else
            let rb := generate_rich_combinator f (currentDepth + 1) maxDepth
              (env ++ [paramName]) (k + 1)
            (.fn ⟨paramName, 0⟩ rb.1, rb.2)
        else
          if he : env.length > 0 then
            (.var ⟨env.get ⟨f (k + 1) % env.length, Nat.mod_lt _ he⟩, 0⟩, k + 2)
          else
            (identityFun, k + 2)
termination_by maxDepth - currentDepth
decreasing_by all_goals omega

theorem identityFun_closed (v : Symbol) : isVarFreeThere v identityFun = false := by
  by_cases h : (⟨"x", 0⟩ : Symbol) = v <;> simp [identityFun, isVarFreeThere, h]

/-- Every variable the generator emits is drawn (with tag 0) from the
enclosing environment of bound parameter names. -/
theorem generate_rich_combinator_free_env :
    ∀ (f : Nat → Nat) (d D : Nat) (env : List String) (k : Nat) (v : Symbol),
      isVarFreeThere v (generate_rich_combinator f d D env k).1 = true →
      v.tag = 0 ∧ v.label ∈ env := by
  suffices H : ∀ (n : Nat) (f : Nat → Nat) (d D : Nat) (env : List String)
      (k : Nat) (v : Symbol), D - d ≤ n →
      isVarFreeThere v (generate_rich_combinator f d D env k).1 = true →
      v.tag = 0 ∧ v.label ∈ env by
    exact fun f d D env k v => H (D - d) f d D env k v le_rfl
  intro n
  induction n with
  | zero =>
    intro f d D env k v hn hfree
    rw [generate_rich_combinator] at hfree
    rw [if_pos (by omega : d ≥ D)] at hfree
    by_cases he : env.length > 0
    · rw [dif_pos he] at hfree
      simp only [isVarFreeThere, decide_eq_true_eq] at hfree
      exact ⟨by rw [← hfree], by rw [← hfree]; exact List.get_mem env _ _⟩
    · rw [dif_neg he] at hfree
      rw [identityFun_closed] at hfree
      cases hfree
  | succ n ih =>
    intro f d D env k v hn hfree
    by_cases hd : d ≥ D
    · rw [generate_rich_combinator, if_pos hd] at hfree
      by_cases he : env.length > 0
      · rw [dif_pos he] at hfree
        simp only [isVarFreeThere, decide_eq_true_eq] at hfree
        exact ⟨by rw [← hfree], by rw [← hfree]; exact List.get_mem env _ _⟩
      · rw [dif_neg he] at hfree
        rw [identityFun_closed] at hfree
        cases hfree
    · have hstep : D - (d + 1) ≤ n := by omega
      rw [generate_rich_combinator, if_neg hd] at hfree
      -- helper facts for the Abs outcome
      have habs : ∀ (k' : Nat),
          isVarFreeThere v
            (.fn ⟨"v" ++ toString env.length, 0⟩
              (generate_rich_combinator f (d + 1) D
                (env ++ ["v" ++ toString env.length]) k').1 : Expr) = true →
          v.tag = 0 ∧ v.label ∈ env := by
        intro k' hf
        simp only [isVarFreeThere] at hf
        by_cases hpv : (⟨"v" ++ toString env.length, 0⟩ : Symbol) = v
        · rw [if_pos hpv] at hf; cases hf
        · rw [if_neg hpv] at hf
          obtain ⟨ht, hm⟩ := ih f (d + 1) D _ k' v hstep hf
          rcases List.mem_append.mp hm with h | h
          · exact ⟨ht, h⟩
          · exfalso
            apply hpv
            have : v.label = "v" ++ toString env.length := by simpa using h
            cases v
            simp_all
      have happ : ∀ (k' : Nat),
          isVarFreeThere v
            (.app (generate_rich_combinator f (d + 1) D env (k + 1)).1
              (generate_rich_combinator f (d + 1) D env k').1 : Expr) = true →
          v.tag = 0 ∧ v.label ∈ env := by
        intro k' hf
        simp only [isVarFreeThere, Bool.or_eq_true] at hf
        rcases hf with hf | hf
        · exact ih f (d + 1) D env (k + 1) v hstep hf
        · exact ih f (d + 1) D env k' v hstep hf
      by_cases he0 : env.length = 0
      · rw [if_pos he0] at hfree
        by_cases hcap : env.length ≥ 63
        · rw [if_pos hcap] at hfree
          rw [identityFun_closed] at hfree; cases hfree
        · rw [if_neg hcap] at hfree
          have := habs k (by
            simpa using hfree)
          exact this
      · rw [if_neg he0] at hfree
        by_cases hforce : d < D / 3
        · rw [if_pos hforce] at hfree
          by_cases hr : f k % 100 < 60
          · rw [if_pos hr] at hfree
            exact happ _ (by simpa using hfree)
          · rw [if_neg hr] at hfree
            by_cases hcap : env.length ≥ 63
            · rw [if_pos hcap] at hfree
              rw [identityFun_closed] at hfree; cases hfree
            · rw [if_neg hcap] at hfree
              exact habs _ (by simpa using hfree)
        · rw [if_neg hforce] at hfree
          by_cases hr : f k % 100 < 50
          · rw [if_pos hr] at hfree
            exact happ _ (by simpa using hfree)
          · rw [if_neg hr] at hfree
            by_cases hr2 : f k % 100 < 80
            · rw [if_pos hr2] at hfree
              by_cases hcap : env.length ≥ 63
              · rw [if_pos hcap] at hfree
                rw [identityFun_closed] at hfree; cases hfree
              · rw [if_neg hcap] at hfree
                exact habs _ (by simpa using hfree)
            · rw [if_neg hr2] at hfree
              by_cases he : env.length > 0
              · rw [dif_pos he] at hfree
                simp only [isVarFreeThere, decide_eq_true_eq] at hfree
                exact ⟨by rw [← hfree], by rw [← hfree]; exact List.get_mem env _ _⟩
              · omega

/-- C9: for every depth limit and every stream of random draws,
`generate_rich_combinator(0, D, empty env, 0)` returns a closed
expression; at the depth limit it returns a variable drawn from the
environment when the environment is non-empty and the identity `Fun`
otherwise; and every `Var` it emits is drawn from the enclosing
environment of bound parameters. -/
theorem C9_generator_closed :
    (∀ (f : Nat → Nat) (D k : Nat) (v : Symbol),
        isVarFreeThere v (generate_rich_combinator f 0 D [] k).1 = false)
  ∧ (∀ (f : Nat → Nat) (d D : Nat) (env : List String) (k : Nat)
        (he : env.length > 0), d ≥ D →
        generate_rich_combinator f d D env k =
          (.var ⟨env.get ⟨f k % env.length, Nat.mod_lt _ he⟩, 0⟩, k + 1))
  ∧ (∀ (f : Nat → Nat) (d D : Nat) (env : List String) (k : Nat),
        env.length = 0 → d ≥ D →
        generate_rich_combinator f d D env k = (identityFun, k))
  ∧ (∀ (f : Nat → Nat) (d D : Nat) (env : List String) (k : Nat) (v : Symbol),
        isVarFreeThere v (generate_rich_combinator f d D env k).1 = true →
        v.tag = 0 ∧ v.label ∈ env) := by
  refine ⟨fun f D k v => ?_, fun f d D env k he hd => ?_,
          fun f d D env k he hd => ?_, generate_rich_combinator_free_env⟩
  · by_contra h
    have h' : isVarFreeThere v (generate_rich_combinator f 0 D [] k).1 = true := by
      simpa using h
    obtain ⟨-, hm⟩ := generate_rich_combinator_free_env f 0 D [] k v h'
    simp at hm
  · rw [generate_rich_combinator, if_pos hd, dif_pos he]
  · rw [generate_rich_combinator, if_pos hd, dif_neg (by omega)]

/-- Witness for C9: at the depth limit with environment `["a"]` the
generator returns `Var a`; with an empty environment it returns the
identity; and a concrete depth-2 generation is closed. -/
theorem C9_generator_closed_witness :
    isVarFreeThere ⟨"a", 0⟩
      (generate_rich_combinator (fun _ => 0) 0 2 [] 0).1 = false ∧
    generate_rich_combinator (fun _ => 0) 1 1 ["a"] 5 = (.var ⟨"a", 0⟩, 6) ∧
    generate_rich_combinator (fun _ => 0) 3 2 [] 7 = (identityFun, 7) :=
  ⟨C9_generator_closed.1 (fun _ => 0) 2 0 ⟨"a", 0⟩,
   by
    have := C9_generator_closed.2.1 (fun _ => 0) 1 1 ["a"] 5 (by decide)
      (le_refl 1)
    simpa using this,
   C9_generator_closed.2.2.1 (fun _ => 0) 3 2 [] 7 rfl (by omega)⟩

/-!
Claim C6: pretty-printer, lexer and parser

`expr_display` builds a string through a `String_Builder`; the `while`
loop over a `Fun` chain is the mutual function `funChainDisplay` with its
first iteration inlined (the loop body runs at least once on a `Fun`).
`%zu` prints a `Nat` tag in decimal (`toString`).

The lexer walks the input buffer by position; only the remaining
character list is observable by the parser (row/col only feed error
messages), so the lexer state is the remaining `List Char`.  `lexer_peek`
saves and restores the cursor, i.e. it does not consume.  A failing
`lexer_next` (`TOKEN_INVALID`) is `none`.

The C parser recursion has no fuel; the Lean model adds a fuel parameter
(first argument), `none` on exhaustion, and the round-trip statement
quantifies the fuel existentially, with monotonicity in the fuel.
-/

def Expr.isMag : Expr → Bool
  | .mag _ => true
  | _ => false

def Expr.isFn : Expr → Bool
  | .fn _ _ => true
  | _ => false

/-- One parameter of a `Fun` chain: `name:tag.` when `tag ≠ 0`, else
`name.`. -/
def dispParam (p : Symbol) : String :=
  if p.tag ≠ 0 then p.label ++ ":" ++ toString p.tag ++ "." else p.label ++ "."

mutual

/-- `expr_display` of lamb_lib.c. -/
def exprDisplay : Expr → String
  | .var v => v.label ++ (if v.tag ≠ 0 then ":" ++ toString v.tag else "")
  | .mag m => "#" ++ m
  | .fn p b => "\\" ++ dispParam p ++ funChainDisplay b
  | .app l r =>
    (if l.isFn then "(" ++ exprDisplay l ++ ")" else exprDisplay l) ++ " " ++
      (if r.isVar || r.isMag then exprDisplay r else "(" ++ exprDisplay r ++ ")")
termination_by e => (sizeOf e, 0)

/-- The `while (kind == EXPR_FUN)` loop of `expr_display`, after its first
iteration. -/
def funChainDisplay : Expr → String
  | .fn p b => dispParam p ++ funChainDisplay b
  | e => exprDisplay e
termination_by e => (sizeOf e, 1)

end

/-- Token kinds of the lexer (`Token_Kind`); `TOKEN_INVALID` is the `none`
of `lexNext`, and NAME/MAGIC carry the scanned characters. -/
inductive Token where
  | oparen | cparen | lambda | dot | colon | semicolon | equals
  | name (s : List Char) | magicT (s : List Char) | endT
deriving DecidableEq, Repr

/-- `isspace` of the C locale. -/
def isspaceC (c : Char) : Bool :=
  c = ' ' || c = '\t' || c = '\n' || c = '\x0b' || c = '\x0c' || c = '\r'

/-- `issymbol`: alphanumeric or underscore. -/
def issymbolC (c : Char) : Bool := c.isAlphanum || c = '_'

/-- `lexer_drop_line`: consume up to and including the next newline. -/
def dropToNewline : List Char → List Char
  | [] => []
  | c :: cs => if c = '\n' then cs else dropToNewline cs

theorem dropToNewline_length_le : ∀ l : List Char,
    (dropToNewline l).length ≤ l.length := by
  intro l
  induction l with
  | nil => simp [dropToNewline]
  | cons c cs ih =>
    by_cases h : c = '\n' <;> (simp [dropToNewline, h]; try omega)

/-- The trim/comment loop at the head of `lexer_next`
(`lexer_trim_left`, then `lexer_starts_with(l, "//")` and
`lexer_drop_line`, repeated).  `lexer_starts_with "//"` is: current char
`'/'` and the following char `'/'`; `lexer_drop_line` consumes up to and
including the newline (neither slash is a newline, so dropping from after
the second slash is the same). -/
def lexSkip : List Char → List Char
  | [] => []
  | c :: cs =>
    if isspaceC c then lexSkip cs
    else if c = '/' ∧ cs.head? = some '/' then lexSkip (dropToNewline cs.tail)
    else c :: cs
termination_by l => l.length
decreasing_by
  · simp
  · have h1 := dropToNewline_length_le cs.tail
    have h2 : cs.tail.length ≤ cs.length := by
      cases cs <;> simp
    simp only [List.length_cons]
    omega

/-- Scan a maximal run of symbol characters (the NAME/MAGIC body loops). -/
def takeSymbol : List Char → List Char × List Char
  | [] => ([], [])
  | c :: cs =>
    if issymbolC c then
      let (s, rest) := takeSymbol cs
      (c :: s, rest)
    else ([], c :: cs)

/-- `lexer_next`: skip whitespace and `//` comments, then scan one token;
`none` is `TOKEN_INVALID`. -/
def lexNext (input : List Char) : Option (Token × List Char) :=
  match lexSkip input with
  | [] => some (.endT, [])
  | c :: cs =>
    if c = '(' then some (.oparen, cs)
    else if c = ')' then some (.cparen, cs)
    else if c = '\\' then some (.lambda, cs)
    else if c = '.' then some (.dot, cs)
    else if c = ':' then some (.colon, cs)
    else if c = ';' then some (.semicolon, cs)
    else if c = '=' then some (.equals, cs)
    else if c = '#' then
      some (.magicT (takeSymbol cs).1, (takeSymbol cs).2)
    else if issymbolC c then
      some (.name (c :: (takeSymbol cs).1), (takeSymbol cs).2)
    else none

mutual

/-- `parse_fun`: expect NAME and DOT, two-token lookahead to detect a
dot-chained parameter list, then the body. -/
def parseFun : Nat → List Char → Option (Expr × List Char)
  | 0, _ => none
  | fuel + 1, input =>
    match lexNext input with
    | some (.name s, in1) =>
      (match lexNext in1 with
       | some (.dot, in2) =>
         (match lexNext in2 with
          | some (a, inA) =>
            (match lexNext inA with
             | some (b, _) =>
               (match a, b with
                | .name _, .dot =>
                  (match parseFun fuel in2 with
                   | some (body, in3) => some (.fn ⟨⟨s⟩, 0⟩ body, in3)
                   | none => none)
                | _, _ =>
                  (match parseExpr fuel in2 with
                   | some (body, in3) => some (.fn ⟨⟨s⟩, 0⟩ body, in3)
                   | none => none))
             | none => none)
          | none => none)
       | _ => none)
    | _ => none

/-- `parse_primary`. -/
def parsePrimary : Nat → List Char → Option (Expr × List Char)
  | 0, _ => none
  | fuel + 1, input =>
    match lexNext input with
    | some (.oparen, in1) =>
      (match parseExpr fuel in1 with
       | some (e, in2) =>
         (match lexNext in2 with
          | some (.cparen, in3) => some (e, in3)
          | _ => none)
       | none => none)
    | some (.lambda, in1) => parseFun fuel in1
    | some (.magicT s, in1) => some (.mag ⟨s⟩, in1)
    | some (.name s, in1) => some (.var ⟨⟨s⟩, 0⟩, in1)
    | _ => none

/-- `parse_expr`: one primary, then the left-associative application
loop. -/
def parseExpr : Nat → List Char → Option (Expr × List Char)
  | 0, _ => none
  | fuel + 1, input =>
    match parsePrimary fuel input with
    | some (e, in1) => parseExprLoop fuel e in1
    | none => none

/-- The `while` loop of `parse_expr`: peek; stop on `)` `;` or
end-of-input without consuming; otherwise read one more primary and
left-associate. -/
def parseExprLoop : Nat → Expr → List Char → Option (Expr × List Char)
  | 0, _, _ => none
  | fuel + 1, acc, input =>
    match lexNext input with
    | none => none
    | some (t, _) =>
      if t = .cparen ∨ t = .endT ∨ t = .semicolon then some (acc, input)
      else
        match parsePrimary fuel input with
        | some (r, in1) => parseExprLoop fuel (.app acc r) in1
        | none => none

end

/-!
Lexer lemmas for the round-trip proof
-/

/-- The next character (if any) does not extend a NAME/MAGIC run. -/
def headNotSym (rest : List Char) : Prop :=
  ∀ c, rest.head? = some c → issymbolC c = false

/-- The parser's loop sees a stopping token (`)` `;` or end) at `rest`. -/
def stopPeek (rest : List Char) : Prop :=
  ∃ t i, lexNext rest = some (t, i) ∧
    (t = Token.cparen ∨ t = Token.endT ∨ t = Token.semicolon)

theorem headNotSym_nil : headNotSym [] := by
  intro c hc; cases hc

theorem headNotSym_cons {c : Char} (h : issymbolC c = false) (tl : List Char) :
    headNotSym (c :: tl) := by
  intro c' hc'
  obtain rfl : c = c' := by simpa using hc'
  exact h

theorem isspaceC_cases {c : Char} (h : isspaceC c = true) :
    c = ' ' ∨ c = '\t' ∨ c = '\n' ∨ c = '\x0b' ∨ c = '\x0c' ∨ c = '\r' := by
  simp only [isspaceC, Bool.or_eq_true, decide_eq_true_eq] at h
  tauto

theorem issymbolC_spec {c : Char} (h : issymbolC c = true) :
    isspaceC c = false ∧ c ≠ '(' ∧ c ≠ ')' ∧ c ≠ '\\' ∧ c ≠ '.' ∧ c ≠ ':' ∧
      c ≠ ';' ∧ c ≠ '=' ∧ c ≠ '#' ∧ c ≠ '/' := by
  refine ⟨?_, ?_, ?_, ?_, ?_, ?_, ?_, ?_, ?_, ?_⟩
  · by_contra hs
    have hs' : isspaceC c = true := by simpa using hs
    rcases isspaceC_cases hs' with rfl | rfl | rfl | rfl | rfl | rfl <;>
      exact absurd h (by decide)
  all_goals (intro hc; rw [hc] at h; exact absurd h (by decide))

theorem lexSkip_symb {c : Char} (h : issymbolC c = true) (tl : List Char) :
    lexSkip (c :: tl) = c :: tl := by
  obtain ⟨hs, -, -, -, -, -, -, -, -, h10⟩ := issymbolC_spec h
  rw [lexSkip, if_neg (by simp [hs]), if_neg (by simp [h10])]

theorem lexSkip_hash (tl : List Char) : lexSkip ('#' :: tl) = '#' :: tl := by
  rw [lexSkip, if_neg (by decide : ¬ isspaceC '#' = true),
    if_neg (by simp : ¬('#' = '/' ∧ tl.head? = some '/'))]

theorem lexSkip_space (tl : List Char) : lexSkip (' ' :: tl) = lexSkip tl := by
  rw [lexSkip, if_pos (by decide : isspaceC ' ' = true)]

theorem takeSymbol_append {cs : List Char} (hcs : ∀ c ∈ cs, issymbolC c = true)
    {rest : List Char} (hrest : headNotSym rest) :
    takeSymbol (cs ++ rest) = (cs, rest) := by
  induction cs with
  | nil =>
    cases rest with
    | nil => simp [takeSymbol]
    | cons c tl =>
      have := hrest c (by simp)
      simp [takeSymbol, this]
  | cons c cs ih =>
    have hc := hcs c (by simp)
    have ih' := ih (fun c' hc' => hcs c' (by simp [hc']))
    simp [takeSymbol, hc, ih']

/-- A symbolic first character always lexes as a NAME token. -/
theorem lexNext_symb_head {c : Char} (hc : issymbolC c = true)
    (tl : List Char) :
    lexNext (c :: tl) =
      some (.name (c :: (takeSymbol tl).1), (takeSymbol tl).2) := by
  obtain ⟨hs, h2, h3, h4, h5, h6, h7, h8, h9, h10⟩ := issymbolC_spec hc
  simp only [lexNext, lexSkip_symb hc, h2, h3, h4, h5, h6, h7, h8, h9, hc,
    if_false, if_true]

/-- Scanning a NAME: a nonempty all-symbolic run followed by a
non-symbolic boundary. -/
theorem lexNext_name {cs : List Char} (hne : cs ≠ [])
    (hcs : ∀ c ∈ cs, issymbolC c = true) {rest : List Char}
    (hrest : headNotSym rest) :
    lexNext (cs ++ rest) = some (.name cs, rest) := by
  obtain ⟨c, cs', rfl⟩ : ∃ c cs', cs = c :: cs' := by
    cases cs with
    | nil => exact absurd rfl hne
    | cons c cs' => exact ⟨c, cs', rfl⟩
  have hc := hcs c (by simp)
  have hts := @takeSymbol_append cs'
    (fun c' hc' => hcs c' (List.mem_cons_of_mem _ hc')) _ hrest
  rw [List.cons_append, lexNext_symb_head hc, hts]

/-- Scanning a MAGIC token. -/
theorem lexNext_magic {m : List Char} (hm : ∀ c ∈ m, issymbolC c = true)
    {rest : List Char} (hrest : headNotSym rest) :
    lexNext ('#' :: (m ++ rest)) = some (.magicT m, rest) := by
  rw [lexNext, lexSkip_hash]
  simp [takeSymbol_append hm hrest]

theorem lexNext_oparen (tl : List Char) :
    lexNext ('(' :: tl) = some (.oparen, tl) := by
  have hsk : lexSkip ('(' :: tl) = '(' :: tl := by
    rw [lexSkip, if_neg (by decide : ¬ isspaceC '(' = true),
      if_neg (by simp : ¬('(' = '/' ∧ tl.head? = some '/'))]
  rw [lexNext, hsk]
  simp

theorem lexNext_cparen (tl : List Char) :
    lexNext (')' :: tl) = some (.cparen, tl) := by
  have hsk : lexSkip (')' :: tl) = ')' :: tl := by
    rw [lexSkip, if_neg (by decide : ¬ isspaceC ')' = true),
      if_neg (by simp : ¬(')' = '/' ∧ tl.head? = some '/'))]
  rw [lexNext, hsk]
  simp

theorem lexNext_lambda (tl : List Char) :
    lexNext ('\\' :: tl) = some (.lambda, tl) := by
  have hsk : lexSkip ('\\' :: tl) = '\\' :: tl := by
    rw [lexSkip, if_neg (by decide : ¬ isspaceC '\\' = true),
      if_neg (by simp : ¬('\\' = '/' ∧ tl.head? = some '/'))]
  rw [lexNext, hsk]
  simp

theorem lexNext_dot (tl : List Char) :
    lexNext ('.' :: tl) = some (.dot, tl) := by
  have hsk : lexSkip ('.' :: tl) = '.' :: tl := by
    rw [lexSkip, if_neg (by decide : ¬ isspaceC '.' = true),
      if_neg (by simp : ¬('.' = '/' ∧ tl.head? = some '/'))]
  rw [lexNext, hsk]
  simp

theorem lexNext_space (tl : List Char) : lexNext (' ' :: tl) = lexNext tl := by
  rw [lexNext, lexNext, lexSkip_space]

theorem lexNext_nil : lexNext [] = some (.endT, []) := by
  rw [lexNext]
  rw [show lexSkip [] = [] from by simp [lexSkip]]

/-- At a stopping token the upcoming character cannot be symbolic. -/
theorem stopPeek_headNotSym {rest : List Char} (h : stopPeek rest) :
    headNotSym rest := by
  intro c hc
  by_contra hsym
  have hsym' : issymbolC c = true := by simpa using hsym
  obtain ⟨t, i, hlex, hstop⟩ := h
  cases rest with
  | nil => cases hc
  | cons c' tl =>
    have hcc : c' = c := by simpa using hc
    rw [hcc, lexNext_symb_head hsym' tl] at hlex
    obtain ⟨ht, -⟩ : t = Token.name (c :: (takeSymbol tl).1) ∧ _ := by
      simpa using hlex.symm
    rw [ht] at hstop
    rcases hstop with h | h | h <;> cases h

/-!
Display-side lemmas for the round-trip proof
-/

def Expr.isApp : Expr → Bool
  | .app _ _ => true
  | _ => false

/-- The left operand of an application as printed: parenthesised iff it is
a `Fun`. -/
def lhsDisplay (e : Expr) : String :=
  if e.isFn then "(" ++ exprDisplay e ++ ")" else exprDisplay e

/-- The right operand of an application as printed: parenthesised unless
it is a `Var` or `Magic`. -/
def rhsDisplay (e : Expr) : String :=
  if e.isVar || e.isMag then exprDisplay e else "(" ++ exprDisplay e ++ ")"

/-- A label that the lexer scans back as one NAME/MAGIC body: nonempty,
all characters alphanumeric or underscore. -/
def goodLabel (s : String) : Bool := !s.data.isEmpty && s.data.all issymbolC

/-- Expressions whose labels are all `goodLabel` and whose symbols all
carry tag 0 (no fresh α-tags). -/
def goodExpr : Expr → Bool
  | .var v => goodLabel v.label && v.tag == 0
  | .mag m => goodLabel m
  | .fn p b => goodLabel p.label && p.tag == 0 && goodExpr b
  | .app l r => goodExpr l && goodExpr r

theorem exprDisplay_app (l r : Expr) :
    exprDisplay (.app l r) = lhsDisplay l ++ " " ++ rhsDisplay r := by
  rw [exprDisplay, lhsDisplay, rhsDisplay]

theorem exprDisplay_var_data {v : Symbol} (h : v.tag = 0) :
    (exprDisplay (.var v)).data = v.label.data := by
  rw [exprDisplay, h]
  simp

theorem exprDisplay_mag_data (m : String) :
    (exprDisplay (.mag m)).data = '#' :: m.data := by
  rw [exprDisplay]
  simp [String.data_append]

theorem dispParam_data {p : Symbol} (h : p.tag = 0) :
    (dispParam p).data = p.label.data ++ ['.'] := by
  rw [dispParam, h]
  simp

theorem exprDisplay_fn_data {p : Symbol} (h : p.tag = 0) (b : Expr) :
    (exprDisplay (.fn p b)).data =
      '\\' :: (p.label.data ++ '.' :: (funChainDisplay b).data) := by
  rw [exprDisplay]
  simp [String.data_append, dispParam_data h]

theorem funChainDisplay_fn (p : Symbol) (b : Expr) :
    funChainDisplay (.fn p b) = dispParam p ++ funChainDisplay b := by
  rw [funChainDisplay]

theorem funChainDisplay_nonfn {e : Expr} (h : e.isFn = false) :
    funChainDisplay e = exprDisplay e := by
  cases e with
  | fn p b => exact absurd h (by simp [Expr.isFn])
  | var v => rw [funChainDisplay]; exact fun p b hh => Expr.noConfusion hh
  | mag m => rw [funChainDisplay]; exact fun p b hh => Expr.noConfusion hh
  | app l r => rw [funChainDisplay]; exact fun p b hh => Expr.noConfusion hh

def spineHead : Expr → Expr
  | .app l _ => spineHead l
  | e => e

def spineArgs : Expr → List Expr
  | .app l r => spineArgs l ++ [r]
  | _ => []

/-- `" " ++ rhs-form` for each argument of an application spine. -/
def argsDisplay (args : List Expr) : List Char :=
  (args.map fun a => ' ' :: (rhsDisplay a).data).join

theorem argsDisplay_nil : argsDisplay [] = [] := rfl

theorem argsDisplay_cons (a : Expr) (args : List Expr) :
    argsDisplay (a :: args) = ' ' :: (rhsDisplay a).data ++ argsDisplay args := by
  simp [argsDisplay]

theorem argsDisplay_append (xs ys : List Expr) :
    argsDisplay (xs ++ ys) = argsDisplay xs ++ argsDisplay ys := by
  simp [argsDisplay]

theorem spineHead_nonapp {e : Expr} (h : e.isApp = false) : spineHead e = e := by
  cases e with
  | app l r => exact absurd h (by simp [Expr.isApp])
  | var v => rw [spineHead]; exact fun l r hh => Expr.noConfusion hh
  | mag m => rw [spineHead]; exact fun l r hh => Expr.noConfusion hh
  | fn p b => rw [spineHead]; exact fun l r hh => Expr.noConfusion hh

theorem spineArgs_nonapp {e : Expr} (h : e.isApp = false) : spineArgs e = [] := by
  cases e with
  | app l r => exact absurd h (by simp [Expr.isApp])
  | var v => rw [spineArgs]; exact fun l r hh => Expr.noConfusion hh
  | mag m => rw [spineArgs]; exact fun l r hh => Expr.noConfusion hh
  | fn p b => rw [spineArgs]; exact fun l r hh => Expr.noConfusion hh

theorem spineHead_app (l r : Expr) : spineHead (.app l r) = spineHead l := by
  rw [spineHead]

theorem spineArgs_app (l r : Expr) :
    spineArgs (.app l r) = spineArgs l ++ [r] := by
  rw [spineArgs]

theorem spineHead_not_app : ∀ e : Expr, (spineHead e).isApp = false := by
  intro e
  induction e with
  | app l r ihl ihr => rw [spineHead_app]; exact ihl
  | var v => rw [spineHead_nonapp (by rfl)]; rfl
  | mag m => rw [spineHead_nonapp (by rfl)]; rfl
  | fn p b ih => rw [spineHead_nonapp (by rfl)]; rfl


theorem spine_foldl : ∀ e : Expr, (spineArgs e).foldl .app (spineHead e) = e := by
  intro e
  induction e with
  | app l r ihl ihr =>
    rw [spineArgs_app, spineHead_app, List.foldl_append]
    simp [ihl]
  | var v => rfl
  | mag m => rfl
  | fn p b ih => rfl

theorem lhs_eq_rhs_nonapp {e : Expr} (h : e.isApp = false) :
    lhsDisplay e = rhsDisplay e := by
  cases e with
  | var v => rfl
  | mag m => rfl
  | fn p b => rfl
  | app l r => exact absurd h (by simp [Expr.isApp])

theorem spine_display : ∀ e : Expr, e.isApp = true →
    (exprDisplay e).data =
      (rhsDisplay (spineHead e)).data ++ argsDisplay (spineArgs e) := by
  intro e
  induction e with
  | var v => intro h; cases h
  | mag m => intro h; cases h
  | fn p b ih => intro h; cases h
  | app l r ihl ihr =>
    intro _
    rw [exprDisplay_app, spineHead_app, spineArgs_app, argsDisplay_append,
      argsDisplay_cons, argsDisplay_nil]
    by_cases hl : l.isApp = true
    · have hfn : l.isFn = false := by
        cases l <;> simp_all [Expr.isApp, Expr.isFn]
      rw [show lhsDisplay l = exprDisplay l from by rw [lhsDisplay, hfn]; rfl]
      simp [String.data_append, ihl hl]
    · have hl' : l.isApp = false := by simpa using hl
      rw [spineHead_nonapp hl', spineArgs_nonapp hl', lhs_eq_rhs_nonapp hl']
      simp [String.data_append, argsDisplay_nil]

theorem goodExpr_spine : ∀ e : Expr, goodExpr e = true →
    goodExpr (spineHead e) = true ∧ ∀ a ∈ spineArgs e, goodExpr a = true := by
  intro e
  induction e with
  | var v => intro h; exact ⟨h, by rw [spineArgs_nonapp (by rfl)]; simp⟩
  | mag m => intro h; exact ⟨h, by rw [spineArgs_nonapp (by rfl)]; simp⟩
  | fn p b ih => intro h; exact ⟨h, by rw [spineArgs_nonapp (by rfl)]; simp⟩
  | app l r ihl ihr =>
    intro h
    obtain ⟨hl, hr⟩ : goodExpr l = true ∧ goodExpr r = true := by
      simpa [goodExpr] using h
    obtain ⟨h1, h2⟩ := ihl hl
    refine ⟨by rwa [spineHead_app], ?_⟩
    intro a ha
    rw [spineArgs_app] at ha
    rcases List.mem_append.mp ha with ha | ha
    · exact h2 a ha
    · obtain rfl : a = r := by simpa using ha
      exact hr

theorem mass_spine : ∀ e : Expr,
    (spineHead e).mass ≤ e.mass ∧ ∀ a ∈ spineArgs e, a.mass < e.mass := by
  intro e
  induction e with
  | var v => exact ⟨le_rfl, by rw [spineArgs_nonapp (by rfl)]; simp⟩
  | mag m => exact ⟨le_rfl, by rw [spineArgs_nonapp (by rfl)]; simp⟩
  | fn p b ih => exact ⟨le_rfl, by rw [spineArgs_nonapp (by rfl)]; simp⟩
  | app l r ihl ihr =>
    obtain ⟨h1, h2⟩ := ihl
    have hlm : l.mass < (Expr.app l r).mass := by
      have := r.mass_pos
      simp only [Expr.mass]
      omega
    refine ⟨by rw [spineHead_app]; omega, ?_⟩
    intro a ha
    rw [spineArgs_app] at ha
    rcases List.mem_append.mp ha with ha | ha
    · have := h2 a ha; omega
    · obtain rfl : a = r := by simpa using ha
      have := l.mass_pos
      simp only [Expr.mass]
      omega

theorem goodLabel_spec {s : String} (h : goodLabel s = true) :
    s.data ≠ [] ∧ ∀ c ∈ s.data, issymbolC c = true := by
  simp only [goodLabel, Bool.and_eq_true, Bool.not_eq_true',
    List.all_eq_true] at h
  obtain ⟨h1, h2⟩ := h
  refine ⟨?_, fun c hc => h2 c hc⟩
  intro hnil
  rw [hnil] at h1
  simp at h1

theorem rhsDisplay_var_data {v : Symbol} (h : v.tag = 0) :
    (rhsDisplay (.var v)).data = v.label.data := by
  rw [rhsDisplay]
  simp [Expr.isVar, exprDisplay_var_data h]

theorem rhsDisplay_mag_data (m : String) :
    (rhsDisplay (.mag m)).data = '#' :: m.data := by
  rw [rhsDisplay]
  simp [Expr.isVar, Expr.isMag, exprDisplay_mag_data]

theorem rhsDisplay_wrap_data {e : Expr} (h1 : e.isVar = false)
    (h2 : e.isMag = false) :
    (rhsDisplay e).data = '(' :: ((exprDisplay e).data ++ [')']) := by
  rw [rhsDisplay, h1, h2]
  simp [String.data_append]

/-- A `#` first character always lexes as a MAGIC token. -/
theorem lexNext_hash_head (tl : List Char) :
    lexNext ('#' :: tl) =
      some (.magicT (takeSymbol tl).1, (takeSymbol tl).2) := by
  rw [lexNext, lexSkip_hash]
  simp

/-- The first token of a printed right operand: it exists and is neither a
dot nor a stopping token. -/
theorem rhsDisplay_first_token {a : Expr} (ha : goodExpr a = true)
    (tail : List Char) :
    ∃ t i, lexNext ((rhsDisplay a).data ++ tail) = some (t, i) ∧
      t ≠ Token.dot ∧ t ≠ Token.cparen ∧ t ≠ Token.endT ∧
      t ≠ Token.semicolon := by
  cases a with
  | var v =>
    obtain ⟨hl, htag⟩ : goodLabel v.label = true ∧ v.tag = 0 := by
      simpa [goodExpr] using ha
    obtain ⟨hne, hsym⟩ := goodLabel_spec hl
    obtain ⟨c, cs, hdata⟩ : ∃ c cs, v.label.data = c :: cs := by
      cases hd : v.label.data with
      | nil => exact absurd hd hne
      | cons c cs => exact ⟨c, cs, rfl⟩
    rw [rhsDisplay_var_data htag, hdata, List.cons_append,
      lexNext_symb_head (hsym c (by rw [hdata]; simp))]
    exact ⟨_, _, rfl, by simp, by simp, by simp, by simp⟩
  | mag m =>
    rw [rhsDisplay_mag_data, List.cons_append, lexNext_hash_head]
    exact ⟨_, _, rfl, by simp, by simp, by simp, by simp⟩
  | fn p b =>
    rw [rhsDisplay_wrap_data (by rfl) (by rfl), List.cons_append,
      lexNext_oparen]
    exact ⟨_, _, rfl, by simp, by simp, by simp, by simp⟩
  | app l r =>
    rw [rhsDisplay_wrap_data (by rfl) (by rfl), List.cons_append,
      lexNext_oparen]
    exact ⟨_, _, rfl, by simp, by simp, by simp, by simp⟩

/-- Context in which `parse_fun`'s two-token lookahead is well defined:
the next character cannot extend a name, and the next token exists and is
not a dot. -/
def lookaheadOK (rest : List Char) : Prop :=
  headNotSym rest ∧ ∃ t i, lexNext rest = some (t, i) ∧ t ≠ Token.dot

theorem stopPeek_lookaheadOK {rest : List Char} (h : stopPeek rest) :
    lookaheadOK rest := by
  obtain ⟨t, i, hlex, hstop⟩ := h
  refine ⟨stopPeek_headNotSym ⟨t, i, hlex, hstop⟩, t, i, hlex, ?_⟩
  rcases hstop with rfl | rfl | rfl <;> simp

/-- The first two tokens of the printed form of a non-`Fun` expression are
never NAME-followed-by-DOT (so `parse_fun`'s lookahead correctly selects
its `parse_expr` branch for non-chained bodies). -/
theorem display_two_tokens :
    ∀ (e : Expr), goodExpr e = true → e.isFn = false →
    ∀ rest, lookaheadOK rest →
    ∃ t1 i1 t2 i2, lexNext ((exprDisplay e).data ++ rest) = some (t1, i1) ∧
      lexNext i1 = some (t2, i2) ∧
      (∀ s, t1 = Token.name s → t2 ≠ Token.dot) := by
  suffices H : ∀ (n : Nat) (e : Expr), e.mass ≤ n → goodExpr e = true →
      e.isFn = false → ∀ rest, lookaheadOK rest →
      ∃ t1 i1 t2 i2, lexNext ((exprDisplay e).data ++ rest) = some (t1, i1) ∧
        lexNext i1 = some (t2, i2) ∧
        (∀ s, t1 = Token.name s → t2 ≠ Token.dot) by
    exact fun e => H e.mass e le_rfl
  intro n
  induction n with
  | zero =>
    intro e hm
    have := e.mass_pos
    omega
  | succ n ih =>
    intro e hm hgood hnfn rest hla
    cases e with
    | fn p b => cases hnfn
    | var v =>
      obtain ⟨hl, htag⟩ : goodLabel v.label = true ∧ v.tag = 0 := by
        simpa [goodExpr] using hgood
      obtain ⟨hne, hsym⟩ := goodLabel_spec hl
      obtain ⟨t2, i2, hlex2, hnd⟩ := hla.2
      rw [exprDisplay_var_data htag, lexNext_name hne hsym hla.1]
      exact ⟨_, rest, t2, i2, rfl, hlex2, fun s _ => hnd⟩
    | mag m =>
      obtain ⟨t2, i2, hlex2, hnd⟩ := hla.2
      rw [exprDisplay_mag_data, List.cons_append,
        lexNext_magic (goodLabel_spec (by simpa [goodExpr] using hgood)).2
          hla.1]
      exact ⟨_, rest, t2, i2, rfl, hlex2, fun s h => by cases h⟩
    | app l r =>
      obtain ⟨hgl, hgr⟩ : goodExpr l = true ∧ goodExpr r = true := by
        simpa [goodExpr] using hgood
      have hmassl : l.mass ≤ n := by
        have := r.mass_pos
        simp only [Expr.mass] at hm
        omega
      rw [exprDisplay_app]
      by_cases hfn : l.isFn = true
      · -- parenthesised Fun head: OPAREN then LAMBDA
        obtain ⟨p, b, rfl⟩ : ∃ p b, l = .fn p b := by
          cases l <;> simp [Expr.isFn] at hfn ⊢
        obtain ⟨hpl, hpt, -⟩ :
            goodLabel p.label = true ∧ p.tag = 0 ∧ goodExpr b = true := by
          simpa [goodExpr, Bool.and_eq_true, and_assoc] using hgl
        rw [lhsDisplay, hfn]
        simp only [if_true]
        have hinput :
            (("(" ++ exprDisplay (.fn p b) ++ ")" ++ " " ++
                rhsDisplay r : String)).data ++ rest =
              '(' :: ((exprDisplay (.fn p b)).data ++
                (')' :: ' ' :: ((rhsDisplay r).data ++ rest))) := by
          simp [String.data_append]
        rw [hinput]
        have hlam : ∃ i2, lexNext ((exprDisplay (.fn p b)).data ++
            (')' :: ' ' :: ((rhsDisplay r).data ++ rest))) =
            some (Token.lambda, i2) := by
          rw [exprDisplay_fn_data hpt, List.cons_append]
          exact ⟨_, lexNext_lambda _⟩
        obtain ⟨i2, hlam⟩ := hlam
        exact ⟨Token.oparen, _, Token.lambda, i2, lexNext_oparen _, hlam,
          fun s h => by cases h⟩
      · have hfn' : l.isFn = false := by simpa using hfn
        have hla' : lookaheadOK (' ' :: ((rhsDisplay r).data ++ rest)) := by
          constructor
          · exact headNotSym_cons (by decide) _
          · obtain ⟨t, i, hlex, hnd, -⟩ := rhsDisplay_first_token hgr rest
            exact ⟨t, i, by rw [lexNext_space]; exact hlex, hnd⟩
        obtain ⟨t1, i1, t2, i2, h1, h2, h3⟩ :=
          ih l hmassl hgl hfn' (' ' :: ((rhsDisplay r).data ++ rest)) hla'
        have hinput : ((lhsDisplay l ++ " " ++ rhsDisplay r : String)).data ++
            rest =
            (exprDisplay l).data ++ (' ' :: ((rhsDisplay r).data ++ rest)) := by
          rw [show lhsDisplay l = exprDisplay l from by
            rw [lhsDisplay, hfn']; simp]
          simp [String.data_append]
        rw [hinput]
        exact ⟨t1, i1, t2, i2, h1, h2, h3⟩

theorem parsePrimary_cons_space (fuel : Nat) (input : List Char) :
    parsePrimary fuel (' ' :: input) = parsePrimary fuel input := by
  match fuel with
  | 0 => rfl
  | fuel + 1 => rw [parsePrimary, parsePrimary, lexNext_space]

theorem stopPeek_cparen (rest : List Char) : stopPeek (')' :: rest) :=
  ⟨.cparen, rest, lexNext_cparen rest, Or.inl rfl⟩

theorem stopPeek_nil : stopPeek [] :=
  ⟨.endT, [], lexNext_nil, Or.inr (Or.inl rfl)⟩

theorem headNotSym_argsDisplay {args : List Expr} {rest : List Char}
    (hstop : stopPeek rest) : headNotSym (argsDisplay args ++ rest) := by
  cases args with
  | nil => rw [argsDisplay_nil, List.nil_append]; exact stopPeek_headNotSym hstop
  | cons a args =>
    rw [argsDisplay_cons]
    simp only [List.cons_append, List.append_assoc]
    exact headNotSym_cons (by decide) _

theorem parseExprLoop_stop {t : Token} {i input : List Char}
    (hlex : lexNext input = some (t, i))
    (hs : t = .cparen ∨ t = .endT ∨ t = .semicolon)
    (fuel : Nat) (acc : Expr) :
    parseExprLoop (fuel + 1) acc input = some (acc, input) := by
  rw [parseExprLoop, hlex]
  show (if t = Token.cparen ∨ t = Token.endT ∨ t = Token.semicolon
        then some (acc, input) else _) = _
  rw [if_pos hs]

theorem parseExprLoop_go {t : Token} {i input : List Char}
    (hlex : lexNext input = some (t, i))
    (hs : ¬(t = .cparen ∨ t = .endT ∨ t = .semicolon))
    (fuel : Nat) (acc : Expr) :
    parseExprLoop (fuel + 1) acc input =
      match parsePrimary fuel input with
      | some (r, in1) => parseExprLoop fuel (.app acc r) in1
      | none => none := by
  rw [parseExprLoop, hlex]
  show (if t = Token.cparen ∨ t = Token.endT ∨ t = Token.semicolon
        then some (acc, input) else _) = _
  rw [if_neg hs]

/-- The application loop of `parse_expr` consumes the printed argument
list of a spine and left-associates, stopping at `rest`. -/
theorem parseExprLoop_round (args : List Expr)
    (hargs : ∀ a ∈ args, goodExpr a = true ∧
      ∀ rest', headNotSym rest' → ∀ fuel, 4 * a.mass + 3 ≤ fuel →
        parsePrimary fuel ((rhsDisplay a).data ++ rest') = some (a, rest')) :
    ∀ (acc : Expr) (rest : List Char), stopPeek rest →
    ∀ fuel, 4 * (args.map (fun a => a.mass + 1)).sum + 1 ≤ fuel →
    parseExprLoop fuel acc (argsDisplay args ++ rest) =
      some (args.foldl .app acc, rest) := by
  induction args with
  | nil =>
    intro acc rest hstop fuel hfuel
    obtain ⟨f, rfl⟩ : ∃ f, fuel = f + 1 := ⟨fuel - 1, by omega⟩
    obtain ⟨t, i, hlex, hs⟩ := hstop
    rw [argsDisplay_nil, List.nil_append, parseExprLoop_stop hlex hs]
    simp
  | cons a args ih =>
    intro acc rest hstop fuel hfuel
    obtain ⟨f, rfl⟩ : ∃ f, fuel = f + 1 := ⟨fuel - 1, by omega⟩
    obtain ⟨ha, hprim⟩ := hargs a (by simp)
    have hS : 4 * a.mass + 4 * (args.map (fun a => a.mass + 1)).sum + 5 ≤
        f + 1 := by
      have : ((a :: args).map (fun a => a.mass + 1)).sum =
          (a.mass + 1) + (args.map (fun a => a.mass + 1)).sum := by
        simp
      omega
    rw [argsDisplay_cons]
    have hinput : ((' ' :: (rhsDisplay a).data) ++ argsDisplay args) ++ rest =
        ' ' :: ((rhsDisplay a).data ++ (argsDisplay args ++ rest)) := by
      simp
    rw [hinput]
    obtain ⟨t, i, hlext, hnd, hnc, hne, hns⟩ :=
      rhsDisplay_first_token ha (argsDisplay args ++ rest)
    rw [parseExprLoop_go (by rw [lexNext_space]; exact hlext)
      (by simp [hnc, hne, hns])]
    rw [parsePrimary_cons_space]
    simp only [hprim (argsDisplay args ++ rest) (headNotSym_argsDisplay hstop)
      f (by omega)]
    rw [ih (fun a' ha' => hargs a' (by simp [ha'])) (.app acc a) rest hstop f
      (by omega)]
    simp

theorem symbol_eta {v : Symbol} (h : v.tag = 0) :
    (⟨⟨v.label.data⟩, 0⟩ : Symbol) = v := by
  cases v with
  | mk lab tag =>
    cases lab with
    | mk data =>
      simp at h
      rw [h]

theorem spine_mass_sum : ∀ e : Expr,
    (spineHead e).mass + ((spineArgs e).map (fun a => a.mass + 1)).sum =
      e.mass := by
  intro e
  induction e with
  | var v =>
    rw [@spineHead_nonapp (.var v) rfl, @spineArgs_nonapp (.var v) rfl]
    simp
  | mag m =>
    rw [@spineHead_nonapp (.mag m) rfl, @spineArgs_nonapp (.mag m) rfl]
    simp
  | fn p b ih =>
    rw [@spineHead_nonapp (.fn p b) rfl, @spineArgs_nonapp (.fn p b) rfl]
    simp
  | app l r ihl ihr =>
    rw [spineHead_app, spineArgs_app]
    simp only [List.map_append, List.sum_append, List.map_cons, List.sum_cons,
      List.map_nil, List.sum_nil, Expr.mass]
    omega

/-- Main round-trip induction: a good expression's printed right-operand
form parses as one primary; its printed form parses as one expression up
to a stopping token; and a printed `Fun` chain parses through `parse_fun`.
The fuel bounds are sufficient amounts for the fuelled model of the
unbounded C recursion. -/
theorem parse_display_round :
    ∀ (n : Nat) (e : Expr), e.mass ≤ n → goodExpr e = true →
      ((∀ rest, headNotSym rest → ∀ fuel, 4 * e.mass + 3 ≤ fuel →
        parsePrimary fuel ((rhsDisplay e).data ++ rest) = some (e, rest)) ∧
       (∀ rest, stopPeek rest → ∀ fuel, 4 * e.mass + 2 ≤ fuel →
        parseExpr fuel ((exprDisplay e).data ++ rest) = some (e, rest)) ∧
       (∀ p b, e = .fn p b → ∀ rest, stopPeek rest → ∀ fuel,
        4 * e.mass ≤ fuel →
        parseFun fuel
            ((dispParam p).data ++ ((funChainDisplay b).data ++ rest)) =
          some (.fn p b, rest))) := by
  intro n
  induction n with
  | zero =>
    intro e hm
    have := e.mass_pos
    omega
  | succ n ih =>
    intro e hm hgood
    cases e with
    | var v =>
      obtain ⟨hl, htag⟩ : goodLabel v.label = true ∧ v.tag = 0 := by
        simpa [goodExpr] using hgood
      obtain ⟨hne, hsym⟩ := goodLabel_spec hl
      have hprim : ∀ rest, headNotSym rest → ∀ fuel, 1 ≤ fuel →
          parsePrimary fuel ((rhsDisplay (.var v)).data ++ rest) =
            some (.var v, rest) := by
        intro rest hrest fuel hfuel
        obtain ⟨f, rfl⟩ : ∃ f, fuel = f + 1 := ⟨fuel - 1, by omega⟩
        rw [rhsDisplay_var_data htag, parsePrimary,
          lexNext_name hne hsym hrest]
        simp [symbol_eta htag]
      refine ⟨fun rest hrest fuel hfuel => hprim rest hrest fuel (by omega),
        ?_, fun p b hpb => by cases hpb⟩
      intro rest hstop fuel hfuel
      obtain ⟨f, rfl⟩ : ∃ f, fuel = f + 1 := ⟨fuel - 1, by omega⟩
      rw [parseExpr]
      have hdisp : (exprDisplay (.var v)).data = (rhsDisplay (.var v)).data := by
        rw [rhsDisplay_var_data htag, exprDisplay_var_data htag]
      rw [hdisp]
      simp only [hprim rest (stopPeek_headNotSym hstop) f (by omega)]
      obtain ⟨f', rfl⟩ : ∃ f', f = f' + 1 := ⟨f - 1, by omega⟩
      obtain ⟨t, i, hlex, hs⟩ := hstop
      rw [parseExprLoop_stop hlex hs]
    | mag m =>
      have hgm : goodLabel m = true := by simpa [goodExpr] using hgood
      obtain ⟨hne, hsym⟩ := goodLabel_spec hgm
      have hprim : ∀ rest, headNotSym rest → ∀ fuel, 1 ≤ fuel →
          parsePrimary fuel ((rhsDisplay (.mag m)).data ++ rest) =
            some (.mag m, rest) := by
        intro rest hrest fuel hfuel
        obtain ⟨f, rfl⟩ : ∃ f, fuel = f + 1 := ⟨fuel - 1, by omega⟩
        rw [rhsDisplay_mag_data, List.cons_append, parsePrimary,
          lexNext_magic hsym hrest]
      refine ⟨fun rest hrest fuel hfuel => hprim rest hrest fuel (by omega),
        ?_, fun p b hpb => by cases hpb⟩
      intro rest hstop fuel hfuel
      obtain ⟨f, rfl⟩ : ∃ f, fuel = f + 1 := ⟨fuel - 1, by omega⟩
      rw [parseExpr]
      have hdisp : (exprDisplay (.mag m)).data = (rhsDisplay (.mag m)).data := by
        rw [rhsDisplay_mag_data, exprDisplay_mag_data]
      rw [hdisp]
      simp only [hprim rest (stopPeek_headNotSym hstop) f (by omega)]
      obtain ⟨f', rfl⟩ : ∃ f', f = f' + 1 := ⟨f - 1, by omega⟩
      obtain ⟨t, i, hlex, hs⟩ := hstop
      rw [parseExprLoop_stop hlex hs]
    | fn p b =>
      obtain ⟨hpl, hpt, hgb⟩ :
          goodLabel p.label = true ∧ p.tag = 0 ∧ goodExpr b = true := by
        simpa [goodExpr, Bool.and_eq_true, and_assoc] using hgood
      obtain ⟨hpne, hpsym⟩ := goodLabel_spec hpl
      have hmb : b.mass ≤ n := by simp only [Expr.mass] at hm; omega
      have hfun : ∀ rest, stopPeek rest → ∀ fuel,
          4 * (Expr.fn p b).mass ≤ fuel →
          parseFun fuel
              ((dispParam p).data ++ ((funChainDisplay b).data ++ rest)) =
            some (.fn p b, rest) := by
        intro rest hstop fuel hfuel
        have hmassfn : 4 * (Expr.fn p b).mass = 4 * b.mass + 4 := by
          simp only [Expr.mass]; ring
        obtain ⟨f, rfl⟩ : ∃ f, fuel = f + 1 := ⟨fuel - 1, by omega⟩
        -- the NAME and DOT of this parameter
        have hname : lexNext ((dispParam p).data ++
            ((funChainDisplay b).data ++ rest)) =
            some (.name p.label.data,
              '.' :: ((funChainDisplay b).data ++ rest)) := by
          rw [dispParam_data hpt]
          rw [show (p.label.data ++ ['.']) ++
              ((funChainDisplay b).data ++ rest) =
              p.label.data ++ ('.' :: ((funChainDisplay b).data ++ rest)) by
            simp]
          exact lexNext_name hpne hpsym (headNotSym_cons (by decide) _)
        cases hbf : b with
        | fn q c =>
          -- dot-chained parameter list: lookahead sees NAME DOT
          obtain ⟨hql, hqt, hgc⟩ :
              goodLabel q.label = true ∧ q.tag = 0 ∧ goodExpr c = true := by
            rw [hbf] at hgb
            simpa [goodExpr, Bool.and_eq_true, and_assoc] using hgb
          obtain ⟨hqne, hqsym⟩ := goodLabel_spec hql
          have hchain : (funChainDisplay (.fn q c)).data =
              q.label.data ++ ('.' :: (funChainDisplay c).data) := by
            rw [funChainDisplay_fn, String.data_append, dispParam_data hqt]
            simp
          have hname2 : lexNext ((funChainDisplay (.fn q c)).data ++ rest) =
              some (.name q.label.data,
                '.' :: ((funChainDisplay c).data ++ rest)) := by
            rw [hchain]
            rw [show (q.label.data ++ ('.' :: (funChainDisplay c).data)) ++
                rest = q.label.data ++
                  ('.' :: ((funChainDisplay c).data ++ rest)) by simp]
            exact lexNext_name hqne hqsym (headNotSym_cons (by decide) _)
          have hrec := (ih b (by omega) hgb).2.2 q c hbf rest hstop f
            (by rw [hbf] at hm hfuel ⊢
                simp only [Expr.mass] at hm hfuel ⊢
                omega)
          rw [hbf] at hname
          rw [parseFun]
          simp only [hname, lexNext_dot, hname2]
          simp only [show (funChainDisplay (.fn q c)).data ++ rest =
            (dispParam q).data ++ ((funChainDisplay c).data ++ rest) by
              rw [hchain, dispParam_data hqt]; simp]
          simp only [hrec]
          rw [symbol_eta hpt]
        | var w =>
          rw [← hbf]
          have hnfn' : b.isFn = false := by rw [hbf]; rfl
          have hchain : funChainDisplay b = exprDisplay b :=
            funChainDisplay_nonfn hnfn'
          obtain ⟨t1, i1, t2, i2, h1, h2, h3⟩ :=
            display_two_tokens b hgb hnfn' rest (stopPeek_lookaheadOK hstop)
          have hexpr := (ih b hmb hgb).2.1 rest hstop f
            (by simp only [Expr.mass] at hfuel ⊢; omega)
          rw [parseFun]
          rw [hchain] at hname ⊢
          simp only [hname, lexNext_dot, h1, h2]
          -- the lookahead pair is not NAME-DOT, so the parse_expr branch runs
          cases t1
          case name s =>
            cases t2
            case dot => exact absurd rfl (h3 s rfl)
            all_goals simp only [hexpr]
            all_goals rw [symbol_eta hpt]
          all_goals simp only [hexpr]
          all_goals rw [symbol_eta hpt]
        | mag w =>
          rw [← hbf]
          have hnfn' : b.isFn = false := by rw [hbf]; rfl
          have hchain : funChainDisplay b = exprDisplay b :=
            funChainDisplay_nonfn hnfn'
          obtain ⟨t1, i1, t2, i2, h1, h2, h3⟩ :=
            display_two_tokens b hgb hnfn' rest (stopPeek_lookaheadOK hstop)
          have hexpr := (ih b hmb hgb).2.1 rest hstop f
            (by simp only [Expr.mass] at hfuel ⊢; omega)
          rw [parseFun]
          rw [hchain] at hname ⊢
          simp only [hname, lexNext_dot, h1, h2]
          cases t1
          case name s =>
            cases t2
            case dot => exact absurd rfl (h3 s rfl)
            all_goals simp only [hexpr]
            all_goals rw [symbol_eta hpt]
          all_goals simp only [hexpr]
          all_goals rw [symbol_eta hpt]
        | app bl br =>
          rw [← hbf]
          have hnfn' : b.isFn = false := by rw [hbf]; rfl
          have hchain : funChainDisplay b = exprDisplay b :=
            funChainDisplay_nonfn hnfn'
          obtain ⟨t1, i1, t2, i2, h1, h2, h3⟩ :=
            display_two_tokens b hgb hnfn' rest (stopPeek_lookaheadOK hstop)
          have hexpr := (ih b hmb hgb).2.1 rest hstop f
            (by simp only [Expr.mass] at hfuel ⊢; omega)
          rw [parseFun]
          rw [hchain] at hname ⊢
          simp only [hname, lexNext_dot, h1, h2]
          cases t1
          case name s =>
            cases t2
            case dot => exact absurd rfl (h3 s rfl)
            all_goals simp only [hexpr]
            all_goals rw [symbol_eta hpt]
          all_goals simp only [hexpr]
          all_goals rw [symbol_eta hpt]
      have hexprfn : ∀ rest, stopPeek rest → ∀ fuel,
          4 * (Expr.fn p b).mass + 2 ≤ fuel →
          parseExpr fuel ((exprDisplay (.fn p b)).data ++ rest) =
            some (.fn p b, rest) := by
        intro rest hstop fuel hfuel
        obtain ⟨f, rfl⟩ : ∃ f, fuel = f + 1 := ⟨fuel - 1, by omega⟩
        obtain ⟨g, rfl⟩ : ∃ g, f = g + 1 := ⟨f - 1, by omega⟩
        rw [parseExpr, parsePrimary]
        rw [show (exprDisplay (.fn p b)).data ++ rest =
            '\\' :: ((dispParam p).data ++ ((funChainDisplay b).data ++ rest))
          by rw [exprDisplay_fn_data hpt, dispParam_data hpt]; simp]
        rw [lexNext_lambda]
        simp only [hfun rest hstop g (by omega)]
        obtain ⟨g', rfl⟩ : ∃ g', g = g' + 1 :=
          ⟨g - 1, by have := (Expr.fn p b).mass_pos; omega⟩
        obtain ⟨t, i, hlex, hs⟩ := hstop
        rw [parseExprLoop_stop hlex hs]
      refine ⟨?_, hexprfn, fun p' b' hpb rest hstop fuel hfuel => ?_⟩
      · -- as a primary: parenthesised
        intro rest hrest fuel hfuel
        obtain ⟨f, rfl⟩ : ∃ f, fuel = f + 1 := ⟨fuel - 1, by omega⟩
        rw [rhsDisplay_wrap_data (by rfl) (by rfl), List.cons_append,
          parsePrimary, lexNext_oparen]
        rw [show ((exprDisplay (.fn p b)).data ++ [')']) ++ rest =
            (exprDisplay (.fn p b)).data ++ (')' :: rest) by simp]
        simp only [hexprfn (')' :: rest) (stopPeek_cparen rest) f (by omega)]
        rw [lexNext_cparen]
      · obtain ⟨rfl, rfl⟩ : p' = p ∧ b' = b := by
          constructor <;> injection hpb <;> simp_all
        exact hfun rest hstop fuel hfuel
    | app l r =>
      obtain ⟨hgl, hgr⟩ : goodExpr l = true ∧ goodExpr r = true := by
        simpa [goodExpr] using hgood
      -- decompose into spine head and arguments
      have hhead := spineHead_not_app (.app l r)
      have hgs := goodExpr_spine (.app l r) hgood
      have hms := mass_spine (.app l r)
      have hdisp := spine_display (.app l r) rfl
      have hargsne : spineArgs (.app l r) ≠ [] := by
        rw [spineArgs_app]
        simp
      have hexprapp : ∀ rest, stopPeek rest → ∀ fuel,
          4 * (Expr.app l r).mass + 2 ≤ fuel →
          parseExpr fuel ((exprDisplay (.app l r)).data ++ rest) =
            some (.app l r, rest) := by
        intro rest hstop fuel hfuel
        obtain ⟨f, rfl⟩ : ∃ f, fuel = f + 1 := ⟨fuel - 1, by omega⟩
        rw [parseExpr, hdisp]
        rw [show ((rhsDisplay (spineHead (.app l r))).data ++
            argsDisplay (spineArgs (.app l r))) ++ rest =
            (rhsDisplay (spineHead (.app l r))).data ++
              (argsDisplay (spineArgs (.app l r)) ++ rest) by simp]
        -- the head parses as one primary
        have hheadmass : (spineHead (.app l r)).mass + 1 ≤ (Expr.app l r).mass := by
          have h1 := hms.1
          have h2 : ∀ a ∈ spineArgs (.app l r), a.mass < (Expr.app l r).mass :=
            hms.2
          -- the head is at most the mass of l, and there is at least one arg
          rw [spineHead_app]
          have h3 := (mass_spine l).1
          have := r.mass_pos
          simp only [Expr.mass]
          omega
        have hprimhead := (ih (spineHead (.app l r))
          (by omega) hgs.1).1
          (argsDisplay (spineArgs (.app l r)) ++ rest)
          (headNotSym_argsDisplay hstop) f (by omega)
        simp only [hprimhead]
        -- then the loop eats the argument list
        have hloopfuel :
            4 * ((spineArgs (.app l r)).map (fun a => a.mass + 1)).sum + 1 ≤
              f := by
          have hsum := spine_mass_sum (.app l r)
          have hhm := (spineHead (.app l r)).mass_pos
          omega
        have hloop := parseExprLoop_round (spineArgs (.app l r))
          (fun a ha => ⟨hgs.2 a ha,
            fun rest' hrest' fuel' hfuel' =>
              (ih a (by have := hms.2 a ha; omega) (hgs.2 a ha)).1
                rest' hrest' fuel' hfuel'⟩)
          (spineHead (.app l r)) rest hstop f hloopfuel
        rw [hloop, spine_foldl]
      refine ⟨?_, hexprapp, fun p' b' hpb => by cases hpb⟩
      intro rest hrest fuel hfuel
      obtain ⟨f, rfl⟩ : ∃ f, fuel = f + 1 := ⟨fuel - 1, by omega⟩
      rw [rhsDisplay_wrap_data (by rfl) (by rfl), List.cons_append,
        parsePrimary, lexNext_oparen]
      rw [show ((exprDisplay (.app l r)).data ++ [')']) ++ rest =
          (exprDisplay (.app l r)).data ++ (')' :: rest) by simp]
      simp only [hexprapp (')' :: rest) (stopPeek_cparen rest) f (by omega)]
      rw [lexNext_cparen]

theorem lexNext_colon (tl : List Char) :
    lexNext (':' :: tl) = some (.colon, tl) := by
  have hsk : lexSkip (':' :: tl) = ':' :: tl := by
    rw [lexSkip, if_neg (by decide : ¬ isspaceC ':' = true),
      if_neg (by simp : ¬(':' = '/' ∧ tl.head? = some '/'))]
  rw [lexNext, hsk]
  simp

/-- C6 counterexample: the printed form of the fresh-tagged variable
`y:1` does not parse back (the parser has no rule for `:`), so parse ∘
pretty-print is not the identity on all expressions. -/
theorem C6_counterexample :
    ¬ ∃ fuel, parseExpr fuel ((exprDisplay (.var ⟨"y", 1⟩)).data) =
        some (.var ⟨"y", 1⟩, []) := by
  have hppnone : ∀ h : Nat, parsePrimary h [':', '1'] = none := by
    intro h
    match h with
    | 0 => rw [parsePrimary]
    | h + 1 => rw [parsePrimary, lexNext_colon]
  have hloopnone : ∀ (g : Nat) (acc : Expr),
      parseExprLoop g acc [':', '1'] = none := by
    intro g acc
    match g with
    | 0 => rw [parseExprLoop]
    | g + 1 =>
      rw [parseExprLoop, lexNext_colon]
      simp [hppnone g]
  have hmain : ∀ fuel : Nat, parseExpr fuel ['y', ':', '1'] = none := by
    intro fuel
    match fuel with
    | 0 => rw [parseExpr]
    | f + 1 =>
      rw [parseExpr]
      match f with
      | 0 => rw [parsePrimary]
      | g + 1 =>
        have h1 : parsePrimary (g + 1) ['y', ':', '1'] =
            some (.var ⟨"y", 0⟩, [':', '1']) := by
          rw [parsePrimary,
            show (['y', ':', '1'] : List Char) = ['y'] ++ [':', '1'] from rfl,
            lexNext_name (by simp) (by decide)
              (by
                intro c hc
                obtain rfl : ':' = c := by simpa using hc
                decide)]
        simp only [h1]
        exact hloopnone (g + 1) _
  rintro ⟨fuel, h⟩
  have hd : exprDisplay (.var ⟨"y", 1⟩) = "y:1" := by
    rw [exprDisplay]
    decide
  rw [hd] at h
  rw [show ("y:1" : String).data = ['y', ':', '1'] from rfl, hmain fuel] at h
  cases h

/-- C6 (amended: restricted to expressions whose symbols all carry tag 0
and whose labels are nonempty strings of alphanumeric/underscore
characters): parsing the pretty-printed string of `e` yields `e` exactly,
with nothing left over, for any sufficient fuel for the fuelled model of
the C parser's unbounded recursion. -/
theorem C6_parse_display_roundtrip :
    ∀ e : Expr, goodExpr e = true → ∀ fuel, 4 * e.mass + 2 ≤ fuel →
      parseExpr fuel ((exprDisplay e).data) = some (e, []) := by
  intro e hg fuel hf
  have h := (parse_display_round e.mass e le_rfl hg).2.1 [] stopPeek_nil fuel hf
  simpa using h

/-- Witness for C6: `(\x.x) y` pretty-prints and re-parses to itself. -/
theorem C6_parse_display_roundtrip_witness :
    goodExpr (.app (.fn ⟨"x", 0⟩ (.var ⟨"x", 0⟩)) (.var ⟨"y", 0⟩)) = true ∧
    parseExpr 18
        ((exprDisplay (.app (.fn ⟨"x", 0⟩ (.var ⟨"x", 0⟩))
          (.var ⟨"y", 0⟩))).data) =
      some (.app (.fn ⟨"x", 0⟩ (.var ⟨"x", 0⟩)) (.var ⟨"y", 0⟩), []) :=
  ⟨by decide,
   C6_parse_display_roundtrip _ (by decide) 18 (by decide)⟩

/-! ### Arena-level model (lamb.h, alloc_expr / free_expr, constructors)

The C engine stores expressions in a global arena `GC.slots` of `Expr`
slots addressed by `Expr_Index` (a wrapped `size_t`).  We model the
mutable global state explicitly: `slots` is the dynamic array
`GC.slots`; `dead` is the free list `GC.dead` (pushed and popped at the
back); `gen0` / `gen1` are the two generation lists `GC.gens[0]` and
`GC.gens[1]`, with `genCur` selecting the current one (`false` =
`gens[0]`); `ctr` is the `static size_t global_counter` inside
`symbol_fresh`.  Reads of an arena slot through the `expr_slot` macro
assert that the index is in bounds and the slot live; the model returns
`none` (for `Option`-valued functions) or leaves the state unchanged in
those cases, which the C program can only hit by aborting. -/

/-- Payload of an arena slot: the `kind` discriminant together with the
`as` union of the C `Expr`. -/
inductive SlotAs where
  | var (name : Symbol)
  | mag (label : String)
  | fn (param : Symbol) (body : Nat)
  | app (lhs rhs : Nat)
deriving DecidableEq, Repr

/-- One arena slot: payload (`kind` + `as`, field `pay` here) plus the
`visited` and `live` flags. -/
structure Slot where
  pay : SlotAs
  visited : Bool
  live : Bool
deriving DecidableEq, Repr

/-- The zero-initialised `Expr` of `alloc_expr` (`Expr expr = {0};`):
kind `EXPR_VAR` with a null label, not visited, not live. -/
def zeroSlot : Slot := ⟨.var ⟨"", 0⟩, false, false⟩

/-- The engine state: the global `GC` record plus the `symbol_fresh`
counter. -/
structure EngineState where
  slots : List Slot
  dead : List Nat
  gen0 : List Nat
  gen1 : List Nat
  genCur : Bool
  ctr : Nat
deriving DecidableEq, Repr

/-- `GC.gens[GC.gen_cur]`. -/
def genCurList (s : EngineState) : List Nat :=
  if s.genCur then s.gen1 else s.gen0

/-- `da_append(&GC.gens[GC.gen_cur], i)`. -/
def pushGenCur (s : EngineState) (i : Nat) : EngineState :=
  if s.genCur then { s with gen1 := s.gen1 ++ [i] }
  else { s with gen0 := s.gen0 ++ [i] }

/-- Overwriting the payload of slot `i`, as the constructors do with
`expr_slot(expr).kind = ...; expr_slot(expr).as.* = ...`.  (`List.set`
is a no-op out of bounds; the C macro would assert.) -/
def setPay (s : EngineState) (i : Nat) (a : SlotAs) : EngineState :=
  { s with slots := s.slots.set i { s.slots.getD i zeroSlot with pay := a } }

/-- `alloc_expr`: pop the back of the free list if it is non-empty,
otherwise append a zero-initialised slot at index `GC.slots.count`;
set the slot's `live` flag (its payload is left as is) and push the
index onto the current generation list. -/
def alloc_expr (s : EngineState) : Nat × EngineState :=
  match s.dead.getLast? with
  | some i =>
      let s1 : EngineState :=
        { s with dead := s.dead.dropLast,
                 slots := s.slots.set i { s.slots.getD i zeroSlot with live := true } }
      (i, pushGenCur s1 i)
  | none =>
      let i := s.slots.length
      let s1 : EngineState :=
        { s with slots := s.slots ++ [{ zeroSlot with live := true }] }
      (i, pushGenCur s1 i)

/-- `free_expr`: clear the live flag of slot `i` and push `i` on the
free list. -/
def free_expr (s : EngineState) (i : Nat) : EngineState :=
  { s with slots := s.slots.set i { s.slots.getD i zeroSlot with live := false },
           dead := s.dead ++ [i] }

/-- Constructor `var(name)`. -/
def varA (name : Symbol) (s : EngineState) : Nat × EngineState :=
  match alloc_expr s with
  | (i, s1) => (i, setPay s1 i (.var name))

/-- Constructor `magic(label)` (label interning is modelled by string
equality). -/
def magA (label : String) (s : EngineState) : Nat × EngineState :=
  match alloc_expr s with
  | (i, s1) => (i, setPay s1 i (.mag label))

/-- Constructor `fun(param, body)`. -/
def fnA (param : Symbol) (body : Nat) (s : EngineState) : Nat × EngineState :=
  match alloc_expr s with
  | (i, s1) => (i, setPay s1 i (.fn param body))

/-- Constructor `app(lhs, rhs)`. -/
def appA (lhs rhs : Nat) (s : EngineState) : Nat × EngineState :=
  match alloc_expr s with
  | (i, s1) => (i, setPay s1 i (.app lhs rhs))

/-- The payload read `expr_slot(i).kind` / `expr_slot(i).as`, defined
when slot `i` exists and is live (the macro asserts both). -/
def slotPayAt (s : EngineState) (i : Nat) : Option SlotAs :=
  match s.slots.get? i with
  | some sl => if sl.live then some sl.pay else none
  | none => none

/-- Whether index `i` addresses a live slot. -/
def liveAt (s : EngineState) (i : Nat) : Bool :=
  match s.slots.get? i with
  | some sl => sl.live
  | none => false

/-- The `visited` flag of slot `i` (`false` out of bounds). -/
def visitedAt (s : EngineState) (i : Nat) : Bool :=
  match s.slots.get? i with
  | some sl => sl.visited
  | none => false

/-- Reading the tree denoted by arena index `i`, with fuel bounding the
depth (a well-formed arena is acyclic, which the model witnesses by the
existence of sufficient fuel; `none` means a missing or dead slot, or
fuel exhaustion). -/
def readBack (s : EngineState) : Nat → Nat → Option Expr
  | 0, _ => none
  | fuel + 1, i =>
    match slotPayAt s i with
    | none => none
    | some (.var v) => some (.var v)
    | some (.mag m) => some (.mag m)
    | some (.fn p b) => (readBack s fuel b).map (fun tb => Expr.fn p tb)
    | some (.app l r) =>
      match readBack s fuel l, readBack s fuel r with
      | some tl, some tr => some (.app tl tr)
      | _, _ => none

/-- Arena-level `is_var_free_there`, fuelled (the C function recurses on
the arena tree; it reads the arena but never writes it). -/
def isVarFreeThereA (s : EngineState) : Nat → Symbol → Nat → Option Bool
  | 0, _, _ => none
  | fuel + 1, name, there =>
    match slotPayAt s there with
    | none => none
    | some (.var v) => some (decide (v = name))
    | some (.mag _) => some false
    | some (.fn p b) =>
      if p = name then some false else isVarFreeThereA s fuel name b
    | some (.app l r) =>
      match isVarFreeThereA s fuel name l with
      | none => none
      | some true => some true
      | some false => isVarFreeThereA s fuel name r

/-- Arena-level `replace`, fuelled; returns the result index and the
state after the call (allocations and the `symbol_fresh` counter).  The
C sequence in the renaming branch is `symbol_fresh`, then `var(fresh)`,
then the inner `replace`, then the outer one, then `fun`; in the `App`
branch the two arguments of `app(...)` are modelled as evaluated left
to right. -/
def replaceA : Nat → Symbol → Nat → Nat → EngineState → Option (Nat × EngineState)
  | 0, _, _, _, _ => none
  | fuel + 1, param, body, arg, s =>
    match slotPayAt s body with
    | none => none
    | some (.mag _) => some (body, s)
    | some (.var v) => if v = param then some (arg, s) else some (body, s)
    | some (.fn p b) =>
      if p = param then some (body, s)
      else
        match isVarFreeThereA s fuel p arg with
        | none => none
        | some false =>
          match replaceA fuel param b arg s with
          | none => none
          | some (b1, s1) => some (fnA p b1 s1)
        | some true =>
          let s0 : EngineState := { s with ctr := s.ctr + 1 }
          match varA ⟨p.label, s.ctr + 1⟩ s0 with
          | (fv, s1) =>
            match replaceA fuel p b fv s1 with
            | none => none
            | some (b1, s2) =>
              match replaceA fuel param b1 arg s2 with
              | none => none
              | some (e, s3) => some (fnA ⟨p.label, s.ctr + 1⟩ e s3)
    | some (.app l r) =>
      match replaceA fuel param l arg s with
      | none => none
      | some (l1, s1) =>
        match replaceA fuel param r arg s1 with
        | none => none
        | some (r1, s2) => some (appA l1 r1 s2)

/-- Arena-level `eval1`, fuelled; `none` models `return false`.  The C
code re-reads `expr_slot(expr).as.fun.body` after the recursive call in
the `Fun` case; the model compares against the value read on entry,
which is the same because evaluation never overwrites a live slot (the
frame property proved below). -/
def eval1A : Nat → Nat → EngineState → Option (Nat × EngineState)
  | 0, _, _ => none
  | fuel + 1, i, s =>
    match slotPayAt s i with
    | none => none
    | some (.var _) => some (i, s)
    | some (.mag _) => some (i, s)
    | some (.fn p b) =>
      match eval1A fuel b s with
      | none => none
      | some (b1, s1) => if b1 = b then some (i, s1) else some (fnA p b1 s1)
    | some (.app l r) =>
      match slotPayAt s l with
      | none => none
      | some (.fn p b) => replaceA fuel p b r s
      | some (.mag m) =>
        if m = "trace" then
          match eval1A fuel r s with
          | none => none
          | some (r1, s1) => if r1 = r then some (r, s1) else some (appA l r1 s1)
        else if m = "void" then
          match eval1A fuel r s with
          | none => none
          | some (r1, s1) => if r1 = r then some (l, s1) else some (appA l r1 s1)
        else none
      | some _ =>
        match eval1A fuel l s with
        | none => none
        | some (l1, s1) =>
          if l1 = l then
            match eval1A fuel r s1 with
            | none => none
            | some (r1, s2) => if r1 = r then some (i, s2) else some (appA l r1 s2)
          else some (appA l1 r s1)

/-- Frame relation between engine states: the slot array only grows, and
every slot that was live before is bit-for-bit untouched. -/
def Frame (s s1 : EngineState) : Prop :=
  s.slots.length ≤ s1.slots.length ∧
  ∀ i, liveAt s i = true → s1.slots.get? i = s.slots.get? i

/-- During evaluation the free list only shrinks, by popping from the
back: the new free list is a prefix of the old one. -/
def DeadPre (s s1 : EngineState) : Prop :=
  ∃ k, s1.dead = s.dead.take k

/-- Well-formedness of the free list: no duplicate entries, and every
entry addresses an in-bounds slot with `live = false`. -/
def DeadOK (s : EngineState) : Prop :=
  s.dead.Nodup ∧ ∀ i ∈ s.dead, i < s.slots.length ∧ liveAt s i = false

theorem frame_refl (s : EngineState) : Frame s s :=
  ⟨le_rfl, fun _ _ => rfl⟩

theorem frame_trans {s t u : EngineState} (h1 : Frame s t) (h2 : Frame t u) :
    Frame s u := by
  refine ⟨h1.1.trans h2.1, fun i hi => ?_⟩
  have ht := h1.2 i hi
  have hlt : liveAt t i = true := by
    unfold liveAt at hi ⊢
    rw [ht]
    exact hi
  rw [h2.2 i hlt, ht]

theorem deadPre_refl (s : EngineState) : DeadPre s s :=
  ⟨s.dead.length, (List.take_length s.dead).symm⟩

theorem deadPre_trans {s t u : EngineState} (h1 : DeadPre s t) (h2 : DeadPre t u) :
    DeadPre s u := by
  obtain ⟨k1, hk1⟩ := h1
  obtain ⟨k2, hk2⟩ := h2
  exact ⟨min k2 k1, by rw [hk2, hk1, List.take_take]⟩

theorem DeadPre.mem {s t : EngineState} (h : DeadPre s t) {i : Nat}
    (hi : i ∈ t.dead) : i ∈ s.dead := by
  obtain ⟨k, hk⟩ := h
  rw [hk] at hi
  exact List.mem_of_mem_take hi

theorem liveAt_congr {s t : EngineState} {i : Nat}
    (h : t.slots.get? i = s.slots.get? i) : liveAt t i = liveAt s i := by
  unfold liveAt
  rw [h]

theorem slotPayAt_congr {s t : EngineState} {i : Nat}
    (h : t.slots.get? i = s.slots.get? i) : slotPayAt t i = slotPayAt s i := by
  unfold slotPayAt
  rw [h]

theorem visitedAt_congr {s t : EngineState} {i : Nat}
    (h : t.slots.get? i = s.slots.get? i) : visitedAt t i = visitedAt s i := by
  unfold visitedAt
  rw [h]

theorem slotPayAt_live {s : EngineState} {i : Nat} {a : SlotAs}
    (h : slotPayAt s i = some a) : liveAt s i = true := by
  unfold slotPayAt at h
  unfold liveAt
  cases hg : s.slots.get? i with
  | none => rw [hg] at h; cases h
  | some sl =>
    simp only [hg] at h ⊢
    by_cases hl : sl.live = true
    · exact hl
    · rw [if_neg hl] at h; cases h

theorem frame_slotPayAt {s t : EngineState} (h : Frame s t) {i : Nat} {a : SlotAs}
    (ha : slotPayAt s i = some a) : slotPayAt t i = some a := by
  rw [slotPayAt_congr (h.2 i (slotPayAt_live ha))]
  exact ha

/-- The frame relation preserves successful `readBack`s verbatim. -/
theorem frame_readBack {s t : EngineState} (h : Frame s t) :
    ∀ fuel i e, readBack s fuel i = some e → readBack t fuel i = some e := by
  intro fuel
  induction fuel with
  | zero => intro i e he; cases he
  | succ fuel ih =>
    intro i e he
    rw [readBack] at he ⊢
    cases hp : slotPayAt s i with
    | none => rw [hp] at he; cases he
    | some a =>
      simp only [hp] at he
      simp only [frame_slotPayAt h hp]
      cases a with
      | var v => exact he
      | mag m => exact he
      | fn p b =>
        cases hb : readBack s fuel b with
        | none => simp [hb] at he
        | some tb =>
          simp only [hb, Option.map_some'] at he
          simp only [ih b tb hb, Option.map_some']
          exact he
      | app l r =>
        cases hl : readBack s fuel l with
        | none => simp [hl] at he
        | some tl =>
          cases hr : readBack s fuel r with
          | none => simp [hl, hr] at he
          | some tr =>
            simp only [hl, hr] at he
            simp only [ih l tl hl, ih r tr hr]
            exact he

theorem pushGenCur_fields (s : EngineState) (i : Nat) :
    (pushGenCur s i).slots = s.slots ∧ (pushGenCur s i).dead = s.dead ∧
    (pushGenCur s i).ctr = s.ctr ∧ (pushGenCur s i).genCur = s.genCur ∧
    genCurList (pushGenCur s i) = genCurList s ++ [i] := by
  unfold pushGenCur genCurList
  by_cases h : s.genCur = true <;> simp [h]

/-- What one allocation does to the state: the result index was not live
before, is live (with its old payload) after, every other slot is
untouched, the free list loses at most its last entry, and the current
generation list gains the result index. -/
theorem alloc_expr_spec (s : EngineState) (h : DeadOK s) (i : Nat)
    (s1 : EngineState) (he : alloc_expr s = (i, s1)) :
    s.slots.length ≤ s1.slots.length ∧
    (∀ j, j ≠ i → s1.slots.get? j = s.slots.get? j) ∧
    s1.slots.get? i = some { s.slots.getD i zeroSlot with live := true } ∧
    liveAt s i = false ∧
    DeadPre s s1 ∧ DeadOK s1 ∧
    s1.ctr = s.ctr ∧ s1.genCur = s.genCur ∧
    genCurList s1 = genCurList s ++ [i] := by
  unfold alloc_expr at he
  cases hd : s.dead.getLast? with
  | some i0 =>
    simp only [hd] at he
    injection he with he1 he2
    obtain rfl : i = i0 := he1.symm
    have hmem : i ∈ s.dead := List.mem_of_mem_getLast? hd
    have hbound : i < s.slots.length := (h.2 i hmem).1
    have hdeadlive : liveAt s i = false := (h.2 i hmem).2
    have hsplit : s.dead = s.dead.dropLast ++ [i] :=
      (List.dropLast_append_getLast? i hd).symm
    have hnodup2 := h.1
    rw [hsplit, List.nodup_append] at hnodup2
    have hp := pushGenCur_fields
      { s with dead := s.dead.dropLast,
               slots := s.slots.set i { s.slots.getD i zeroSlot with live := true } } i
    have hslots : s1.slots = s.slots.set i { s.slots.getD i zeroSlot with live := true } := by
      rw [← he2]; exact hp.1
    have hdead : s1.dead = s.dead.dropLast := by
      rw [← he2]; exact hp.2.1
    have hget : ∀ j, j ≠ i → s1.slots.get? j = s.slots.get? j := by
      intro j hj
      rw [hslots]
      exact List.get?_set_ne _ _ (Ne.symm hj)
    have hgeti : s1.slots.get? i = some { s.slots.getD i zeroSlot with live := true } := by
      rw [hslots]
      exact List.get?_set_eq_of_lt _ hbound
    refine ⟨?_, hget, hgeti, hdeadlive, ?_, ⟨?_, ?_⟩, ?_, ?_, ?_⟩
    · rw [hslots, List.length_set]
    · exact ⟨s.dead.length - 1, by rw [hdead]; exact List.dropLast_eq_take _⟩
    · rw [hdead]; exact hnodup2.1
    · intro j hj
      rw [hdead] at hj
      have hji : j ≠ i := by
        intro hq
        exact hnodup2.2.2 hj (hq ▸ List.mem_singleton_self i)
      have hjs : j ∈ s.dead := List.mem_of_mem_dropLast hj
      refine ⟨?_, ?_⟩
      · rw [hslots, List.length_set]; exact (h.2 j hjs).1
      · rw [liveAt_congr (hget j hji)]; exact (h.2 j hjs).2
    · rw [← he2]; exact hp.2.2.1
    · rw [← he2]; exact hp.2.2.2.1
    · rw [← he2]; exact hp.2.2.2.2
  | none =>
    simp only [hd] at he
    injection he with he1 he2
    subst he1
    have hp := pushGenCur_fields
      { s with slots := s.slots ++ [{ zeroSlot with live := true }] } s.slots.length
    have hslots : s1.slots = s.slots ++ [{ zeroSlot with live := true }] := by
      rw [← he2]; exact hp.1
    have hdead : s1.dead = s.dead := by
      rw [← he2]; exact hp.2.1
    have hget : ∀ j, j ≠ s.slots.length → s1.slots.get? j = s.slots.get? j := by
      intro j hj
      rcases Nat.lt_or_ge j s.slots.length with hlt | hge
      · rw [hslots]; exact List.get?_append hlt
      · have hgt : s.slots.length < j := lt_of_le_of_ne hge (Ne.symm hj)
        rw [hslots, List.get?_len_le (le_of_lt hgt),
          List.get?_len_le (by rw [List.length_append]; simpa using hgt)]
    have hgetD : s.slots.getD s.slots.length zeroSlot = zeroSlot := by
      show (s.slots.get? s.slots.length).getD zeroSlot = zeroSlot
      rw [List.get?_len_le le_rfl]
      rfl
    have hgeti : s1.slots.get? s.slots.length =
        some { s.slots.getD s.slots.length zeroSlot with live := true } := by
      rw [hslots, hgetD]
      exact List.get?_concat_length _ _
    have hnl : liveAt s s.slots.length = false := by
      unfold liveAt
      rw [List.get?_len_le le_rfl]
    refine ⟨?_, hget, hgeti, hnl, ?_, ⟨?_, ?_⟩, ?_, ?_, ?_⟩
    · rw [hslots, List.length_append]; simp
    · exact ⟨s.dead.length, by rw [hdead, List.take_length]⟩
    · rw [hdead]; exact h.1
    · intro j hj
      rw [hdead] at hj
      have hjb := (h.2 j hj).1
      refine ⟨?_, ?_⟩
      · rw [hslots, List.length_append]; omega
      · rw [liveAt_congr (hget j (Nat.ne_of_lt hjb))]; exact (h.2 j hj).2
    · rw [← he2]; exact hp.2.2.1
    · rw [← he2]; exact hp.2.2.2.1
    · rw [← he2]; exact hp.2.2.2.2

theorem setPay_spec (s : EngineState) (i : Nat) (a : SlotAs) (sl : Slot)
    (hg : s.slots.get? i = some sl) :
    (setPay s i a).slots.get? i = some { sl with pay := a } ∧
    (∀ j, j ≠ i → (setPay s i a).slots.get? j = s.slots.get? j) ∧
    (setPay s i a).slots.length = s.slots.length ∧
    (setPay s i a).dead = s.dead ∧ (setPay s i a).ctr = s.ctr ∧
    (setPay s i a).genCur = s.genCur ∧ genCurList (setPay s i a) = genCurList s := by
  have hlt : i < s.slots.length := by
    by_contra hge
    rw [List.get?_len_le (Nat.le_of_not_lt hge)] at hg
    cases hg
  have hD : s.slots.getD i zeroSlot = sl := by
    show (s.slots.get? i).getD zeroSlot = sl
    rw [hg]
    rfl
  refine ⟨?_, ?_, ?_, rfl, rfl, rfl, rfl⟩
  · show (s.slots.set i _).get? i = _
    rw [hD]
    exact List.get?_set_eq_of_lt _ hlt
  · intro j hj
    exact List.get?_set_ne _ _ (Ne.symm hj)
  · exact List.length_set _ _ _

/-- Common postcondition of the four constructors `var`, `magic`, `fun`,
`app`: the state satisfies the frame relation, dead-list prefix relation
and free-list invariant; the returned index was dead (or fresh) before
and now holds the requested payload; nothing else changed. -/
def ConSpec (s : EngineState) (r : Nat × EngineState) (a : SlotAs) : Prop :=
  Frame s r.2 ∧ DeadPre s r.2 ∧ DeadOK r.2 ∧
  liveAt s r.1 = false ∧
  slotPayAt r.2 r.1 = some a ∧
  r.2.ctr = s.ctr ∧ r.2.genCur = s.genCur ∧
  (∀ j, j ≠ r.1 → r.2.slots.get? j = s.slots.get? j)

theorem alloc_setPay_conSpec (s : EngineState) (h : DeadOK s) (a : SlotAs)
    (i : Nat) (s1 : EngineState) (he : alloc_expr s = (i, s1)) :
    ConSpec s (i, setPay s1 i a) a := by
  obtain ⟨hlen, hother, hgeti, hnl, hpre, hok, hctr, hcur, _⟩ :=
    alloc_expr_spec s h i s1 he
  obtain ⟨sp1, sp2, sp3, sp4, sp5, sp6, _⟩ := setPay_spec s1 i a _ hgeti
  have hchain : ∀ j, j ≠ i → (setPay s1 i a).slots.get? j = s.slots.get? j := by
    intro j hj
    rw [sp2 j hj]
    exact hother j hj
  refine ⟨⟨?_, ?_⟩, ?_, ⟨?_, ?_⟩, hnl, ?_, ?_, ?_, hchain⟩
  · rw [sp3]; exact hlen
  · intro j hj
    have hji : j ≠ i := by
      intro hq
      rw [hq, hnl] at hj
      cases hj
    exact hchain j hji
  · obtain ⟨k, hk⟩ := hpre
    exact ⟨k, by rw [sp4, hk]⟩
  · rw [sp4]; exact hok.1
  · intro j hj
    rw [sp4] at hj
    have hji : j ≠ i := by
      intro hq
      have hlive : liveAt s1 j = false := (hok.2 j hj).2
      rw [hq] at hlive
      unfold liveAt at hlive
      rw [hgeti] at hlive
      cases hlive
    refine ⟨?_, ?_⟩
    · rw [sp3]; exact (hok.2 j hj).1
    · rw [liveAt_congr (sp2 j hji)]
      exact (hok.2 j hj).2
  · unfold slotPayAt
    rw [sp1]
    simp
  · rw [sp5]; exact hctr
  · rw [sp6]; exact hcur

theorem varA_spec (name : Symbol) (s : EngineState) (h : DeadOK s) :
    ConSpec s (varA name s) (.var name) := by
  obtain ⟨i, s1, he⟩ : ∃ i s1, alloc_expr s = (i, s1) := ⟨_, _, rfl⟩
  have hv : varA name s = (i, setPay s1 i (.var name)) := by rw [varA, he]
  rw [hv]
  exact alloc_setPay_conSpec s h _ i s1 he

theorem magA_spec (label : String) (s : EngineState) (h : DeadOK s) :
    ConSpec s (magA label s) (.mag label) := by
  obtain ⟨i, s1, he⟩ : ∃ i s1, alloc_expr s = (i, s1) := ⟨_, _, rfl⟩
  have hv : magA label s = (i, setPay s1 i (.mag label)) := by rw [magA, he]
  rw [hv]
  exact alloc_setPay_conSpec s h _ i s1 he

theorem fnA_spec (param : Symbol) (body : Nat) (s : EngineState) (h : DeadOK s) :
    ConSpec s (fnA param body s) (.fn param body) := by
  obtain ⟨i, s1, he⟩ : ∃ i s1, alloc_expr s = (i, s1) := ⟨_, _, rfl⟩
  have hv : fnA param body s = (i, setPay s1 i (.fn param body)) := by rw [fnA, he]
  rw [hv]
  exact alloc_setPay_conSpec s h _ i s1 he

theorem appA_spec (lhs rhs : Nat) (s : EngineState) (h : DeadOK s) :
    ConSpec s (appA lhs rhs s) (.app lhs rhs) := by
  obtain ⟨i, s1, he⟩ : ∃ i s1, alloc_expr s = (i, s1) := ⟨_, _, rfl⟩
  have hv : appA lhs rhs s = (i, setPay s1 i (.app lhs rhs)) := by rw [appA, he]
  rw [hv]
  exact alloc_setPay_conSpec s h _ i s1 he

theorem frame_live_true {s t : EngineState} (h : Frame s t) {j : Nat}
    (hj : liveAt s j = true) : liveAt t j = true := by
  rw [liveAt_congr (h.2 j hj)]
  exact hj

theorem frame_live_false {s t : EngineState} (h : Frame s t) {j : Nat}
    (hj : liveAt t j = false) : liveAt s j = false := by
  cases hl : liveAt s j with
  | false => rfl
  | true => rw [frame_live_true h hl] at hj; cases hj

theorem optEqPair {α β : Type} {x : α × β} {r : α} {s : β}
    (h : some x = some (r, s)) : r = x.1 ∧ s = x.2 := by
  injection h with h1
  exact ⟨(congrArg Prod.fst h1).symm, (congrArg Prod.snd h1).symm⟩

/-- `ReachesN s n i j`: starting from arena index `i` one reaches index
`j` in exactly `n` child steps, each step read out of a live slot. -/
inductive ReachesN (s : EngineState) : Nat → Nat → Nat → Prop where
  | refl (i : Nat) : ReachesN s 0 i i
  | fnStep {n i j : Nat} (p : Symbol) (b : Nat) :
      slotPayAt s i = some (.fn p b) → ReachesN s n b j → ReachesN s (n + 1) i j
  | appLeft {n i j : Nat} (l r : Nat) :
      slotPayAt s i = some (.app l r) → ReachesN s n l j → ReachesN s (n + 1) i j
  | appRight {n i j : Nat} (l r : Nat) :
      slotPayAt s i = some (.app l r) → ReachesN s n r j → ReachesN s (n + 1) i j

/-- Reachability in the arena (any number of steps). -/
def Reaches (s : EngineState) (i j : Nat) : Prop := ∃ n, ReachesN s n i j

theorem reachesN_trans {s : EngineState} :
    ∀ {n m i j k : Nat}, ReachesN s n i j → ReachesN s m j k →
      ReachesN s (n + m) i k := by
  intro n m i j k h1
  induction h1 with
  | refl i => intro h2; rw [Nat.zero_add]; exact h2
  | fnStep p b hp _ ih =>
    intro h2
    rw [Nat.add_right_comm]
    exact ReachesN.fnStep p b hp (ih h2)
  | appLeft l r hp _ ih =>
    intro h2
    rw [Nat.add_right_comm]
    exact ReachesN.appLeft l r hp (ih h2)
  | appRight l r hp _ ih =>
    intro h2
    rw [Nat.add_right_comm]
    exact ReachesN.appRight l r hp (ih h2)

/-- A successful `readBack` with fuel `k` bounds every path out of its
root by `k`: the arena below a readable root is acyclic. -/
theorem readBack_depth {s : EngineState} :
    ∀ {n i j : Nat}, ReachesN s n i j →
      ∀ k t, readBack s k i = some t → n < k := by
  intro n i j h
  induction h with
  | refl i =>
    intro k t ht
    cases k with
    | zero => cases ht
    | succ k => exact Nat.succ_pos k
  | fnStep p b hp _ ih =>
    intro k t ht
    cases k with
    | zero => cases ht
    | succ k =>
      rw [readBack] at ht
      simp only [hp] at ht
      cases hb : readBack s k b with
      | none => rw [hb] at ht; cases ht
      | some tb => exact Nat.succ_lt_succ (ih k tb hb)
  | appLeft l r hp _ ih =>
    intro k t ht
    cases k with
    | zero => cases ht
    | succ k =>
      rw [readBack] at ht
      simp only [hp] at ht
      cases hl : readBack s k l with
      | none => rw [hl] at ht; cases ht
      | some tl => exact Nat.succ_lt_succ (ih k tl hl)
  | appRight l r hp _ ih =>
    intro k t ht
    cases k with
    | zero => cases ht
    | succ k =>
      rw [readBack] at ht
      simp only [hp] at ht
      cases hl : readBack s k l with
      | none => rw [hl] at ht; cases ht
      | some tl =>
        cases hr : readBack s k r with
        | none => rw [hl, hr] at ht; cases ht
        | some tr => exact Nat.succ_lt_succ (ih k tr hr)

/-- No readable slot lies on a cycle. -/
theorem readBack_no_cycle {s : EngineState} {k i n : Nat} {t : Expr}
    (ht : readBack s k i = some t) (hc : ReachesN s (n + 1) i i) : False := by
  have pump : ∀ m, ReachesN s (m * (n + 1)) i i := by
    intro m
    induction m with
    | zero => rw [Nat.zero_mul]; exact ReachesN.refl i
    | succ m ih =>
      rw [Nat.succ_mul]
      exact reachesN_trans ih hc
  have hlt := readBack_depth (pump k) k t ht
  have hge : k ≤ k * (n + 1) := Nat.le_mul_of_pos_right k (Nat.succ_pos n)
  omega

/-- Frame property of `replace`: a successful run only allocates — the
arena grows, live slots are untouched, the free list shrinks from the
back keeping its invariant, and the result is the body itself, the
argument itself, or a freshly allocated slot. -/
theorem replaceA_frame : ∀ fuel param body arg s res s1,
    DeadOK s → replaceA fuel param body arg s = some (res, s1) →
    Frame s s1 ∧ DeadPre s s1 ∧ DeadOK s1 ∧
    (res = body ∨ res = arg ∨ liveAt s res = false) := by
  intro fuel
  induction fuel with
  | zero => intro _ _ _ _ _ _ _ he; cases he
  | succ fuel ih =>
    intro param body arg s res s1 hok he
    rw [replaceA] at he
    split at he
    case _ => cases he
    case _ m hp =>
      obtain ⟨rfl, rfl⟩ := optEqPair he
      exact ⟨frame_refl _, deadPre_refl _, hok, Or.inl rfl⟩
    case _ v hp =>
      split at he
      · obtain ⟨rfl, rfl⟩ := optEqPair he
        exact ⟨frame_refl _, deadPre_refl _, hok, Or.inr (Or.inl rfl)⟩
      · obtain ⟨rfl, rfl⟩ := optEqPair he
        exact ⟨frame_refl _, deadPre_refl _, hok, Or.inl rfl⟩
    case _ p b hp =>
      split at he
      · obtain ⟨rfl, rfl⟩ := optEqPair he
        exact ⟨frame_refl _, deadPre_refl _, hok, Or.inl rfl⟩
      · split at he
        case _ => cases he
        case _ hf =>
          split at he
          case _ => cases he
          case _ b1 s2 hr1 =>
            obtain ⟨hF, hP, hK, _⟩ := ih param b arg s b1 s2 hok hr1
            have hc := fnA_spec p b1 s2 hK
            obtain ⟨rfl, rfl⟩ := optEqPair he
            exact ⟨frame_trans hF hc.1, deadPre_trans hP hc.2.1, hc.2.2.1,
              Or.inr (Or.inr (frame_live_false hF hc.2.2.2.1))⟩
        case _ hf =>
          dsimp only at he
          split at he
          case _ => cases he
          case _ b1 s2 hr1 =>
            split at he
            case _ => cases he
            case _ e2 s3 hr2 =>
              have hok0 : DeadOK { s with ctr := s.ctr + 1 } := hok
              have hcv := varA_spec ⟨p.label, s.ctr + 1⟩
                { s with ctr := s.ctr + 1 } hok0
              have hF0 : Frame s { s with ctr := s.ctr + 1 } :=
                ⟨le_rfl, fun _ _ => rfl⟩
              have hP0 : DeadPre s { s with ctr := s.ctr + 1 } :=
                ⟨s.dead.length, (List.take_length s.dead).symm⟩
              obtain ⟨hF1, hP1, hK1, _⟩ := ih p b _ _ b1 s2 hcv.2.2.1 hr1
              obtain ⟨hF2, hP2, hK2, _⟩ := ih param b1 arg s2 e2 s3 hK1 hr2
              have hc := fnA_spec ⟨p.label, s.ctr + 1⟩ e2 s3 hK2
              obtain ⟨rfl, rfl⟩ := optEqPair he
              have hFall : Frame s s3 :=
                frame_trans (frame_trans (frame_trans hF0 hcv.1) hF1) hF2
              exact ⟨frame_trans hFall hc.1,
                deadPre_trans (deadPre_trans (deadPre_trans (deadPre_trans hP0 hcv.2.1) hP1) hP2) hc.2.1,
                hc.2.2.1,
                Or.inr (Or.inr (frame_live_false hFall hc.2.2.2.1))⟩
    case _ al ar hp =>
      split at he
      case _ => cases he
      case _ l1 s2 hr1 =>
        split at he
        case _ => cases he
        case _ r1 s3 hr2 =>
          obtain ⟨hF1, hP1, hK1, _⟩ := ih param al arg s l1 s2 hok hr1
          obtain ⟨hF2, hP2, hK2, _⟩ := ih param ar arg s2 r1 s3 hK1 hr2
          have hc := appA_spec l1 r1 s3 hK2
          obtain ⟨rfl, rfl⟩ := optEqPair he
          have hFall : Frame s s3 := frame_trans hF1 hF2
          exact ⟨frame_trans hFall hc.1, deadPre_trans (deadPre_trans hP1 hP2) hc.2.1, hc.2.2.1,
            Or.inr (Or.inr (frame_live_false hFall hc.2.2.2.1))⟩

/-- Frame property of `eval1`: a successful step only allocates — the
arena grows, slots that were live before the call are untouched, and
the free list shrinks from the back keeping its invariant. -/
theorem eval1A_frame : ∀ fuel i s res s1,
    DeadOK s → eval1A fuel i s = some (res, s1) →
    Frame s s1 ∧ DeadPre s s1 ∧ DeadOK s1 := by
  intro fuel
  induction fuel with
  | zero => intro _ _ _ _ _ he; cases he
  | succ fuel ih =>
    intro i s res s1 hok he
    rw [eval1A] at he
    split at he
    case _ => cases he
    case _ v hp =>
      obtain ⟨rfl, rfl⟩ := optEqPair he
      exact ⟨frame_refl _, deadPre_refl _, hok⟩
    case _ m hp =>
      obtain ⟨rfl, rfl⟩ := optEqPair he
      exact ⟨frame_refl _, deadPre_refl _, hok⟩
    case _ p b hp =>
      split at he
      case _ => cases he
      case _ b1 s2 hb =>
        obtain ⟨hF, hP, hK⟩ := ih b s b1 s2 hok hb
        split at he
        · obtain ⟨rfl, rfl⟩ := optEqPair he
          exact ⟨hF, hP, hK⟩
        · have hc := fnA_spec p b1 s2 hK
          obtain ⟨rfl, rfl⟩ := optEqPair he
          exact ⟨frame_trans hF hc.1, deadPre_trans hP hc.2.1, hc.2.2.1⟩
    case _ l r hp =>
      split at he
      case _ => cases he
      case _ p b hpl =>
        obtain ⟨hF, hP, hK, _⟩ := replaceA_frame fuel p b r s res s1 hok he
        exact ⟨hF, hP, hK⟩
      case _ m hpl =>
        split at he
        · split at he
          case _ => cases he
          case _ r1 s2 hr =>
            obtain ⟨hF, hP, hK⟩ := ih r s r1 s2 hok hr
            split at he
            · obtain ⟨rfl, rfl⟩ := optEqPair he
              exact ⟨hF, hP, hK⟩
            · have hc := appA_spec l r1 s2 hK
              obtain ⟨rfl, rfl⟩ := optEqPair he
              exact ⟨frame_trans hF hc.1, deadPre_trans hP hc.2.1, hc.2.2.1⟩
        · split at he
          · split at he
            case _ => cases he
            case _ r1 s2 hr =>
              obtain ⟨hF, hP, hK⟩ := ih r s r1 s2 hok hr
              split at he
              · obtain ⟨rfl, rfl⟩ := optEqPair he
                exact ⟨hF, hP, hK⟩
              · have hc := appA_spec l r1 s2 hK
                obtain ⟨rfl, rfl⟩ := optEqPair he
                exact ⟨frame_trans hF hc.1, deadPre_trans hP hc.2.1, hc.2.2.1⟩
          · cases he
      case _ =>
        split at he
        case _ => cases he
        case _ l1 s2 hl =>
          obtain ⟨hF1, hP1, hK1⟩ := ih l s l1 s2 hok hl
          split at he
          · split at he
            case _ => cases he
            case _ r1 s3 hr =>
              obtain ⟨hF2, hP2, hK2⟩ := ih r s2 r1 s3 hK1 hr
              split at he
              · obtain ⟨rfl, rfl⟩ := optEqPair he
                exact ⟨frame_trans hF1 hF2, deadPre_trans hP1 hP2, hK2⟩
              · have hc := appA_spec l r1 s3 hK2
                obtain ⟨rfl, rfl⟩ := optEqPair he
                exact ⟨frame_trans (frame_trans hF1 hF2) hc.1,
                  deadPre_trans (deadPre_trans hP1 hP2) hc.2.1, hc.2.2.1⟩
          · have hc := appA_spec l1 r s2 hK1
            obtain ⟨rfl, rfl⟩ := optEqPair he
            exact ⟨frame_trans hF1 hc.1, deadPre_trans hP1 hc.2.1, hc.2.2.1⟩

/-- A one-slot arena holding the single live expression `x`, used by the
C10 witness. -/
def cs10 : EngineState :=
  ⟨[⟨.var ⟨"x", 0⟩, false, true⟩], [], [0], [], false, 0⟩

/-- C10: evaluation is non-destructive.  A successful call to `replace`
or to `eval1` (modelled on arenas with well-formed free lists) never
modifies any arena slot that was live before the call — in particular
neither its kind/payload nor its flags — the arena only grows, and
consequently every expression readable from any root before the call
reads back identically, hence pretty-prints identically, after it. -/
theorem C10_frame :
    (∀ fuel param body arg s res s1, DeadOK s →
      replaceA fuel param body arg s = some (res, s1) →
      (∀ i, liveAt s i = true → s1.slots.get? i = s.slots.get? i) ∧
      s.slots.length ≤ s1.slots.length ∧
      (∀ k root t, readBack s k root = some t →
        readBack s1 k root = some t ∧
        (readBack s1 k root).map exprDisplay = some (exprDisplay t))) ∧
    (∀ fuel i s res s1, DeadOK s →
      eval1A fuel i s = some (res, s1) →
      (∀ j, liveAt s j = true → s1.slots.get? j = s.slots.get? j) ∧
      s.slots.length ≤ s1.slots.length ∧
      (∀ k root t, readBack s k root = some t →
        readBack s1 k root = some t ∧
        (readBack s1 k root).map exprDisplay = some (exprDisplay t))) := by
  constructor
  · intro fuel param body arg s res s1 hok he
    obtain ⟨hF, _, _, _⟩ := replaceA_frame fuel param body arg s res s1 hok he
    refine ⟨hF.2, hF.1, ?_⟩
    intro k root t ht
    have h1 := frame_readBack hF k root t ht
    exact ⟨h1, by rw [h1]; rfl⟩
  · intro fuel i s res s1 hok he
    obtain ⟨hF, _, _⟩ := eval1A_frame fuel i s res s1 hok he
    refine ⟨hF.2, hF.1, ?_⟩
    intro k root t ht
    have h1 := frame_readBack hF k root t ht
    exact ⟨h1, by rw [h1]; rfl⟩

/-- Witness for C10: on the concrete one-slot arena, `replace x x x`
(indices) and `eval1 x` succeed without touching the live slot, and the
root still reads back as `x` afterwards. -/
theorem C10_frame_witness :
    DeadOK cs10 ∧
    replaceA 1 ⟨"x", 0⟩ 0 0 cs10 = some (0, cs10) ∧
    eval1A 1 0 cs10 = some (0, cs10) ∧
    readBack cs10 1 0 = some (.var ⟨"x", 0⟩) ∧
    cs10.slots.get? 0 = cs10.slots.get? 0 :=
  ⟨⟨by decide, by decide⟩, by decide, by decide,
   ((C10_frame.1 1 ⟨"x", 0⟩ 0 0 cs10 0 cs10 ⟨by decide, by decide⟩ (by decide)).2.2
      1 0 (.var ⟨"x", 0⟩) (by decide)).1,
   (C10_frame.2 1 0 cs10 0 cs10 ⟨by decide, by decide⟩ (by decide)).1 0 (by decide)⟩

theorem readBack_mono {s : EngineState} :
    ∀ {k k2 i t}, k ≤ k2 → readBack s k i = some t → readBack s k2 i = some t := by
  intro k
  induction k with
  | zero => intro k2 i t _ ht; cases ht
  | succ k ih =>
    intro k2 i t hk ht
    obtain ⟨k1, rfl⟩ : ∃ k1, k2 = k1 + 1 :=
      ⟨k2 - 1, by omega⟩
    have hk1 : k ≤ k1 := by omega
    rw [readBack] at ht ⊢
    cases hp : slotPayAt s i with
    | none => rw [hp] at ht; cases ht
    | some a =>
      simp only [hp] at ht ⊢
      cases a with
      | var v => exact ht
      | mag m => exact ht
      | fn p b =>
        cases hb : readBack s k b with
        | none => simp [hb] at ht
        | some tb =>
          simp only [hb, Option.map_some'] at ht
          simp only [ih hk1 hb, Option.map_some']
          exact ht
      | app l r =>
        cases hl : readBack s k l with
        | none => simp [hl] at ht
        | some tl =>
          cases hr : readBack s k r with
          | none => simp [hl, hr] at ht
          | some tr =>
            simp only [hl, hr] at ht
            simp only [ih hk1 hl, ih hk1 hr]
            exact ht

theorem readBack_succ_var {s : EngineState} {i : Nat} {v : Symbol} (k : Nat)
    (hp : slotPayAt s i = some (.var v)) :
    readBack s (k + 1) i = some (.var v) := by
  rw [readBack]
  simp only [hp]

theorem readBack_succ_mag {s : EngineState} {i : Nat} {m : String} (k : Nat)
    (hp : slotPayAt s i = some (.mag m)) :
    readBack s (k + 1) i = some (.mag m) := by
  rw [readBack]
  simp only [hp]

theorem readBack_succ_fn {s : EngineState} {i b : Nat} {p : Symbol} {tb : Expr}
    {k : Nat} (hp : slotPayAt s i = some (.fn p b))
    (hb : readBack s k b = some tb) :
    readBack s (k + 1) i = some (.fn p tb) := by
  rw [readBack]
  simp only [hp, hb, Option.map_some']

theorem readBack_succ_app {s : EngineState} {i l r : Nat} {tl tr : Expr}
    {k : Nat} (hp : slotPayAt s i = some (.app l r))
    (hl : readBack s k l = some tl) (hr : readBack s k r = some tr) :
    readBack s (k + 1) i = some (.app tl tr) := by
  rw [readBack]
  simp only [hp, hl, hr]

theorem readBack_var_inv {s : EngineState} {k i : Nat} {t : Expr} {v : Symbol}
    (ht : readBack s k i = some t) (hp : slotPayAt s i = some (.var v)) :
    t = .var v := by
  cases k with
  | zero => cases ht
  | succ k =>
    rw [readBack] at ht
    simp only [hp] at ht
    exact (Option.some.injEq _ _ ▸ ht).symm

theorem readBack_mag_inv {s : EngineState} {k i : Nat} {t : Expr} {m : String}
    (ht : readBack s k i = some t) (hp : slotPayAt s i = some (.mag m)) :
    t = .mag m := by
  cases k with
  | zero => cases ht
  | succ k =>
    rw [readBack] at ht
    simp only [hp] at ht
    exact (Option.some.injEq _ _ ▸ ht).symm

theorem readBack_fn_inv {s : EngineState} {k i b : Nat} {t : Expr} {p : Symbol}
    (ht : readBack s k i = some t) (hp : slotPayAt s i = some (.fn p b)) :
    ∃ k0 tb, k = k0 + 1 ∧ t = .fn p tb ∧ readBack s k0 b = some tb := by
  cases k with
  | zero => cases ht
  | succ k0 =>
    rw [readBack] at ht
    simp only [hp] at ht
    cases hb : readBack s k0 b with
    | none => simp [hb] at ht
    | some tb =>
      simp only [hb, Option.map_some'] at ht
      exact ⟨k0, tb, rfl, by injection ht with h; exact h.symm, hb⟩

theorem readBack_app_inv {s : EngineState} {k i l r : Nat} {t : Expr}
    (ht : readBack s k i = some t) (hp : slotPayAt s i = some (.app l r)) :
    ∃ k0 tl tr, k = k0 + 1 ∧ t = .app tl tr ∧
      readBack s k0 l = some tl ∧ readBack s k0 r = some tr := by
  cases k with
  | zero => cases ht
  | succ k0 =>
    rw [readBack] at ht
    simp only [hp] at ht
    cases hl : readBack s k0 l with
    | none => simp [hl] at ht
    | some tl =>
      cases hr : readBack s k0 r with
      | none => simp [hl, hr] at ht
      | some tr =>
        simp only [hl, hr] at ht
        exact ⟨k0, tl, tr, rfl, by injection ht with h; exact h.symm, hl, hr⟩

theorem app_child_ne {s : EngineState} {k i l r : Nat} {t : Expr}
    (ht : readBack s k i = some t) (hp : slotPayAt s i = some (.app l r)) :
    l ≠ i ∧ r ≠ i := by
  constructor
  · intro hq
    subst hq
    exact readBack_no_cycle ht (ReachesN.appLeft l r hp (ReachesN.refl l))
  · intro hq
    subst hq
    exact readBack_no_cycle ht (ReachesN.appRight l r hp (ReachesN.refl r))

theorem fn_child_ne {s : EngineState} {k i b : Nat} {t : Expr} {p : Symbol}
    (ht : readBack s k i = some t) (hp : slotPayAt s i = some (.fn p b)) :
    b ≠ i := by
  intro hq
  subst hq
  exact readBack_no_cycle ht (ReachesN.fnStep p b hp (ReachesN.refl b))

theorem app_grandchild_ne {s : EngineState} {k i l r b : Nat} {t : Expr}
    {p : Symbol} (ht : readBack s k i = some t)
    (hp : slotPayAt s i = some (.app l r))
    (hpl : slotPayAt s l = some (.fn p b)) : b ≠ i := by
  intro hq
  subst hq
  exact readBack_no_cycle ht
    (ReachesN.appLeft l r hp (ReachesN.fnStep p b hpl (ReachesN.refl b)))

/-- The arena-level free-variable test agrees with the tree-level one on
readable arguments. -/
theorem isVarFreeThereA_sim : ∀ fuel name there s k t bv,
    readBack s k there = some t →
    isVarFreeThereA s fuel name there = some bv →
    bv = isVarFreeThere name t := by
  intro fuel
  induction fuel with
  | zero => intro _ _ _ _ _ _ _ hb; cases hb
  | succ fuel ih =>
    intro name there s k t bv ht hb
    rw [isVarFreeThereA] at hb
    split at hb
    case _ => cases hb
    case _ v hp =>
      obtain rfl := readBack_var_inv ht hp
      injection hb with hb
      subst hb
      simp [isVarFreeThere]
    case _ m hp =>
      obtain rfl := readBack_mag_inv ht hp
      injection hb with hb
      subst hb
      simp [isVarFreeThere]
    case _ p b hp =>
      obtain ⟨k0, tb, rfl, rfl, hrb⟩ := readBack_fn_inv ht hp
      split at hb
      · injection hb with hb
        subst hb
        rename_i hpn
        simp [isVarFreeThere, hpn]
      · rename_i hpn
        rw [ih name b s k0 tb bv hrb hb]
        simp [isVarFreeThere, hpn]
    case _ l r hp =>
      obtain ⟨k0, tl, tr, rfl, rfl, hrl, hrr⟩ := readBack_app_inv ht hp
      split at hb
      case _ => cases hb
      case _ hbl =>
        injection hb with hb
        subst hb
        have hl := ih name l s k0 tl true hrl hbl
        simp only [isVarFreeThere]
        rw [← hl]
        simp
      case _ hbl =>
        have hl := ih name l s k0 tl false hrl hbl
        have hr := ih name r s k0 tr bv hrr hb
        simp only [isVarFreeThere]
        rw [← hl, ← hr]
        simp

/-- Simulation of arena-level `replace` by the tree-level one: on
readable inputs a successful arena run computes exactly the tree-level
substitution result (including the fresh-counter evolution), readable at
the returned index in the post state. -/
theorem replaceA_sim : ∀ fuel param bi ai s res s1 kb ka tb ta,
    DeadOK s →
    readBack s kb bi = some tb →
    readBack s ka ai = some ta →
    replaceA fuel param bi ai s = some (res, s1) →
    s1.ctr = (replace param tb ta s.ctr).2 ∧
    ∃ k2, readBack s1 k2 res = some (replace param tb ta s.ctr).1 := by
  intro fuel
  induction fuel with
  | zero => intro _ _ _ _ _ _ _ _ _ _ _ _ _ he; cases he
  | succ fuel ih =>
    intro param bi ai s res s1 kb ka tb ta hok htb hta he
    rw [replaceA] at he
    split at he
    case _ => cases he
    case _ m hp =>
      obtain ⟨rfl, rfl⟩ := optEqPair he
      obtain rfl := readBack_mag_inv htb hp
      rw [replace_mag]
      exact ⟨rfl, kb, htb⟩
    case _ v hp =>
      obtain rfl := readBack_var_inv htb hp
      rw [replace_var]
      split at he
      case _ hv =>
        obtain ⟨rfl, rfl⟩ := optEqPair he
        rw [if_pos hv]
        exact ⟨rfl, ka, hta⟩
      case _ hv =>
        obtain ⟨rfl, rfl⟩ := optEqPair he
        rw [if_neg hv]
        exact ⟨rfl, kb, htb⟩
    case _ p b hp =>
      obtain ⟨kb0, tbb, rfl, rfl, hrb⟩ := readBack_fn_inv htb hp
      split at he
      case _ hpp =>
        obtain ⟨rfl, rfl⟩ := optEqPair he
        subst hpp
        rw [replace_fn_shadow]
        exact ⟨rfl, kb0 + 1, htb⟩
      case _ hpp =>
        split at he
        case _ => cases he
        case _ hf =>
          split at he
          case _ => cases he
          case _ b1 s2 hr1 =>
            obtain ⟨rfl, rfl⟩ := optEqPair he
            have hfree : isVarFreeThere p ta = false :=
              (isVarFreeThereA_sim fuel p ai s ka ta false hta hf).symm
            obtain ⟨hctr2, k2, hres2⟩ :=
              ih param b ai s b1 s2 kb0 ka tbb ta hok hrb hta hr1
            obtain ⟨hF1, _, hK1, _⟩ := replaceA_frame fuel param b ai s b1 s2 hok hr1
            have hc := fnA_spec p b1 s2 hK1
            rw [replace_fn_nocapture param p tbb ta s.ctr hpp hfree]
            refine ⟨?_, k2 + 1, ?_⟩
            · rw [hc.2.2.2.2.2.1, hctr2]
            · exact readBack_succ_fn hc.2.2.2.2.1
                (frame_readBack hc.1 k2 b1 _ hres2)
        case _ hf =>
          dsimp only at he
          split at he
          case _ => cases he
          case _ b1 s2 hr1 =>
            split at he
            case _ => cases he
            case _ e2 s3 hr2 =>
              obtain ⟨rfl, rfl⟩ := optEqPair he
              have hfree : isVarFreeThere p ta = true :=
                (isVarFreeThereA_sim fuel p ai s ka ta true hta hf).symm
              have hok0 : DeadOK { s with ctr := s.ctr + 1 } := hok
              have hcv := varA_spec ⟨p.label, s.ctr + 1⟩
                { s with ctr := s.ctr + 1 } hok0
              have hF0 : Frame s { s with ctr := s.ctr + 1 } :=
                ⟨le_rfl, fun _ _ => rfl⟩
              have hFv : Frame s
                  (varA ⟨p.label, s.ctr + 1⟩ { s with ctr := s.ctr + 1 }).2 :=
                frame_trans hF0 hcv.1
              have hfv : readBack
                  (varA ⟨p.label, s.ctr + 1⟩ { s with ctr := s.ctr + 1 }).2 1
                  (varA ⟨p.label, s.ctr + 1⟩ { s with ctr := s.ctr + 1 }).1 =
                  some (.var ⟨p.label, s.ctr + 1⟩) :=
                readBack_succ_var 0 hcv.2.2.2.2.1
              have hrbv := frame_readBack hFv kb0 b tbb hrb
              obtain ⟨hctr2, k2, hres2⟩ :=
                ih p b _ _ b1 s2 kb0 1 tbb (.var ⟨p.label, s.ctr + 1⟩)
                  hcv.2.2.1 hrbv hfv hr1
              obtain ⟨hF1, _, hK1, _⟩ :=
                replaceA_frame fuel p b _ _ b1 s2 hcv.2.2.1 hr1
              have hta2 := frame_readBack (frame_trans hFv hF1) ka ai ta hta
              obtain ⟨hctr3, k3, hres3⟩ :=
                ih param b1 ai s2 e2 s3 k2 ka _ ta hK1 hres2 hta2 hr2
              obtain ⟨hF2, _, hK2, _⟩ :=
                replaceA_frame fuel param b1 ai s2 e2 s3 hK1 hr2
              have hc := fnA_spec ⟨p.label, s.ctr + 1⟩ e2 s3 hK2
              rw [replace_fn_rename param p tbb ta s.ctr hpp hfree]
              dsimp only
              have hcv_ctr : (varA ⟨p.label, s.ctr + 1⟩
                  { s with ctr := s.ctr + 1 }).2.ctr = s.ctr + 1 :=
                hcv.2.2.2.2.2.1
              rw [hcv_ctr] at hctr2 hctr3 hres2 hres3
              rw [hctr2] at hctr3 hres3
              refine ⟨?_, k3 + 1, ?_⟩
              · rw [hc.2.2.2.2.2.1, hctr3]
              · exact readBack_succ_fn hc.2.2.2.2.1
                  (frame_readBack hc.1 k3 e2 _ hres3)
    case _ al ar hp =>
      obtain ⟨kb0, tl, tr, rfl, rfl, hrl, hrr⟩ := readBack_app_inv htb hp
      split at he
      case _ => cases he
      case _ l1 s2 hr1 =>
        split at he
        case _ => cases he
        case _ r1 s3 hr2 =>
          obtain ⟨rfl, rfl⟩ := optEqPair he
          obtain ⟨hctr2, k2, hres2⟩ :=
            ih param al ai s l1 s2 kb0 ka tl ta hok hrl hta hr1
          obtain ⟨hF1, _, hK1, _⟩ := replaceA_frame fuel param al ai s l1 s2 hok hr1
          have hrr2 := frame_readBack hF1 kb0 ar tr hrr
          have hta2 := frame_readBack hF1 ka ai ta hta
          obtain ⟨hctr3, k3, hres3⟩ :=
            ih param ar ai s2 r1 s3 kb0 ka tr ta hK1 hrr2 hta2 hr2
          obtain ⟨hF2, _, hK2, _⟩ := replaceA_frame fuel param ar ai s2 r1 s3 hK1 hr2
          have hc := appA_spec l1 r1 s3 hK2
          rw [replace_app]
          dsimp only
          rw [hctr2] at hctr3 hres3
          refine ⟨?_, max k2 k3 + 1, ?_⟩
          · rw [hc.2.2.2.2.2.1, hctr3]
          · refine readBack_succ_app hc.2.2.2.2.1 ?_ ?_
            · exact readBack_mono (Nat.le_max_left k2 k3)
                (frame_readBack (frame_trans hF2 hc.1) k2 l1 _ hres2)
            · exact readBack_mono (Nat.le_max_right k2 k3)
                (frame_readBack hc.1 k3 r1 _ hres3)

/-- The tree-level reducer's general application case (head neither a
`Fun` nor a `Magic`), written with the head abstract. -/
theorem eval1_app_general (ctr : Nat) (l r : Expr)
    (hfn : ∀ p b, l ≠ .fn p b) (hmag : ∀ m, l ≠ .mag m) :
    eval1 ctr (.app l r) =
      match eval1 ctr l with
      | none => none
      | some (l1, ch, c1) =>
        if ch then some (.app l1 r, true, c1)
        else match eval1 c1 r with
          | none => none
          | some (r1, ch2, c2) =>
            if ch2 then some (.app l r1, true, c2)
            else some (.app l r, false, c2) := by
  cases l with
  | fn p b => exact absurd rfl (hfn p b)
  | mag m => exact absurd rfl (hmag m)
  | var v => conv_lhs => rw [eval1]
  | app ll lr => conv_lhs => rw [eval1]

theorem ConSpec.frame {s : EngineState} {r : Nat × EngineState} {a : SlotAs}
    (h : ConSpec s r a) : Frame s r.2 := h.1

theorem ConSpec.deadok {s : EngineState} {r : Nat × EngineState} {a : SlotAs}
    (h : ConSpec s r a) : DeadOK r.2 := h.2.2.1

theorem ConSpec.fresh {s : EngineState} {r : Nat × EngineState} {a : SlotAs}
    (h : ConSpec s r a) : liveAt s r.1 = false := h.2.2.2.1

theorem ConSpec.pay {s : EngineState} {r : Nat × EngineState} {a : SlotAs}
    (h : ConSpec s r a) : slotPayAt r.2 r.1 = some a := h.2.2.2.2.1

theorem ConSpec.ctr {s : EngineState} {r : Nat × EngineState} {a : SlotAs}
    (h : ConSpec s r a) : r.2.ctr = s.ctr := h.2.2.2.2.2.1

theorem fresh_ne_live {s t : EngineState} {resF i : Nat} (hF : Frame s t)
    (hfresh : liveAt t resF = false) (hlive : liveAt s i = true) :
    resF ≠ i := by
  intro hq
  subst hq
  rw [frame_live_true hF hlive] at hfresh
  cases hfresh

/-- Simulation of arena-level `eval1` by the tree-level one, including
the correspondence between the tree-level changed flag and index
equality: on readable inputs a successful arena step computes the
tree-level step result, and the flag is false exactly when the returned
index equals the input index. -/
theorem eval1A_sim : ∀ fuel i s res s1 k t,
    DeadOK s →
    readBack s k i = some t →
    eval1A fuel i s = some (res, s1) →
    ∃ t1 ch, eval1 s.ctr t = some (t1, ch, s1.ctr) ∧
      (∃ k2, readBack s1 k2 res = some t1) ∧
      (ch = false ↔ res = i) := by
  intro fuel
  induction fuel with
  | zero => intro _ _ _ _ _ _ _ _ he; cases he
  | succ fuel ih =>
    intro i s res s1 k t hok ht he
    rw [eval1A] at he
    split at he
    case _ => cases he
    case _ v hp =>
      obtain ⟨rfl, rfl⟩ := optEqPair he
      obtain rfl := readBack_var_inv ht hp
      exact ⟨.var v, false, by simp [eval1], ⟨k, ht⟩, by simp⟩
    case _ m hp =>
      obtain ⟨rfl, rfl⟩ := optEqPair he
      obtain rfl := readBack_mag_inv ht hp
      exact ⟨.mag m, false, by simp [eval1], ⟨k, ht⟩, by simp⟩
    case _ p b hp =>
      obtain ⟨k0, tb, rfl, rfl, hrb⟩ := readBack_fn_inv ht hp
      split at he
      case _ => cases he
      case _ b1 s2 hb =>
        obtain ⟨tb1, chb, hbt, ⟨k2, hrb1⟩, hiffb⟩ :=
          ih b s b1 s2 k0 tb hok hrb hb
        obtain ⟨hFb, _, hKb⟩ := eval1A_frame fuel b s b1 s2 hok hb
        split at he
        case _ hbb =>
          obtain ⟨rfl, rfl⟩ := optEqPair he
          have hchb : chb = false := hiffb.mpr hbb
          subst hchb
          refine ⟨.fn p tb, false, by simp [eval1, hbt],
            ⟨k0 + 1, frame_readBack hFb _ _ _ ht⟩, by simp⟩
        case _ hbb =>
          have hchb : chb = true := by
            cases chb with
            | false => exact absurd (hiffb.mp rfl) hbb
            | true => rfl
          subst hchb
          have hc := fnA_spec p b1 s2 hKb
          obtain ⟨rfl, rfl⟩ := optEqPair he
          refine ⟨.fn p tb1, true, ?_, ?_, ?_⟩
          · rw [hc.ctr]
            simp [eval1, hbt]
          · exact ⟨k2 + 1, readBack_succ_fn hc.pay
              (frame_readBack hc.frame k2 b1 _ hrb1)⟩
          · have hne : (fnA p b1 s2).1 ≠ i :=
              fresh_ne_live hFb hc.fresh (slotPayAt_live hp)
            exact ⟨fun h => Bool.noConfusion h, fun h => absurd h hne⟩
    case _ l r hp =>
      obtain ⟨k0, tl, tr, rfl, rfl, hrl, hrr⟩ := readBack_app_inv ht hp
      have hlive_i : liveAt s i = true := slotPayAt_live hp
      split at he
      case _ => cases he
      case _ p2 b2 hpl =>
        obtain ⟨k00, tbb, rfl, rfl, hrbb⟩ := readBack_fn_inv hrl hpl
        obtain ⟨hctr, k2, hres⟩ :=
          replaceA_sim fuel p2 b2 r s res s1 k00 (k00 + 1) tbb tr hok hrbb hrr he
        obtain ⟨_, _, _, hloc⟩ := replaceA_frame fuel p2 b2 r s res s1 hok he
        refine ⟨(replace p2 tbb tr s.ctr).1, true, ?_, ⟨k2, hres⟩, ?_⟩
        · rw [hctr]
          simp [eval1]
        · have hne : res ≠ i := by
            rcases hloc with rfl | rfl | hfr
            · exact app_grandchild_ne ht hp hpl
            · exact (app_child_ne ht hp).2
            · intro hq
              subst hq
              rw [hlive_i] at hfr
              cases hfr
          exact ⟨fun h => Bool.noConfusion h, fun h => absurd h hne⟩
      case _ m hpl =>
        obtain rfl := readBack_mag_inv hrl hpl
        split at he
        case _ hm =>
          subst hm
          split at he
          case _ => cases he
          case _ r1 s2 hr =>
            obtain ⟨tr1, chr, hrt, ⟨k2, hrr1⟩, hiffr⟩ :=
              ih r s r1 s2 k0 tr hok hrr hr
            obtain ⟨hFr, _, hKr⟩ := eval1A_frame fuel r s r1 s2 hok hr
            split at he
            case _ hrr0 =>
              obtain ⟨rfl, rfl⟩ := optEqPair he
              have hchr : chr = false := hiffr.mpr hrr0
              subst hchr
              refine ⟨tr, true, by simp [eval1, hrt],
                ⟨k0, frame_readBack hFr k0 _ tr hrr⟩, ?_⟩
              exact ⟨fun h => Bool.noConfusion h,
                fun h => absurd h (app_child_ne ht hp).2⟩
            case _ hrr0 =>
              have hchr : chr = true := by
                cases chr with
                | false => exact absurd (hiffr.mp rfl) hrr0
                | true => rfl
              subst hchr
              have hc := appA_spec l r1 s2 hKr
              obtain ⟨rfl, rfl⟩ := optEqPair he
              refine ⟨.app (.mag "trace") tr1, true, ?_, ?_, ?_⟩
              · rw [hc.ctr]
                simp [eval1, hrt]
              · refine ⟨k2 + 1 + 1, readBack_succ_app hc.pay ?_ ?_⟩
                · exact readBack_succ_mag k2
                    (frame_slotPayAt (frame_trans hFr hc.frame) hpl)
                · exact readBack_mono (Nat.le_succ k2)
                    (frame_readBack hc.frame k2 r1 _ hrr1)
              · have hne : (appA l r1 s2).1 ≠ i :=
                  fresh_ne_live hFr hc.fresh hlive_i
                exact ⟨fun h => Bool.noConfusion h, fun h => absurd h hne⟩
        case _ hm =>
          split at he
          case _ hm2 =>
            subst hm2
            split at he
            case _ => cases he
            case _ r1 s2 hr =>
              obtain ⟨tr1, chr, hrt, ⟨k2, hrr1⟩, hiffr⟩ :=
                ih r s r1 s2 k0 tr hok hrr hr
              obtain ⟨hFr, _, hKr⟩ := eval1A_frame fuel r s r1 s2 hok hr
              split at he
              case _ hrr0 =>
                obtain ⟨rfl, rfl⟩ := optEqPair he
                have hchr : chr = false := hiffr.mpr hrr0
                subst hchr
                refine ⟨.mag "void", true, by simp [eval1, hrt],
                  ⟨1, readBack_succ_mag 0 (frame_slotPayAt hFr hpl)⟩, ?_⟩
                exact ⟨fun h => Bool.noConfusion h,
                  fun h => absurd h (app_child_ne ht hp).1⟩
              case _ hrr0 =>
                have hchr : chr = true := by
                  cases chr with
                  | false => exact absurd (hiffr.mp rfl) hrr0
                  | true => rfl
                subst hchr
                have hc := appA_spec l r1 s2 hKr
                obtain ⟨rfl, rfl⟩ := optEqPair he
                refine ⟨.app (.mag "void") tr1, true, ?_, ?_, ?_⟩
                · rw [hc.ctr]
                  simp [eval1, hrt]
                · refine ⟨k2 + 1 + 1, readBack_succ_app hc.pay ?_ ?_⟩
                  · exact readBack_succ_mag k2
                      (frame_slotPayAt (frame_trans hFr hc.frame) hpl)
                  · exact readBack_mono (Nat.le_succ k2)
                      (frame_readBack hc.frame k2 r1 _ hrr1)
                · have hne : (appA l r1 s2).1 ≠ i :=
                    fresh_ne_live hFr hc.fresh hlive_i
                  exact ⟨fun h => Bool.noConfusion h, fun h => absurd h hne⟩
          case _ hm2 => cases he
      case _ hg1 hg2 hpl =>
        rename_i a
        have hshape : (∀ p b, tl ≠ Expr.fn p b) ∧ (∀ m, tl ≠ Expr.mag m) := by
          cases a with
          | fn p b => exact absurd rfl (hg1 p b)
          | mag m => exact absurd rfl (hg2 m)
          | var v =>
            obtain rfl := readBack_var_inv hrl hpl
            exact ⟨fun _ _ h => Expr.noConfusion h, fun _ h => Expr.noConfusion h⟩
          | app x y =>
            obtain ⟨_, _, _, _, rfl, _, _⟩ := readBack_app_inv hrl hpl
            exact ⟨fun _ _ h => Expr.noConfusion h, fun _ h => Expr.noConfusion h⟩
        split at he
        case _ => cases he
        case _ l1 s2 hl =>
          obtain ⟨tl1, chl, hlt, ⟨k2, hrl1⟩, hiffl⟩ :=
            ih l s l1 s2 k0 tl hok hrl hl
          obtain ⟨hFl, _, hKl⟩ := eval1A_frame fuel l s l1 s2 hok hl
          split at he
          case _ hll =>
            have hchl : chl = false := hiffl.mpr hll
            subst hchl
            obtain rfl := (eval1_unchanged_eq hlt).symm
            split at he
            case _ => cases he
            case _ r1 s3 hr =>
              have hrr2 := frame_readBack hFl k0 r tr hrr
              obtain ⟨tr1, chr, hrt, ⟨k3, hrr3⟩, hiffr⟩ :=
                ih r s2 r1 s3 k0 tr hKl hrr2 hr
              obtain ⟨hFr, _, hKr⟩ := eval1A_frame fuel r s2 r1 s3 hKl hr
              split at he
              case _ hrr0 =>
                obtain ⟨rfl, rfl⟩ := optEqPair he
                have hchr : chr = false := hiffr.mpr hrr0
                subst hchr
                refine ⟨.app tl tr, false, ?_,
                  ⟨k0 + 1, frame_readBack (frame_trans hFl hFr) _ _ _ ht⟩, by simp⟩
                rw [eval1_app_general s.ctr tl tr hshape.1 hshape.2]
                simp only [hlt, hrt]
                simp
              case _ hrr0 =>
                have hchr : chr = true := by
                  cases chr with
                  | false => exact absurd (hiffr.mp rfl) hrr0
                  | true => rfl
                subst hchr
                have hc := appA_spec l r1 s3 hKr
                obtain ⟨rfl, rfl⟩ := optEqPair he
                refine ⟨.app tl tr1, true, ?_, ?_, ?_⟩
                · rw [hc.ctr]
                  rw [eval1_app_general s.ctr tl tr hshape.1 hshape.2]
                  simp only [hlt, hrt]
                  simp
                · refine ⟨max k0 k3 + 1, readBack_succ_app hc.pay ?_ ?_⟩
                  · exact readBack_mono (Nat.le_max_left k0 k3)
                      (frame_readBack (frame_trans (frame_trans hFl hFr) hc.frame) k0 l tl hrl)
                  · exact readBack_mono (Nat.le_max_right k0 k3)
                      (frame_readBack hc.frame k3 r1 _ hrr3)
                · have hne : (appA l r1 s3).1 ≠ i :=
                    fresh_ne_live (frame_trans hFl hFr) hc.fresh hlive_i
                  exact ⟨fun h => Bool.noConfusion h, fun h => absurd h hne⟩
          case _ hll =>
            have hchl : chl = true := by
              cases chl with
              | false => exact absurd (hiffl.mp rfl) hll
              | true => rfl
            subst hchl
            have hc := appA_spec l1 r s2 hKl
            obtain ⟨rfl, rfl⟩ := optEqPair he
            refine ⟨.app tl1 tr, true, ?_, ?_, ?_⟩
            · rw [hc.ctr]
              rw [eval1_app_general s.ctr tl tr hshape.1 hshape.2]
              simp only [hlt]
              simp
            · refine ⟨max k2 k0 + 1, readBack_succ_app hc.pay ?_ ?_⟩
              · exact readBack_mono (Nat.le_max_left k2 k0)
                  (frame_readBack hc.frame k2 l1 _ hrl1)
              · exact readBack_mono (Nat.le_max_right k2 k0)
                  (frame_readBack (frame_trans hFl hc.frame) k0 r tr hrr)
            · have hne : (appA l1 r s2).1 ≠ i :=
                fresh_ne_live hFl hc.fresh hlive_i
              exact ⟨fun h => Bool.noConfusion h, fun h => absurd h hne⟩

/-- A four-slot arena holding the live expression `(\x.x) y`, used by the
C4 witness. -/
def cs4 : EngineState :=
  ⟨[⟨.var ⟨"x", 0⟩, false, true⟩,
    ⟨.fn ⟨"x", 0⟩ 0, false, true⟩,
    ⟨.var ⟨"y", 0⟩, false, true⟩,
    ⟨.app 1 2, false, true⟩], [], [0, 1, 2, 3], [], false, 0⟩

/-- C4: `eval1` implements normal-order, outermost-first single-step
reduction — a Var or Magic is unchanged; a Fun recurses into its body
and rebuilds only if the body changed; an App whose head is a Fun
beta-reduces immediately; otherwise the left child is reduced first and
the right child only if the left did not change — and, at arena level,
a successful step on a readable input reports "unchanged" (tree-level
changed flag false) precisely when the returned arena index equals the
input index. -/
theorem C4_eval1_normal_order :
    (∀ ctr v, eval1 ctr (.var v) = some (.var v, false, ctr)) ∧
    (∀ ctr m, eval1 ctr (.mag m) = some (.mag m, false, ctr)) ∧
    (∀ ctr p b b1 ch c1, eval1 ctr b = some (b1, ch, c1) →
      eval1 ctr (.fn p b) =
        some (if ch then .fn p b1 else .fn p b, ch, c1)) ∧
    (∀ ctr p b r, eval1 ctr (.app (.fn p b) r) =
      some ((replace p b r ctr).1, true, (replace p b r ctr).2)) ∧
    (∀ ctr l r l1 c1, (∀ p b, l ≠ .fn p b) → (∀ m, l ≠ .mag m) →
      eval1 ctr l = some (l1, true, c1) →
      eval1 ctr (.app l r) = some (.app l1 r, true, c1)) ∧
    (∀ ctr l r l1 c1 r1 ch2 c2, (∀ p b, l ≠ .fn p b) → (∀ m, l ≠ .mag m) →
      eval1 ctr l = some (l1, false, c1) →
      eval1 c1 r = some (r1, ch2, c2) →
      eval1 ctr (.app l r) =
        some (if ch2 then .app l r1 else .app l r, ch2, c2)) ∧
    (∀ fuel i s res s1 k t, DeadOK s → readBack s k i = some t →
      eval1A fuel i s = some (res, s1) →
      ∃ t1 ch, eval1 s.ctr t = some (t1, ch, s1.ctr) ∧
        (∃ k2, readBack s1 k2 res = some t1) ∧
        (ch = false ↔ res = i)) := by
  refine ⟨fun ctr v => rfl, fun ctr m => rfl, ?_, fun ctr p b r => rfl,
    ?_, ?_, eval1A_sim⟩
  · intro ctr p b b1 ch c1 h
    cases ch <;> simp [eval1, h]
  · intro ctr l r l1 c1 hfn hmag h
    rw [eval1_app_general ctr l r hfn hmag]
    simp [h]
  · intro ctr l r l1 c1 r1 ch2 c2 hfn hmag hl hr
    rw [eval1_app_general ctr l r hfn hmag]
    have hl1 : l1 = l := eval1_unchanged_eq hl
    subst hl1
    cases ch2 <;> simp [hl, hr]

/-- Witness for C4: on the concrete arena for `(\x.x) y`, one `eval1`
step beta-reduces to the argument slot, the tree step reports changed,
and the returned index (2) differs from the input index (3). -/
theorem C4_eval1_normal_order_witness :
    DeadOK cs4 ∧
    readBack cs4 3 3 =
      some (.app (.fn ⟨"x", 0⟩ (.var ⟨"x", 0⟩)) (.var ⟨"y", 0⟩)) ∧
    eval1A 2 3 cs4 = some (2, cs4) ∧
    ∃ t1 ch,
      eval1 cs4.ctr (.app (.fn ⟨"x", 0⟩ (.var ⟨"x", 0⟩)) (.var ⟨"y", 0⟩)) =
        some (t1, ch, cs4.ctr) ∧
      (∃ k2, readBack cs4 k2 2 = some t1) ∧
      (ch = false ↔ 2 = 3) :=
  ⟨⟨by decide, by decide⟩, by decide, by decide,
   C4_eval1_normal_order.2.2.2.2.2.2 2 3 cs4 2 cs4 3 _
     ⟨by decide, by decide⟩ (by decide) (by decide)⟩

/-! ### Garbage collector (gc_mark of lamb_lib.c, gc of lamb_grid.c) -/

/-- `expr_slot(expr).visited = false` on one slot (clear loop of `gc`). -/
def setUnvisited (s : EngineState) (i : Nat) : EngineState :=
  { s with slots := s.slots.set i { s.slots.getD i zeroSlot with visited := false } }

/-- The first loop of `gc`: clear the visited flag of every slot listed
in the current generation. -/
def clearVisited (s : EngineState) : EngineState :=
  (genCurList s).foldl setUnvisited s

/-- `expr_slot(root).visited = true` (first write of `gc_mark`). -/
def setVisited (s : EngineState) (i : Nat) : EngineState :=
  { s with slots := s.slots.set i { s.slots.getD i zeroSlot with visited := true } }

/-- Number of unvisited slots — the termination measure of `gc_mark`. -/
def unvisitedCount (s : EngineState) : Nat :=
  s.slots.countP (fun sl => !sl.visited)

/-- The marking obligation one slot payload imposes on its children. -/
def childOK (s : EngineState) (a : SlotAs) : Prop :=
  match a with
  | .fn _ b => liveAt s b = true → visitedAt s b = true
  | .app l r => (liveAt s l = true → visitedAt s l = true) ∧
      (liveAt s r = true → visitedAt s r = true)
  | _ => True

/-- The part of the `gc_mark` postcondition independent of the root:
all fields except the visited flags are untouched and visited flags only
go from false to true. -/
def MarkStatic (s s1 : EngineState) : Prop :=
  s1.slots.length = s.slots.length ∧ s1.dead = s.dead ∧ s1.gen0 = s.gen0 ∧
  s1.gen1 = s.gen1 ∧ s1.genCur = s.genCur ∧ s1.ctr = s.ctr ∧
  (∀ j, (s1.slots.get? j).map Slot.pay = (s.slots.get? j).map Slot.pay) ∧
  (∀ j, (s1.slots.get? j).map Slot.live = (s.slots.get? j).map Slot.live) ∧
  (∀ j, visitedAt s j = true → visitedAt s1 j = true)

/-- Full postcondition of `gc_mark root`: static part, measure does not
grow, a live root ends up visited, and every newly visited slot has its
live children visited (the closure property that makes marking correct). -/
def MarkOK (root : Nat) (s s1 : EngineState) : Prop :=
  unvisitedCount s1 ≤ unvisitedCount s ∧
  MarkStatic s s1 ∧
  (liveAt s root = true → visitedAt s1 root = true) ∧
  (∀ j a, visitedAt s1 j = true → visitedAt s j = false →
    slotPayAt s1 j = some a → childOK s1 a)

theorem markStatic_refl (s : EngineState) : MarkStatic s s :=
  ⟨rfl, rfl, rfl, rfl, rfl, rfl, fun _ => rfl, fun _ => rfl, fun _ h => h⟩

theorem markStatic_trans {s t u : EngineState} (h1 : MarkStatic s t)
    (h2 : MarkStatic t u) : MarkStatic s u := by
  obtain ⟨a1, a2, a3, a4, a5, a6, a7, a8, a9⟩ := h1
  obtain ⟨b1, b2, b3, b4, b5, b6, b7, b8, b9⟩ := h2
  exact ⟨b1.trans a1, b2.trans a2, b3.trans a3, b4.trans a4, b5.trans a5,
    b6.trans a6, fun j => (b7 j).trans (a7 j), fun j => (b8 j).trans (a8 j),
    fun j h => b9 j (a9 j h)⟩

theorem markStatic_liveAt_eq {s t : EngineState} (h : MarkStatic s t)
    (j : Nat) : liveAt t j = liveAt s j := by
  have hm := h.2.2.2.2.2.2.2.1 j
  unfold liveAt
  cases hg : s.slots.get? j <;> cases hg2 : t.slots.get? j <;>
    rw [hg, hg2] at hm <;> simp_all

theorem markStatic_slotPayAt_eq {s t : EngineState} (h : MarkStatic s t)
    (j : Nat) : slotPayAt t j = slotPayAt s j := by
  have hp := h.2.2.2.2.2.2.1 j
  have hl := h.2.2.2.2.2.2.2.1 j
  unfold slotPayAt
  cases hg : s.slots.get? j <;> cases hg2 : t.slots.get? j <;>
    rw [hg, hg2] at hp hl <;> simp_all

theorem childOK_mono {s1 s2 : EngineState} {a : SlotAs}
    (hlv : ∀ x, liveAt s2 x = liveAt s1 x)
    (hvs : ∀ x, visitedAt s1 x = true → visitedAt s2 x = true) :
    childOK s1 a → childOK s2 a := by
  cases a with
  | var v => intro h; trivial
  | mag m => intro h; trivial
  | fn p b =>
    intro h hl
    exact hvs b (h (by rw [← hlv b]; exact hl))
  | app l r =>
    intro h
    exact ⟨fun hl => hvs l (h.1 (by rw [← hlv l]; exact hl)),
      fun hr => hvs r (h.2 (by rw [← hlv r]; exact hr))⟩

theorem countP_set {α : Type} (p : α → Bool) : ∀ (l : List α) (i : Nat) (a x : α),
    l.get? i = some a →
    (l.set i x).countP p + (if p a then 1 else 0) =
      l.countP p + (if p x then 1 else 0) := by
  intro l
  induction l with
  | nil => intro i a x h; cases h
  | cons hd tl ih =>
    intro i a x h
    cases i with
    | zero =>
      injection h with h
      subst h
      simp only [List.set, List.countP_cons]
      omega
    | succ i =>
      simp only [List.set, List.countP_cons]
      have := ih i a x h
      omega

theorem setVisited_spec {s : EngineState} {root : Nat} {sl : Slot}
    (hg : s.slots.get? root = some sl) (hvs : sl.visited = false) :
    unvisitedCount (setVisited s root) < unvisitedCount s ∧
    MarkStatic s (setVisited s root) ∧
    visitedAt (setVisited s root) root = true ∧
    (∀ j, j ≠ root → (setVisited s root).slots.get? j = s.slots.get? j) ∧
    (setVisited s root).slots.get? root = some { sl with visited := true } := by
  have hlt : root < s.slots.length := by
    by_contra hge
    rw [List.get?_len_le (Nat.le_of_not_lt hge)] at hg
    cases hg
  have hD : s.slots.getD root zeroSlot = sl := by
    show (s.slots.get? root).getD zeroSlot = sl
    rw [hg]
    rfl
  have hgetroot : (setVisited s root).slots.get? root =
      some { sl with visited := true } := by
    show (s.slots.set root _).get? root = _
    rw [hD]
    exact List.get?_set_eq_of_lt _ hlt
  have hother : ∀ j, j ≠ root →
      (setVisited s root).slots.get? j = s.slots.get? j := by
    intro j hj
    exact List.get?_set_ne _ _ (Ne.symm hj)
  have hcnt : unvisitedCount (setVisited s root) < unvisitedCount s := by
    have heq := countP_set (fun sl => !sl.visited) s.slots root sl
      { sl with visited := true } hg
    simp [hvs] at heq
    unfold unvisitedCount setVisited
    simp only
    rw [hD]
    omega
  refine ⟨hcnt, ⟨?_, rfl, rfl, rfl, rfl, rfl, ?_, ?_, ?_⟩, ?_, hother, hgetroot⟩
  · exact List.length_set _ _ _
  · intro j
    by_cases hj : j = root
    · subst hj
      rw [hgetroot, hg]
      rfl
    · rw [hother j hj]
  · intro j
    by_cases hj : j = root
    · subst hj
      rw [hgetroot, hg]
      rfl
    · rw [hother j hj]
  · intro j hv
    by_cases hj : j = root
    · subst hj
      unfold visitedAt
      rw [hgetroot]
    · rwa [visitedAt_congr (hother j hj)]
  · unfold visitedAt
    rw [hgetroot]

theorem markOK_skip {root : Nat} {s : EngineState}
    (h : liveAt s root = false ∨ visitedAt s root = true) : MarkOK root s s := by
  refine ⟨le_rfl, markStatic_refl s, ?_, ?_⟩
  · intro hlive
    rcases h with h | h
    · rw [hlive] at h; cases h
    · exact h
  · intro j a hv hnv _
    rw [hv] at hnv
    cases hnv

theorem slotPayAt_setVisited_root {s : EngineState} {root : Nat} {sl : Slot}
    (hg : s.slots.get? root = some sl) (hvs : sl.visited = false) {a : SlotAs}
    (hsp : slotPayAt (setVisited s root) root = some a) : a = sl.pay := by
  obtain ⟨_, _, _, _, hgetroot⟩ := setVisited_spec hg hvs
  unfold slotPayAt at hsp
  rw [hgetroot] at hsp
  by_cases hl : sl.live = true
  · simp only [show ({ sl with visited := true } : Slot).live = sl.live from rfl,
      hl, if_true] at hsp
    injection hsp with hsp
    exact hsp.symm
  · simp only [show ({ sl with visited := true } : Slot).live = sl.live from rfl,
      Bool.not_eq_true] at hsp
    rw [if_neg hl] at hsp
    cases hsp

theorem markOK_mark_only {root : Nat} {s : EngineState} {sl : Slot}
    (hg : s.slots.get? root = some sl) (hvs : sl.visited = false)
    (hchild : childOK (setVisited s root) sl.pay) :
    MarkOK root s (setVisited s root) := by
  obtain ⟨hcnt, hstat, hvroot, hother, hgetroot⟩ := setVisited_spec hg hvs
  refine ⟨Nat.le_of_lt hcnt, hstat, fun _ => hvroot, ?_⟩
  intro j a hv hnv hsp
  by_cases hj : j = root
  · subst hj
    rw [slotPayAt_setVisited_root hg hvs hsp]
    exact hchild
  · rw [visitedAt_congr (hother j hj), hnv] at hv
    cases hv

theorem markOK_fn {root b : Nat} {p : Symbol} {s s1 : EngineState} {sl : Slot}
    (hg : s.slots.get? root = some sl) (hvs : sl.visited = false)
    (hpay : sl.pay = .fn p b)
    (h1 : MarkOK b (setVisited s root) s1) : MarkOK root s s1 := by
  obtain ⟨hcnt, hstat, hvroot, hother, hgetroot⟩ := setVisited_spec hg hvs
  obtain ⟨c1, cst, croot, cclo⟩ := h1
  refine ⟨c1.trans (Nat.le_of_lt hcnt), markStatic_trans hstat cst, ?_, ?_⟩
  · intro _
    exact cst.2.2.2.2.2.2.2.2 root hvroot
  · intro j a hv hnv hsp
    by_cases hj : j = root
    · subst hj
      have hsp0 : slotPayAt (setVisited s j) j = some a := by
        rw [← markStatic_slotPayAt_eq cst j]
        exact hsp
      rw [slotPayAt_setVisited_root hg hvs hsp0, hpay]
      intro hlb
      exact croot (by rw [← markStatic_liveAt_eq cst b]; exact hlb)
    · refine cclo j a hv ?_ hsp
      rw [visitedAt_congr (hother j hj)]
      exact hnv

theorem markOK_app {root l r : Nat} {s s1 s2 : EngineState} {sl : Slot}
    (hg : s.slots.get? root = some sl) (hvs : sl.visited = false)
    (hpay : sl.pay = .app l r)
    (h1 : MarkOK l (setVisited s root) s1)
    (h2 : MarkOK r s1 s2) : MarkOK root s s2 := by
  obtain ⟨hcnt, hstat, hvroot, hother, hgetroot⟩ := setVisited_spec hg hvs
  obtain ⟨c1, cst1, croot1, cclo1⟩ := h1
  obtain ⟨c2, cst2, croot2, cclo2⟩ := h2
  refine ⟨(c2.trans c1).trans (Nat.le_of_lt hcnt),
    markStatic_trans (markStatic_trans hstat cst1) cst2, ?_, ?_⟩
  · intro _
    exact cst2.2.2.2.2.2.2.2.2 root (cst1.2.2.2.2.2.2.2.2 root hvroot)
  · intro j a hv hnv hsp
    by_cases hj : j = root
    · subst hj
      have hsp0 : slotPayAt (setVisited s j) j = some a := by
        rw [← markStatic_slotPayAt_eq cst1 j, ← markStatic_slotPayAt_eq cst2 j]
        exact hsp
      rw [slotPayAt_setVisited_root hg hvs hsp0, hpay]
      constructor
      · intro hll
        refine cst2.2.2.2.2.2.2.2.2 l (croot1 ?_)
        rw [← markStatic_liveAt_eq cst1 l, ← markStatic_liveAt_eq cst2 l]
        exact hll
      · intro hrr
        refine croot2 ?_
        rw [← markStatic_liveAt_eq cst2 r]
        exact hrr
    · have hnv0 : visitedAt (setVisited s root) j = false := by
        rw [visitedAt_congr (hother j hj)]
        exact hnv
      cases hv1 : visitedAt s1 j with
      | true =>
        have hsp1 : slotPayAt s1 j = some a := by
          rw [← markStatic_slotPayAt_eq cst2 j]
          exact hsp
        exact childOK_mono (markStatic_liveAt_eq cst2) cst2.2.2.2.2.2.2.2.2
          (cclo1 j a hv1 hnv0 hsp1)
      | false =>
        exact cclo2 j a hv hv1 hsp

/-- `gc_mark` of lamb_lib.c: depth-first marking.  The returned state is
bundled with its postcondition `MarkOK`, which also carries the
termination measure (the number of unvisited slots never grows and
strictly shrinks before each recursive call).  A missing or dead root is
returned unchanged (the C `expr_slot` macro would assert there). -/
def gc_mark (root : Nat) (s : EngineState) :
    { s1 : EngineState // MarkOK root s s1 } :=
  match hg : s.slots.get? root with
  | none => ⟨s, markOK_skip (Or.inl (by unfold liveAt; rw [hg]))⟩
  | some sl =>
    if hlv : sl.live = true then
      if hvs : sl.visited = true then
        ⟨s, markOK_skip (Or.inr (by unfold visitedAt; rw [hg]; exact hvs))⟩
      else
        have hvs0 : sl.visited = false := by
          cases hb : sl.visited
          · rfl
          · exact absurd hb hvs
        match hpay : sl.pay with
        | .var v =>
          ⟨setVisited s root, markOK_mark_only hg hvs0 (by rw [hpay]; trivial)⟩
        | .mag m =>
          ⟨setVisited s root, markOK_mark_only hg hvs0 (by rw [hpay]; trivial)⟩
        | .fn p b =>
          let r1 := gc_mark b (setVisited s root)
          ⟨r1.1, markOK_fn hg hvs0 hpay r1.2⟩
        | .app l r =>
          let r1 := gc_mark l (setVisited s root)
          let r2 := gc_mark r r1.1
          ⟨r2.1, markOK_app hg hvs0 hpay r1.2 r2.2⟩
    else
      ⟨s, markOK_skip (Or.inl (by
        unfold liveAt
        rw [hg]
        simpa using hlv))⟩
termination_by unvisitedCount s
decreasing_by
  · exact (setVisited_spec hg hvs0).1
  · exact (setVisited_spec hg hvs0).1
  · exact Nat.lt_of_le_of_lt r1.2.1 (setVisited_spec hg hvs0).1

/-- The sweep loop of `gc`: walk the current generation; a visited entry
is appended to the next generation, an unvisited one is freed with
`free_expr`.  (A missing slot is skipped; the C macro would assert.) -/
def sweepGen : List Nat → EngineState → List Nat → EngineState × List Nat
  | [], s, acc => (s, acc)
  | i :: rest, s, acc =>
    match s.slots.get? i with
    | none => sweepGen rest s acc
    | some sl =>
      if sl.visited then sweepGen rest s (acc ++ [i])
      else sweepGen rest (free_expr s i) acc

/-- `gc(root, bindings)` of lamb_grid.c with the grid-cell marking loop:
clear the visited flags of the current generation, mark from the root,
from every binding body and from every occupied cell atom, sweep the
current generation into the other generation list (freeing unmarked
slots), and flip `gen_cur`. -/
def gcA (root : Nat) (bindings : List Nat) (cells : List (Bool × Nat))
    (s : EngineState) : EngineState :=
  let s1 := clearVisited s
  let s2 := (gc_mark root s1).1
  let s3 := bindings.foldl (fun st b => (gc_mark b st).1) s2
  let s4 := cells.foldl (fun st c => if c.1 then (gc_mark c.2 st).1 else st) s3
  match sweepGen (genCurList s4) s4 [] with
  | (s5, newGen) =>
    if s5.genCur then { s5 with gen0 := newGen, genCur := false }
    else { s5 with gen1 := newGen, genCur := true }

/-- "Same except visited flags": what the clear and mark phases preserve. -/
def SEV (s t : EngineState) : Prop :=
  t.slots.length = s.slots.length ∧ t.dead = s.dead ∧ t.gen0 = s.gen0 ∧
  t.gen1 = s.gen1 ∧ t.genCur = s.genCur ∧ t.ctr = s.ctr ∧
  (∀ j, (t.slots.get? j).map Slot.pay = (s.slots.get? j).map Slot.pay) ∧
  (∀ j, (t.slots.get? j).map Slot.live = (s.slots.get? j).map Slot.live)

theorem sev_refl (s : EngineState) : SEV s s :=
  ⟨rfl, rfl, rfl, rfl, rfl, rfl, fun _ => rfl, fun _ => rfl⟩

theorem sev_trans {s t u : EngineState} (h1 : SEV s t) (h2 : SEV t u) :
    SEV s u := by
  obtain ⟨a1, a2, a3, a4, a5, a6, a7, a8⟩ := h1
  obtain ⟨b1, b2, b3, b4, b5, b6, b7, b8⟩ := h2
  exact ⟨b1.trans a1, b2.trans a2, b3.trans a3, b4.trans a4, b5.trans a5,
    b6.trans a6, fun j => (b7 j).trans (a7 j), fun j => (b8 j).trans (a8 j)⟩

theorem MarkStatic.sev {s t : EngineState} (h : MarkStatic s t) : SEV s t :=
  ⟨h.1, h.2.1, h.2.2.1, h.2.2.2.1, h.2.2.2.2.1, h.2.2.2.2.2.1,
   h.2.2.2.2.2.2.1, h.2.2.2.2.2.2.2.1⟩

theorem sev_liveAt_eq {s t : EngineState} (h : SEV s t) (j : Nat) :
    liveAt t j = liveAt s j := by
  have hm := h.2.2.2.2.2.2.2 j
  unfold liveAt
  cases hg : s.slots.get? j <;> cases hg2 : t.slots.get? j <;>
    rw [hg, hg2] at hm <;> simp_all

theorem sev_slotPayAt_eq {s t : EngineState} (h : SEV s t) (j : Nat) :
    slotPayAt t j = slotPayAt s j := by
  have hp := h.2.2.2.2.2.2.1 j
  have hl := h.2.2.2.2.2.2.2 j
  unfold slotPayAt
  cases hg : s.slots.get? j <;> cases hg2 : t.slots.get? j <;>
    rw [hg, hg2] at hp hl <;> simp_all

theorem setUnvisited_spec (s : EngineState) (i : Nat) :
    SEV s (setUnvisited s i) ∧
    (∀ j, j ≠ i → (setUnvisited s i).slots.get? j = s.slots.get? j) ∧
    (i < s.slots.length → visitedAt (setUnvisited s i) i = false) ∧
    (∀ j, visitedAt (setUnvisited s i) j = true → visitedAt s j = true) := by
  have hother : ∀ j, j ≠ i →
      (setUnvisited s i).slots.get? j = s.slots.get? j := by
    intro j hj
    exact List.get?_set_ne _ _ (Ne.symm hj)
  by_cases hb : i < s.slots.length
  · obtain ⟨sl, hg⟩ : ∃ sl, s.slots.get? i = some sl := by
      cases hq : s.slots.get? i with
      | none =>
        rw [List.get?_eq_get hb] at hq
        cases hq
      | some sl => exact ⟨sl, rfl⟩
    have hD : s.slots.getD i zeroSlot = sl := by
      show (s.slots.get? i).getD zeroSlot = sl
      rw [hg]
      rfl
    have hgi : (setUnvisited s i).slots.get? i =
        some { sl with visited := false } := by
      show (s.slots.set i _).get? i = _
      rw [hD]
      exact List.get?_set_eq_of_lt _ hb
    refine ⟨⟨List.length_set _ _ _, rfl, rfl, rfl, rfl, rfl, ?_, ?_⟩,
      hother, ?_, ?_⟩
    · intro j
      by_cases hj : j = i
      · subst hj; rw [hgi, hg]; rfl
      · rw [hother j hj]
    · intro j
      by_cases hj : j = i
      · subst hj; rw [hgi, hg]; rfl
      · rw [hother j hj]
    · intro _
      unfold visitedAt
      rw [hgi]
    · intro j hv
      by_cases hj : j = i
      · subst hj
        unfold visitedAt at hv
        rw [hgi] at hv
        cases hv
      · rwa [visitedAt_congr (hother j hj)] at hv
  · have hnoop : (setUnvisited s i).slots = s.slots := by
      show s.slots.set i _ = s.slots
      exact List.set_eq_of_length_le (Nat.le_of_not_lt hb)
    refine ⟨⟨by rw [hnoop], rfl, rfl, rfl, rfl, rfl, ?_, ?_⟩, ?_, ?_, ?_⟩
    · intro j; rw [hnoop]
    · intro j; rw [hnoop]
    · intro j _
      show (s.slots.set i _).get? j = s.slots.get? j
      rw [List.set_eq_of_length_le (Nat.le_of_not_lt hb)]
    · intro hcontra
      exact absurd hcontra hb
    · intro j hv
      unfold visitedAt at hv ⊢
      rw [hnoop] at hv
      exact hv

/-- Effect of the visited-clearing loop over a list of indices. -/
theorem clear_fold : ∀ (L : List Nat) (s : EngineState),
    SEV s (L.foldl setUnvisited s) ∧
    (∀ j ∈ L, j < s.slots.length →
      visitedAt (L.foldl setUnvisited s) j = false) ∧
    (∀ j, visitedAt (L.foldl setUnvisited s) j = true →
      visitedAt s j = true) := by
  intro L
  induction L with
  | nil => exact fun s => ⟨sev_refl s, fun j hj => absurd hj (List.not_mem_nil j), fun _ h => h⟩
  | cons i rest ih =>
    intro s
    obtain ⟨hsev, hother, hci, hmono⟩ := setUnvisited_spec s i
    obtain ⟨ihsev, ihclear, ihmono⟩ := ih (setUnvisited s i)
    simp only [List.foldl_cons]
    refine ⟨sev_trans hsev ihsev, ?_, ?_⟩
    · intro j hj hjb
      rcases List.mem_cons.mp hj with rfl | hjr
      · cases hv : visitedAt (rest.foldl setUnvisited (setUnvisited s j)) j with
        | false => rfl
        | true =>
          have := ihmono j hv
          rw [hci hjb] at this
          cases this
      · exact ihclear j hjr (by rw [hsev.1]; exact hjb)
    · intro j hv
      exact hmono j (ihmono j hv)

/-- Closure property accumulated by the mark phase: every slot visited
now but not in the base state has its live children visited. -/
def MarkClosure (s0 t : EngineState) : Prop :=
  ∀ j a, visitedAt t j = true → visitedAt s0 j = false →
    slotPayAt t j = some a → childOK t a

theorem markClosure_compose {s0 t1 t2 : EngineState}
    (hst1 : MarkStatic s0 t1) (hc1 : MarkClosure s0 t1)
    (hst2 : MarkStatic t1 t2) (hc2 : MarkClosure t1 t2) :
    MarkClosure s0 t2 := by
  intro j a hv hnv hsp
  cases hv1 : visitedAt t1 j with
  | true =>
    have hsp1 : slotPayAt t1 j = some a := by
      rw [← markStatic_slotPayAt_eq hst2 j]
      exact hsp
    exact childOK_mono (markStatic_liveAt_eq hst2) hst2.2.2.2.2.2.2.2.2
      (hc1 j a hv1 hnv hsp1)
  | false =>
    exact hc2 j a hv hv1 hsp

theorem markOK_closure {root : Nat} {s t : EngineState}
    (h : MarkOK root s t) : MarkClosure s t := h.2.2.2

/-- The binding-marking loop: marks every live binding body, preserves
everything except visited flags, and keeps the closure property. -/
theorem markFold_bindings : ∀ (L : List Nat) (s : EngineState),
    MarkStatic s (L.foldl (fun st b => (gc_mark b st).1) s) ∧
    MarkClosure s (L.foldl (fun st b => (gc_mark b st).1) s) ∧
    (∀ b ∈ L, liveAt s b = true →
      visitedAt (L.foldl (fun st b => (gc_mark b st).1) s) b = true) := by
  intro L
  induction L with
  | nil =>
    intro s
    simp only [List.foldl_nil]
    refine ⟨markStatic_refl s, ?_, fun b hb => absurd hb (List.not_mem_nil b)⟩
    intro j a hv hnv _
    rw [hv] at hnv
    cases hnv
  | cons b rest ih =>
    intro s
    obtain ⟨_, cst, croot, cclo⟩ := (gc_mark b s).2
    obtain ⟨ihst, ihclo, ihmark⟩ := ih (gc_mark b s).1
    simp only [List.foldl_cons]
    refine ⟨markStatic_trans cst ihst, markClosure_compose cst cclo ihst ihclo, ?_⟩
    intro b2 hb2 hlv
    rcases List.mem_cons.mp hb2 with rfl | hbr
    · exact ihst.2.2.2.2.2.2.2.2 b2 (croot hlv)
    · refine ihmark b2 hbr ?_
      rw [markStatic_liveAt_eq cst b2]
      exact hlv

/-- The grid-cell marking loop: marks every occupied cell atom. -/
theorem markFold_cells : ∀ (L : List (Bool × Nat)) (s : EngineState),
    MarkStatic s (L.foldl (fun st c => if c.1 then (gc_mark c.2 st).1 else st) s) ∧
    MarkClosure s (L.foldl (fun st c => if c.1 then (gc_mark c.2 st).1 else st) s) ∧
    (∀ c ∈ L, c.1 = true → liveAt s c.2 = true →
      visitedAt (L.foldl (fun st c => if c.1 then (gc_mark c.2 st).1 else st) s)
        c.2 = true) := by
  intro L
  induction L with
  | nil =>
    intro s
    simp only [List.foldl_nil]
    refine ⟨markStatic_refl s, ?_, fun c hc => absurd hc (List.not_mem_nil c)⟩
    intro j a hv hnv _
    rw [hv] at hnv
    cases hnv
  | cons c rest ih =>
    intro s
    simp only [List.foldl_cons]
    by_cases hc1 : c.1 = true
    case neg =>
      obtain ⟨ihst, ihclo, ihmark⟩ := ih s
      rw [if_neg hc1]
      refine ⟨ihst, ihclo, ?_⟩
      intro c2 hc2 hocc hlv
      rcases List.mem_cons.mp hc2 with rfl | hcr
      · exact absurd hocc hc1
      · exact ihmark c2 hcr hocc hlv
    case pos =>
      rw [if_pos hc1]
      obtain ⟨_, cst, croot, cclo⟩ := (gc_mark c.2 s).2
      obtain ⟨ihst, ihclo, ihmark⟩ := ih (gc_mark c.2 s).1
      refine ⟨markStatic_trans cst ihst, markClosure_compose cst cclo ihst ihclo, ?_⟩
      intro c2 hc2 hocc hlv
      rcases List.mem_cons.mp hc2 with rfl | hcr
      · exact ihst.2.2.2.2.2.2.2.2 c2.2 (croot hlv)
      · refine ihmark c2 hcr hocc ?_
        rw [markStatic_liveAt_eq cst c2.2]
        exact hlv

theorem liveAt_lt {s : EngineState} {j : Nat} (h : liveAt s j = true) :
    j < s.slots.length := by
  unfold liveAt at h
  by_contra hge
  rw [List.get?_len_le (Nat.le_of_not_lt hge)] at h
  cases h

theorem ReachesN_sub {s t : EngineState}
    (h : ∀ x a, slotPayAt t x = some a → slotPayAt s x = some a) :
    ∀ {n i j}, ReachesN t n i j → ReachesN s n i j := by
  intro n i j hr
  induction hr with
  | refl i => exact ReachesN.refl i
  | fnStep p b hp _ ih => exact ReachesN.fnStep p b (h _ _ hp) ih
  | appLeft l r hp _ ih => exact ReachesN.appLeft l r (h _ _ hp) ih
  | appRight l r hp _ ih => exact ReachesN.appRight l r (h _ _ hp) ih

theorem slotPayAt_sub_of {s t : EngineState}
    (hpay : ∀ j, (t.slots.get? j).map Slot.pay = (s.slots.get? j).map Slot.pay)
    (hlv : ∀ j, liveAt t j = true → liveAt s j = true) :
    ∀ x a, slotPayAt t x = some a → slotPayAt s x = some a := by
  intro x a hx
  have hlive := hlv x (slotPayAt_live hx)
  have hp := hpay x
  unfold slotPayAt at hx ⊢
  unfold liveAt at hlive
  cases hg : t.slots.get? x with
  | none => rw [hg] at hx; cases hx
  | some sl =>
    simp only [hg, Option.map_some'] at hx hp
    cases hg2 : s.slots.get? x with
    | none =>
      rw [hg2, Option.map_none'] at hp
      exact Option.noConfusion hp
    | some sl2 =>
      simp only [hg2, Option.map_some'] at hp hlive ⊢
      injection hp with hp
      by_cases hsl : sl.live = true
      · rw [if_pos hsl] at hx
        rw [if_pos hlive, ← hp]
        exact hx
      · rw [if_neg hsl] at hx
        cases hx

/-- Marking reaches everything reachable: if every slot reachable from
`i` is live (in the original state `s`), `i` is visited after the mark
phase, and the clear phase left every live slot unvisited, then every
slot reachable from `i` is visited after the mark phase. -/
theorem mark_reach {s s1 s4 : EngineState}
    (hsev : SEV s s1) (hst : MarkStatic s1 s4) (hclo : MarkClosure s1 s4)
    (hclear : ∀ j, liveAt s j = true → visitedAt s1 j = false) :
    ∀ {n i j}, ReachesN s n i j →
      visitedAt s4 i = true →
      (∀ x, Reaches s i x → liveAt s x = true) →
      visitedAt s4 j = true := by
  intro n i j hr
  induction hr with
  | refl i => exact fun hv _ => hv
  | fnStep p b hp hrec ih =>
    rename_i n0 i0 j0
    intro hv hall
    have hlivei : liveAt s i0 = true := hall i0 ⟨0, ReachesN.refl i0⟩
    have hsp4 : slotPayAt s4 i0 = some (.fn p b) := by
      rw [markStatic_slotPayAt_eq hst i0, sev_slotPayAt_eq hsev i0]
      exact hp
    have hcb := hclo i0 _ hv (hclear i0 hlivei) hsp4
    have hliveb : liveAt s b = true :=
      hall b ⟨1, ReachesN.fnStep p b hp (ReachesN.refl b)⟩
    have hvb : visitedAt s4 b = true := by
      refine hcb ?_
      rw [markStatic_liveAt_eq hst b, sev_liveAt_eq hsev b]
      exact hliveb
    refine ih hvb ?_
    intro x hx
    obtain ⟨m, hm⟩ := hx
    exact hall x ⟨1 + m, reachesN_trans (ReachesN.fnStep p b hp (ReachesN.refl b)) hm⟩
  | appLeft l r hp hrec ih =>
    rename_i n0 i0 j0
    intro hv hall
    have hlivei : liveAt s i0 = true := hall i0 ⟨0, ReachesN.refl i0⟩
    have hsp4 : slotPayAt s4 i0 = some (.app l r) := by
      rw [markStatic_slotPayAt_eq hst i0, sev_slotPayAt_eq hsev i0]
      exact hp
    have hcb := hclo i0 _ hv (hclear i0 hlivei) hsp4
    have hlivel : liveAt s l = true :=
      hall l ⟨1, ReachesN.appLeft l r hp (ReachesN.refl l)⟩
    have hvl : visitedAt s4 l = true := by
      refine hcb.1 ?_
      rw [markStatic_liveAt_eq hst l, sev_liveAt_eq hsev l]
      exact hlivel
    refine ih hvl ?_
    intro x hx
    obtain ⟨m, hm⟩ := hx
    exact hall x ⟨1 + m, reachesN_trans (ReachesN.appLeft l r hp (ReachesN.refl l)) hm⟩
  | appRight l r hp hrec ih =>
    rename_i n0 i0 j0
    intro hv hall
    have hlivei : liveAt s i0 = true := hall i0 ⟨0, ReachesN.refl i0⟩
    have hsp4 : slotPayAt s4 i0 = some (.app l r) := by
      rw [markStatic_slotPayAt_eq hst i0, sev_slotPayAt_eq hsev i0]
      exact hp
    have hcb := hclo i0 _ hv (hclear i0 hlivei) hsp4
    have hliver : liveAt s r = true :=
      hall r ⟨1, ReachesN.appRight l r hp (ReachesN.refl r)⟩
    have hvr : visitedAt s4 r = true := by
      refine hcb.2 ?_
      rw [markStatic_liveAt_eq hst r, sev_liveAt_eq hsev r]
      exact hliver
    refine ih hvr ?_
    intro x hx
    obtain ⟨m, hm⟩ := hx
    exact hall x ⟨1 + m, reachesN_trans (ReachesN.appRight l r hp (ReachesN.refl r)) hm⟩

theorem free_expr_spec {s : EngineState} {i : Nat} {sl : Slot}
    (hg : s.slots.get? i = some sl) :
    (free_expr s i).slots.get? i = some { sl with live := false } ∧
    (∀ j, j ≠ i → (free_expr s i).slots.get? j = s.slots.get? j) ∧
    (free_expr s i).dead = s.dead ++ [i] ∧
    (free_expr s i).gen0 = s.gen0 ∧ (free_expr s i).gen1 = s.gen1 ∧
    (free_expr s i).genCur = s.genCur ∧ (free_expr s i).ctr = s.ctr := by
  have hlt : i < s.slots.length := by
    by_contra hge
    rw [List.get?_len_le (Nat.le_of_not_lt hge)] at hg
    cases hg
  have hD : s.slots.getD i zeroSlot = sl := by
    show (s.slots.get? i).getD zeroSlot = sl
    rw [hg]
    rfl
  refine ⟨?_, ?_, rfl, rfl, rfl, rfl, rfl⟩
  · show (s.slots.set i _).get? i = _
    rw [hD]
    exact List.get?_set_eq_of_lt _ hlt
  · intro j hj
    exact List.get?_set_ne _ _ (Ne.symm hj)

/-- What the sweep loop does: payloads and visited flags are untouched,
slot contents of visited slots are fully untouched, liveness only
decreases, and the free-list invariant is preserved. -/
theorem sweep_spec : ∀ (L : List Nat) (s : EngineState) (acc : List Nat)
    (s5 : EngineState) (ng : List Nat),
    sweepGen L s acc = (s5, ng) →
    (∀ i ∈ s.dead, liveAt s i = false) →
    (∀ j, (s5.slots.get? j).map Slot.pay = (s.slots.get? j).map Slot.pay) ∧
    (∀ j, visitedAt s j = true → s5.slots.get? j = s.slots.get? j) ∧
    (∀ j, liveAt s5 j = true → liveAt s j = true) ∧
    (∀ i ∈ s5.dead, liveAt s5 i = false) ∧
    s5.gen0 = s.gen0 ∧ s5.gen1 = s.gen1 ∧ s5.genCur = s.genCur := by
  intro L
  induction L with
  | nil =>
    intro s acc s5 ng he hpre
    rw [sweepGen] at he
    injection he with he1 he2
    subst he1
    exact ⟨fun _ => rfl, fun _ _ => rfl, fun _ h => h, hpre, rfl, rfl, rfl⟩
  | cons i rest ih =>
    intro s acc s5 ng he hpre
    rw [sweepGen] at he
    split at he
    case _ hgn =>
      exact ih s acc s5 ng he hpre
    case _ sl hg =>
      split at he
      case _ hvs =>
        exact ih s (acc ++ [i]) s5 ng he hpre
      case _ hvs =>
        obtain ⟨hgi, hother, hdead, hg0, hg1, hgc, _⟩ := free_expr_spec hg
        have hvsi : visitedAt s i = false := by
          unfold visitedAt
          rw [hg]
          simpa using hvs
        have hlivei : liveAt (free_expr s i) i = false := by
          unfold liveAt
          rw [hgi]
        have hpre2 : ∀ e ∈ (free_expr s i).dead,
            liveAt (free_expr s i) e = false := by
          intro e hme
          rw [hdead] at hme
          rcases List.mem_append.mp hme with hme | hme
          · by_cases hei : e = i
            · subst hei; exact hlivei
            · rw [liveAt_congr (hother e hei)]
              exact hpre e hme
          · rw [List.mem_singleton] at hme
            subst hme
            exact hlivei
        obtain ⟨s1, s2, s3, s4d, sg0, sg1, sgc⟩ :=
          ih (free_expr s i) acc s5 ng he hpre2
        refine ⟨?_, ?_, ?_, s4d, sg0.trans hg0, sg1.trans hg1, sgc.trans hgc⟩
        · intro j
          rw [s1 j]
          by_cases hj : j = i
          · subst hj
            rw [hgi, hg]
            rfl
          · rw [hother j hj]
        · intro j hvj
          have hji : j ≠ i := by
            intro hq
            rw [hq, hvsi] at hvj
            cases hvj
          rw [s2 j (by rw [visitedAt_congr (hother j hji)]; exact hvj),
            hother j hji]
        · intro j hlj
          have := s3 j hlj
          by_cases hj : j = i
          · subst hj
            rw [hlivei] at this
            cases this
          · rw [liveAt_congr (hother j hj)] at this
            exact this

theorem reaches_var_eq {s : EngineState} {i j : Nat} {v : Symbol}
    (hp : slotPayAt s i = some (.var v)) (h : Reaches s i j) : j = i := by
  obtain ⟨n, hn⟩ := h
  cases hn with
  | refl => rfl
  | fnStep p b hpf _ => rw [hp] at hpf; exact SlotAs.noConfusion (Option.some.inj hpf)
  | appLeft l r hpf _ => rw [hp] at hpf; exact SlotAs.noConfusion (Option.some.inj hpf)
  | appRight l r hpf _ => rw [hp] at hpf; exact SlotAs.noConfusion (Option.some.inj hpf)

theorem ReachesN_slots_eq {t : EngineState} {n i j : Nat}
    (hn : ReachesN t n i j) {s : EngineState} (h : t.slots = s.slots) :
    ReachesN s n i j :=
  ReachesN_sub (fun x a hx => by
    unfold slotPayAt at hx ⊢
    rw [← h]
    exact hx) hn

/-- C7: after a garbage collection (mark over the root expression, all
binding bodies and every occupied grid cell, then sweep of the current
generation list), assuming the pre-GC state is sane — every slot
reachable from a root is live, every live slot is registered in the
current generation, and the free list only holds dead slots — every
root index refers to a live slot, the free list contains only indices
of dead slots, and traversing any root reaches only live slots. -/
theorem C7_gc_invariants (root : Nat) (bindings : List Nat)
    (cells : List (Bool × Nat)) (s : EngineState)
    (hroots : ∀ ro, (ro = root ∨ ro ∈ bindings ∨
        (∃ c ∈ cells, c.1 = true ∧ c.2 = ro)) →
      ∀ j, Reaches s ro j → liveAt s j = true)
    (hgen : ∀ j, liveAt s j = true → j ∈ genCurList s)
    (hdok : ∀ i ∈ s.dead, liveAt s i = false) :
    (∀ ro, (ro = root ∨ ro ∈ bindings ∨
        (∃ c ∈ cells, c.1 = true ∧ c.2 = ro)) →
      liveAt (gcA root bindings cells s) ro = true) ∧
    (∀ i ∈ (gcA root bindings cells s).dead,
      liveAt (gcA root bindings cells s) i = false) ∧
    (∀ ro, (ro = root ∨ ro ∈ bindings ∨
        (∃ c ∈ cells, c.1 = true ∧ c.2 = ro)) →
      ∀ j, Reaches (gcA root bindings cells s) ro j →
        liveAt (gcA root bindings cells s) j = true) := by
  have hC := clear_fold (genCurList s) s
  set s1 := clearVisited s with hs1
  have hsev : SEV s s1 := hC.1
  have hclear : ∀ j, liveAt s j = true → visitedAt s1 j = false := by
    intro j hl
    exact hC.2.1 j (hgen j hl) (liveAt_lt hl)
  have hM2 := (gc_mark root s1).2
  set s2 := (gc_mark root s1).1 with hs2
  have hM3 := markFold_bindings bindings s2
  set s3 := bindings.foldl (fun st b => (gc_mark b st).1) s2 with hs3
  have hM4 := markFold_cells cells s3
  set s4 := cells.foldl (fun st c => if c.1 then (gc_mark c.2 st).1 else st) s3
    with hs4
  have hst14 : MarkStatic s1 s4 := markStatic_trans (markStatic_trans hM2.2.1 hM3.1) hM4.1
  have hclo13 : MarkClosure s1 s3 :=
    markClosure_compose hM2.2.1 hM2.2.2.2 hM3.1 hM3.2.1
  have hclo14 : MarkClosure s1 s4 :=
    markClosure_compose (markStatic_trans hM2.2.1 hM3.1) hclo13 hM4.1 hM4.2.1
  have hlive14 : ∀ j, liveAt s4 j = liveAt s j := fun j =>
    (markStatic_liveAt_eq hst14 j).trans (sev_liveAt_eq hsev j)
  have hpay14 : ∀ j, slotPayAt s4 j = slotPayAt s j := fun j =>
    (markStatic_slotPayAt_eq hst14 j).trans (sev_slotPayAt_eq hsev j)
  have hmarked : ∀ ro, (ro = root ∨ ro ∈ bindings ∨
      (∃ c ∈ cells, c.1 = true ∧ c.2 = ro)) → visitedAt s4 ro = true := by
    intro ro hro
    rcases hro with rfl | hb | ⟨c, hc, hocc, rfl⟩
    · have hl1 : liveAt s1 ro = true := by
        rw [sev_liveAt_eq hsev ro]
        exact hroots ro (Or.inl rfl) ro ⟨0, ReachesN.refl ro⟩
      exact hM4.1.2.2.2.2.2.2.2.2 ro (hM3.1.2.2.2.2.2.2.2.2 ro (hM2.2.2.1 hl1))
    · have hl2 : liveAt s2 ro = true := by
        rw [markStatic_liveAt_eq hM2.2.1 ro, sev_liveAt_eq hsev ro]
        exact hroots ro (Or.inr (Or.inl hb)) ro ⟨0, ReachesN.refl ro⟩
      exact hM4.1.2.2.2.2.2.2.2.2 ro (hM3.2.2 ro hb hl2)
    · have hl3 : liveAt s3 c.2 = true := by
        rw [markStatic_liveAt_eq (markStatic_trans hM2.2.1 hM3.1) c.2, sev_liveAt_eq hsev c.2]
        exact hroots c.2 (Or.inr (Or.inr ⟨c, hc, hocc, rfl⟩)) c.2
          ⟨0, ReachesN.refl c.2⟩
      exact hM4.2.2 c hc hocc hl3
  have hgen4 : genCurList s4 = genCurList s := by
    unfold genCurList
    rw [hst14.2.2.2.2.1, hsev.2.2.2.2.1, hst14.2.2.1, hsev.2.2.1,
      hst14.2.2.2.1, hsev.2.2.2.1]
  have hdead4 : s4.dead = s.dead := (hst14.2.1).trans hsev.2.1
  have hpre4 : ∀ i ∈ s4.dead, liveAt s4 i = false := by
    intro i hi
    rw [hdead4] at hi
    rw [hlive14 i]
    exact hdok i hi
  obtain ⟨s5, ng, hsweq⟩ : ∃ s5 ng, sweepGen (genCurList s4) s4 [] = (s5, ng) :=
    ⟨_, _, rfl⟩
  obtain ⟨w1, w2, w3, w4, wg0, wg1, wgc⟩ :=
    sweep_spec (genCurList s4) s4 [] s5 ng hsweq hpre4
  have hgca : gcA root bindings cells s =
      (if s5.genCur then { s5 with gen0 := ng, genCur := false }
       else { s5 with gen1 := ng, genCur := true }) := by
    unfold gcA
    dsimp only
    rw [← hs1, ← hs2, ← hs3, ← hs4, hsweq]
  have main1 : ∀ ro, (ro = root ∨ ro ∈ bindings ∨
      (∃ c ∈ cells, c.1 = true ∧ c.2 = ro)) → liveAt s5 ro = true := by
    intro ro hro
    rw [liveAt_congr (w2 ro (hmarked ro hro)), hlive14 ro]
    exact hroots ro hro ro ⟨0, ReachesN.refl ro⟩
  have main3 : ∀ ro, (ro = root ∨ ro ∈ bindings ∨
      (∃ c ∈ cells, c.1 = true ∧ c.2 = ro)) →
      ∀ j, Reaches s5 ro j → liveAt s5 j = true := by
    intro ro hro j hr
    obtain ⟨n, hn⟩ := hr
    have hn4 : ReachesN s4 n ro j := ReachesN_sub (slotPayAt_sub_of w1 w3) hn
    have hns : ReachesN s n ro j :=
      ReachesN_sub (fun x a hx => by rw [← hpay14 x]; exact hx) hn4
    have hvj : visitedAt s4 j = true :=
      mark_reach hsev hst14 hclo14 hclear hns (hmarked ro hro)
        (fun x hx => hroots ro hro x hx)
    rw [liveAt_congr (w2 j hvj), hlive14 j]
    exact hroots ro hro j ⟨n, hns⟩
  rw [hgca]
  by_cases hcur : s5.genCur = true
  · rw [if_pos hcur]
    refine ⟨fun ro hro => main1 ro hro, w4, fun ro hro j hr => ?_⟩
    obtain ⟨n, hn⟩ := hr
    exact main3 ro hro j ⟨n, ReachesN_slots_eq hn rfl⟩
  · rw [if_neg hcur]
    refine ⟨fun ro hro => main1 ro hro, w4, fun ro hro j hr => ?_⟩
    obtain ⟨n, hn⟩ := hr
    exact main3 ro hro j ⟨n, ReachesN_slots_eq hn rfl⟩

/-- A one-slot arena for the C7 witness. -/
def cs7 : EngineState :=
  ⟨[⟨.var ⟨"x", 0⟩, false, true⟩], [], [0], [], false, 0⟩

/-- Witness for C7: collecting the one-slot arena with its variable as
root keeps the root live, leaves only dead slots on the free list, and
every slot reachable from the root live. -/
theorem C7_gc_invariants_witness :
    (∀ ro, (ro = 0 ∨ ro ∈ ([] : List Nat) ∨
        (∃ c ∈ ([] : List (Bool × Nat)), c.1 = true ∧ c.2 = ro)) →
      liveAt (gcA 0 [] [] cs7) ro = true) ∧
    (∀ i ∈ (gcA 0 [] [] cs7).dead, liveAt (gcA 0 [] [] cs7) i = false) ∧
    (∀ ro, (ro = 0 ∨ ro ∈ ([] : List Nat) ∨
        (∃ c ∈ ([] : List (Bool × Nat)), c.1 = true ∧ c.2 = ro)) →
      ∀ j, Reaches (gcA 0 [] [] cs7) ro j →
        liveAt (gcA 0 [] [] cs7) j = true) :=
  C7_gc_invariants 0 [] [] cs7
    (by
      intro ro hro j hr
      rcases hro with rfl | hb | ⟨c, hc, _⟩
      · obtain rfl := reaches_var_eq
          (by decide : slotPayAt cs7 0 = some (.var ⟨"x", 0⟩)) hr
        decide
      · cases hb
      · cases hc)
    (by
      intro j hl
      have hb := liveAt_lt hl
      rw [show cs7.slots.length = 1 from rfl] at hb
      obtain rfl : j = 0 := by omega
      decide)
    (by decide)

/-! ### Spatial grid (lamb_grid.c)

Cells hold arena indices.  `rand()` is modelled as a stream `f : Nat →
Nat` with an explicit position, threaded exactly as the C code consumes
it (shuffle first, then one draw per empty cell for the cosmic ray and
one per occupied surviving cell for the direction, plus the generator's
own draws on a spawn).  The `cached_hash` / `cached_mass`
visualisation fields, the unused cached `population` counter and the
`attacks` / `evasions` statistics are not read or written by
`grid_step` and are omitted; `gc_compact` (periodic memory compaction,
which renames arena indices but touches neither occupancy nor any
statistics counter) is omitted from the model. -/

/-- `MAX_AGE` of lamb.h. -/
def MAX_AGE : Nat := 50

/-- `COSMIC_RAY_RATE` of lamb.h. -/
def COSMIC_RAY_RATE : Nat := 1

/-- One grid cell. -/
structure Cell where
  atom : Nat
  occupied : Bool
  age : Nat
  generation : Nat
  cacheValid : Bool
deriving DecidableEq, Repr

/-- The zero-initialised cell (`calloc` in `grid_init`), also the
out-of-bounds default. -/
def cell0 : Cell := ⟨0, false, 0, 0, false⟩

/-- The grid with its statistics counters. -/
structure Grid where
  width : Nat
  height : Nat
  cells : List Cell
  steps : Nat
  reactions_success : Nat
  reactions_diverged : Nat
  movements : Nat
  deaths_age : Nat
  cosmic_spawns : Nat
deriving DecidableEq, Repr

/-- Toroidal coordinate mapping `grid_idx`: the C `%` on a possibly
negative int followed by the `+= width` fix-up is exactly `Int.emod`. -/
def grid_idx (g : Grid) (x y : Int) : Nat :=
  (y % (g.height : Int)).toNat * g.width + (x % (g.width : Int)).toNat

def getCell (g : Grid) (i : Nat) : Cell := g.cells.getD i cell0

/-- `grid_population`: number of occupied cells. -/
def grid_population (g : Grid) : Nat := g.cells.countP (fun c => c.occupied)

/-- One swap of the Fisher-Yates shuffle. -/
def listSwap (l : List Nat) (a b : Nat) : List Nat :=
  (l.set a (l.getD b 0)).set b (l.getD a 0)

/-- The Fisher-Yates loop, counting `i` down to 1. -/
def fyLoop (f : Nat → Nat) : Nat → List Nat → Nat → List Nat × Nat
  | 0, arr, k => (arr, k)
  | i + 1, arr, k => fyLoop f i (listSwap arr (i + 1) (f k % (i + 2))) (k + 1)

/-- The shuffled index list of `grid_step` (identity permutation of
`0 .. total-1`, then the Fisher-Yates loop). -/
def fisherYates (f : Nat → Nat) (total : Nat) (k : Nat) : List Nat × Nat :=
  fyLoop f (total - 1) (List.range total) k

/-- Arena-level `expr_mass`, fuelled (`none` = fuel ran out or a missing
slot; a dead slot has mass 0 as in the C code). -/
def expr_massA (s : EngineState) : Nat → Nat → Option Nat
  | 0, _ => none
  | fuel + 1, i =>
    match s.slots.get? i with
    | none => none
    | some sl =>
      if sl.live = false then some 0
      else
        match sl.pay with
        | .var _ => some 1
        | .mag _ => some 1
        | .fn _ b => (expr_massA s fuel b).map (fun m => 1 + m)
        | .app l r =>
          match expr_massA s fuel l, expr_massA s fuel r with
          | some ml, some mr => some (1 + ml + mr)
          | _, _ => none

/-- Arena-level `Eval_Result` with `EVAL_DONE`'s out-parameter inlined. -/
inductive EvalResultA where
  | done (out : Nat)
  | limit
  | error
deriving DecidableEq, Repr

/-- Arena-level `eval_bounded`: iterate `eval1` at most `limit` times
with the mass safety check; `fuel` bounds the inner recursions of the
model (`none` = fuel ran out, which the C code has no counterpart of). -/
def eval_boundedA (fuel : Nat) :
    Nat → Nat → Nat → EngineState → Option (EvalResultA × EngineState)
  | 0, _, _, s => some (.limit, s)
  | limit + 1, maxMass, curr, s =>
    match expr_massA s fuel curr with
    | none => none
    | some m =>
      if maxMass > 0 ∧ m > maxMass then some (.limit, s)
      else
        match eval1A fuel curr s with
        | none => some (.error, s)
        | some (next, s1) =>
          if next = curr then some (.done curr, s1)
          else eval_boundedA fuel limit maxMass next s1

/-- Building a tree expression in the arena with the C constructors
(used to model a cosmic-ray spawn: `generate_rich_combinator` builds
its result bottom-up through `var`/`magic`/`fun`/`app`). -/
def buildA : Expr → EngineState → Nat × EngineState
  | .var v, s => varA v s
  | .mag m, s => magA m s
  | .fn p b, s =>
    match buildA b s with
    | (bi, s1) => fnA p bi s1
  | .app l r, s =>
    match buildA l s with
    | (li, s1) =>
      match buildA r s with
      | (ri, s2) => appA li ri s2

/-- The four movement directions of `grid_step`: the C switch on
`rand() % 4` selecting up, right, down or left. -/
def dirOffset (dir : Nat) (cx cy : Int) : Int × Int :=
  match dir with
  | 0 => (cx, cy - 1)
  | 1 => (cx + 1, cy)
  | 2 => (cx, cy + 1)
  | _ => (cx - 1, cy)

/-- The body of the shuffled-order loop of `grid_step`, for one cell
index `curr`: aging and death, cosmic rays on empty cells, then
movement or catalytic interaction.  The state is the grid, the arena
and the position in the random stream. -/
def processCell (evalSteps maxMass fuel : Nat) (f : Nat → Nat)
    (st : Grid × EngineState × Nat) (curr : Nat) : Grid × EngineState × Nat :=
  match st with
  | (g, es, k) =>
    let c := getCell g curr
    if c.occupied then
      let c1 : Cell := { c with age := c.age + 1 }
      if c1.age > MAX_AGE then
        let cdead : Cell := { c1 with occupied := false, cacheValid := false }
        ({ g with cells := g.cells.set curr cdead,
                  deaths_age := g.deaths_age + 1 }, es, k)
      else
        let g1 : Grid := { g with cells := g.cells.set curr c1 }
        let dir := f k % 4
        let cx : Int := (curr % g.width : Nat)
        let cy : Int := (curr / g.width : Nat)
        let t : Int × Int := dirOffset dir cx cy
        let target := grid_idx g1 t.1 t.2
        if (getCell g1 target).occupied = false then
          let cleft : Cell := { c1 with occupied := false, cacheValid := false }
          ({ g1 with cells := (g1.cells.set target c1).set curr cleft,
                     movements := g1.movements + 1 }, es, k + 1)
        else
          match appA c1.atom (getCell g1 target).atom es with
          | (ai, es1) =>
            match eval_boundedA fuel evalSteps maxMass ai es1 with
            | some (.done result, es2) =>
              let tcell := getCell g1 target
              let ccat : Cell := { c1 with age := 0, cacheValid := false }
              let cres : Cell := { tcell with atom := result, age := 0,
                                               generation := tcell.generation + 1,
                                               cacheValid := false }
              ({ g1 with cells := (g1.cells.set curr ccat).set target cres,
                         reactions_success := g1.reactions_success + 1 }, es2, k + 1)
            | some (_, es2) =>
              let tcell := getCell g1 target
              let cgone : Cell := { tcell with occupied := false, cacheValid := false }
              ({ g1 with cells := g1.cells.set target cgone,
                         reactions_diverged := g1.reactions_diverged + 1 }, es2, k + 1)
            | none => (g1, es1, k + 1)
    else
      if f k % 100000 < COSMIC_RAY_RATE then
        match generate_rich_combinator f 0 3 [] (k + 1) with
        | (e, k1) =>
          match buildA e es with
          | (ei, es1) =>
            ({ g with cells := g.cells.set curr ⟨ei, true, 0, 0, false⟩,
                      cosmic_spawns := g.cosmic_spawns + 1 }, es1, k1)
      else (g, es, k + 1)

/-- `grid_step`: shuffle the indices, process every cell in shuffled
order, bump the step counter and run the periodic GC. -/
def grid_step (g : Grid) (es : EngineState) (bindings : List Nat)
    (f : Nat → Nat) (k : Nat) (evalSteps maxMass fuel : Nat) :
    Grid × EngineState × Nat :=
  match fisherYates f (g.width * g.height) k with
  | (order, k1) =>
    match order.foldl (processCell evalSteps maxMass fuel f) (g, es, k1) with
    | (g1, es1, k2) =>
      let gf : Grid := { g1 with steps := g1.steps + 1 }
      if gf.steps % 10 = 0 then
        match varA ⟨"_dummy", 0⟩ es1 with
        | (di, es2) =>
          (gf, gcA di bindings (gf.cells.map (fun c => (c.occupied, c.atom))) es2, k2)
      else (gf, es1, k2)

theorem get?_eq_getD {l : List Cell} {i : Nat} (h : i < l.length) :
    l.get? i = some (l.getD i cell0) := by
  rw [List.getD_eq_getElem?_getD, List.get?_eq_getElem?]
  cases hg : l[i]? with
  | none =>
    rw [List.getElem?_eq_none_iff] at hg
    omega
  | some c => rfl

theorem getCell_set_self {l : List Cell} {i : Nat} (c : Cell)
    (h : i < l.length) : (l.set i c).getD i cell0 = c := by
  show ((l.set i c).get? i).getD cell0 = c
  rw [List.get?_set_eq_of_lt _ h]
  rfl

theorem getCell_set_other {l : List Cell} {i j : Nat} (c : Cell)
    (h : j ≠ i) : (l.set i c).getD j cell0 = l.getD j cell0 := by
  show ((l.set i c).get? j).getD cell0 = (l.get? j).getD cell0
  rw [List.get?_set_ne _ _ (Ne.symm h)]

theorem pop_set {l : List Cell} {i : Nat} {cnew : Cell} (h : i < l.length) :
    (l.set i cnew).countP (fun c => c.occupied) +
      (if (l.getD i cell0).occupied then 1 else 0) =
    l.countP (fun c => c.occupied) + (if cnew.occupied then 1 else 0) :=
  countP_set (fun c => c.occupied) l i (l.getD i cell0) cnew (get?_eq_getD h)

theorem grid_idx_lt (g : Grid) (x y : Int) (hW : 0 < g.width)
    (hH : 0 < g.height) : grid_idx g x y < g.width * g.height := by
  unfold grid_idx
  have hwz : (g.width : Int) ≠ 0 := by exact_mod_cast Nat.pos_iff_ne_zero.mp hW
  have hhz : (g.height : Int) ≠ 0 := by exact_mod_cast Nat.pos_iff_ne_zero.mp hH
  have hx1 : 0 ≤ x % (g.width : Int) := Int.emod_nonneg x hwz
  have hx2 : x % (g.width : Int) < (g.width : Int) :=
    Int.emod_lt_of_pos x (by exact_mod_cast hW)
  have hy1 : 0 ≤ y % (g.height : Int) := Int.emod_nonneg y hhz
  have hy2 : y % (g.height : Int) < (g.height : Int) :=
    Int.emod_lt_of_pos y (by exact_mod_cast hH)
  have hxn : (x % (g.width : Int)).toNat < g.width := by omega
  have hyn : (y % (g.height : Int)).toNat < g.height := by omega
  calc (y % (g.height : Int)).toNat * g.width + (x % (g.width : Int)).toNat
      < (y % (g.height : Int)).toNat * g.width + g.width := by omega
    _ = ((y % (g.height : Int)).toNat + 1) * g.width := by ring
    _ ≤ g.height * g.width := Nat.mul_le_mul_right _ hyn
    _ = g.width * g.height := Nat.mul_comm _ _

theorem listSwap_mem {l : List Nat} {a b total : Nat}
    (h : ∀ x ∈ l, x < total) (htot : 0 < total) :
    ∀ x ∈ listSwap l a b, x < total := by
  have hD : ∀ c : Nat, l.getD c 0 < total := by
    intro c
    show (l.get? c).getD 0 < total
    cases hg : l.get? c with
    | none => exact htot
    | some v => exact h v (List.get?_mem hg)
  intro x hx
  unfold listSwap at hx
  rcases List.mem_or_eq_of_mem_set hx with hx1 | rfl
  · rcases List.mem_or_eq_of_mem_set hx1 with hx2 | rfl
    · exact h x hx2
    · exact hD b
  · exact hD a

theorem fyLoop_mem (f : Nat → Nat) : ∀ (i : Nat) (arr : List Nat) (k total : Nat),
    (∀ x ∈ arr, x < total) → 0 < total →
    ∀ x ∈ (fyLoop f i arr k).1, x < total := by
  intro i
  induction i with
  | zero => intro arr k total h _ x hx; exact h x hx
  | succ i ih =>
    intro arr k total h htot x hx
    rw [fyLoop] at hx
    exact ih _ _ total (listSwap_mem h htot) htot x hx

theorem fisherYates_mem (f : Nat → Nat) (total k : Nat) (htot : 0 < total) :
    ∀ x ∈ (fisherYates f total k).1, x < total := by
  unfold fisherYates
  exact fyLoop_mem f _ _ _ total (fun x hx => List.mem_range.mp hx) htot

theorem pop_set_true_false {l : List Cell} {i : Nat} {cnew : Cell}
    (h : i < l.length) (hold : (l.getD i cell0).occupied = true)
    (hnew : cnew.occupied = false) :
    (l.set i cnew).countP (fun c => c.occupied) + 1 =
      l.countP (fun c => c.occupied) := by
  have hh := @pop_set l i cnew h
  rw [hold, hnew] at hh
  simpa using hh

theorem pop_set_false_true {l : List Cell} {i : Nat} {cnew : Cell}
    (h : i < l.length) (hold : (l.getD i cell0).occupied = false)
    (hnew : cnew.occupied = true) :
    (l.set i cnew).countP (fun c => c.occupied) =
      l.countP (fun c => c.occupied) + 1 := by
  have hh := @pop_set l i cnew h
  rw [hold, hnew] at hh
  simpa using hh

theorem pop_set_occ_eq {l : List Cell} {i : Nat} {cnew : Cell}
    (h : i < l.length) (hsame : cnew.occupied = (l.getD i cell0).occupied) :
    (l.set i cnew).countP (fun c => c.occupied) =
      l.countP (fun c => c.occupied) := by
  have hh := @pop_set l i cnew h
  rw [hsame] at hh
  cases hb : (l.getD i cell0).occupied <;> rw [hb] at hh <;> simpa using hh

theorem tripleEq {α β γ : Type} {a a1 : α} {b b1 : β} {c c1 : γ}
    (h : (a, b, c) = (a1, b1, c1)) : a1 = a ∧ b1 = b ∧ c1 = c := by
  injection h with h1 h2
  injection h2 with h2 h3
  exact ⟨h1.symm, h2.symm, h3.symm⟩

theorem processCell_spec (evalSteps maxMass fuel : Nat) (f : Nat → Nat)
    (g : Grid) (es : EngineState) (k curr : Nat)
    (hcur : curr < g.cells.length)
    (hW : 0 < g.width) (hH : 0 < g.height)
    (hlen : g.cells.length = g.width * g.height) :
    ∀ G1 es1 k1, processCell evalSteps maxMass fuel f (g, es, k) curr = (G1, es1, k1) →
    G1.width = g.width ∧ G1.height = g.height ∧
    G1.cells.length = g.cells.length ∧ G1.steps = g.steps ∧
    (grid_population G1 + G1.deaths_age + G1.reactions_diverged + g.cosmic_spawns =
      grid_population g + g.deaths_age + g.reactions_diverged + G1.cosmic_spawns) ∧
    (G1.reactions_success = g.reactions_success + 1 ∨
      G1.reactions_success = g.reactions_success) ∧
    (G1.reactions_success = g.reactions_success + 1 ↔
      ∃ t, t < g.cells.length ∧ (getCell g t).occupied = true ∧
        (getCell G1 t).occupied = true ∧
        (getCell G1 t).generation = (getCell g t).generation + 1) ∧
    (G1.movements = g.movements + 1 ∨ G1.movements = g.movements) ∧
    (G1.movements = g.movements + 1 ↔
      ((getCell g curr).occupied = true ∧ (getCell G1 curr).occupied = false ∧
       G1.deaths_age = g.deaths_age ∧ G1.reactions_diverged = g.reactions_diverged ∧
       grid_population G1 = grid_population g)) := by
  intro G1 es1 k1 hpc
  rw [processCell] at hpc
  dsimp only at hpc
  split at hpc
  case _ ho =>
    split at hpc
    case _ hage =>
      -- death from old age
      obtain ⟨h1, -, -⟩ := tripleEq hpc
      obtain ⟨cd, hcells, hocc, hgen⟩ :
          ∃ cd, G1.cells = g.cells.set curr cd ∧ cd.occupied = false ∧
            cd.generation = (getCell g curr).generation :=
        ⟨{ getCell g curr with occupied := false, age := (getCell g curr).age + 1, cacheValid := false }, by rw [h1], rfl, rfl⟩
      have hw : G1.width = g.width := by rw [h1]
      have hh : G1.height = g.height := by rw [h1]
      have hst : G1.steps = g.steps := by rw [h1]
      have hrs : G1.reactions_success = g.reactions_success := by rw [h1]
      have hmv : G1.movements = g.movements := by rw [h1]
      have hda : G1.deaths_age = g.deaths_age + 1 := by rw [h1]
      have hrd : G1.reactions_diverged = g.reactions_diverged := by rw [h1]
      have hcs : G1.cosmic_spawns = g.cosmic_spawns := by rw [h1]
      have hpop : grid_population G1 + 1 = grid_population g := by
        unfold grid_population
        rw [hcells]
        exact pop_set_true_false hcur ho hocc
      refine ⟨hw, hh, by rw [hcells]; exact List.length_set _ _ _, hst,
        by rw [hda, hrd, hcs]; omega, Or.inr hrs, ?_, Or.inr hmv, ?_⟩
      · constructor
        · intro habs; rw [hrs] at habs; omega
        · rintro ⟨t, ht, hb, ha, hg2⟩
          exfalso
          by_cases htc : t = curr
          · subst htc
            have : getCell G1 t = cd := by
              unfold getCell; rw [hcells]; exact getCell_set_self cd hcur
            rw [this, hocc] at ha
            cases ha
          · have : getCell G1 t = getCell g t := by
              unfold getCell; rw [hcells]; exact getCell_set_other cd htc
            rw [this] at hg2
            omega
      · constructor
        · intro habs; rw [hmv] at habs; omega
        · rintro ⟨-, -, hd, -, -⟩
          exfalso; rw [hda] at hd; omega
    case _ hage =>
      split at hpc
      case _ hmvc =>
        -- movement into an empty neighbour
        obtain ⟨h1, -, -⟩ := tripleEq hpc
        obtain ⟨T, c1v, cl, hcells, hc1occ, hc1gen, hclocc, hclgen, hTocc, hTgi⟩ :
            ∃ T c1v cl,
              G1.cells = ((g.cells.set curr c1v).set T c1v).set curr cl ∧
              c1v.occupied = true ∧
              c1v.generation = (getCell g curr).generation ∧
              cl.occupied = false ∧
              cl.generation = (getCell g curr).generation ∧
              ((g.cells.set curr c1v).getD T cell0).occupied = false ∧
              (∃ x y, T = grid_idx { g with cells := g.cells.set curr c1v } x y) :=
          ⟨_, { getCell g curr with age := (getCell g curr).age + 1 }, { getCell g curr with age := (getCell g curr).age + 1, occupied := false, cacheValid := false }, by rw [h1], ho, rfl, rfl, rfl, hmvc, ⟨_, _, rfl⟩⟩
        have hw : G1.width = g.width := by rw [h1]
        have hh : G1.height = g.height := by rw [h1]
        have hst : G1.steps = g.steps := by rw [h1]
        have hrs : G1.reactions_success = g.reactions_success := by rw [h1]
        have hmv : G1.movements = g.movements + 1 := by rw [h1]
        have hda : G1.deaths_age = g.deaths_age := by rw [h1]
        have hrd : G1.reactions_diverged = g.reactions_diverged := by rw [h1]
        have hcs : G1.cosmic_spawns = g.cosmic_spawns := by rw [h1]
        have hTlt : T < g.cells.length := by
          obtain ⟨x, y, hTxy⟩ := hTgi
          rw [hTxy, hlen]
          exact grid_idx_lt { g with cells := g.cells.set curr c1v } x y hW hH
        have hTne : T ≠ curr := by
          intro hq
          rw [hq, getCell_set_self c1v hcur, hc1occ] at hTocc
          cases hTocc
        have hTold : (g.cells.getD T cell0).occupied = false := by
          rw [← getCell_set_other c1v hTne]
          exact hTocc
        have hlen1 : (g.cells.set curr c1v).length = g.cells.length :=
          List.length_set _ _ _
        have hlen2 : ((g.cells.set curr c1v).set T c1v).length = g.cells.length := by
          rw [List.length_set, hlen1]
        have hpop : grid_population G1 = grid_population g := by
          unfold grid_population
          rw [hcells]
          have e1 : (g.cells.set curr c1v).countP (fun c => c.occupied) =
              g.cells.countP (fun c => c.occupied) :=
            pop_set_occ_eq hcur (by rw [hc1occ]; exact ho.symm)
          have e2 : ((g.cells.set curr c1v).set T c1v).countP (fun c => c.occupied) =
              (g.cells.set curr c1v).countP (fun c => c.occupied) + 1 :=
            pop_set_false_true (by rw [hlen1]; exact hTlt) hTocc hc1occ
          have e3 : (((g.cells.set curr c1v).set T c1v).set curr cl).countP
                (fun c => c.occupied) + 1 =
              ((g.cells.set curr c1v).set T c1v).countP (fun c => c.occupied) :=
            pop_set_true_false (by rw [hlen2]; exact hcur)
              (by rw [getCell_set_other c1v (Ne.symm hTne),
                      getCell_set_self c1v hcur]
                  exact hc1occ) hclocc
          omega
        have hG1curr : getCell G1 curr = cl := by
          unfold getCell
          rw [hcells]
          exact getCell_set_self cl (by rw [hlen2]; exact hcur)
        have hG1other : ∀ t, t ≠ curr → t ≠ T → getCell G1 t = getCell g t := by
          intro t h1t h2t
          unfold getCell
          rw [hcells, getCell_set_other cl h1t, getCell_set_other c1v h2t,
              getCell_set_other c1v h1t]
        refine ⟨hw, hh, by rw [hcells]; simp [List.length_set], hst,
          by rw [hpop, hda, hrd, hcs], Or.inr hrs, ?_, Or.inl hmv, ?_⟩
        · constructor
          · intro habs; rw [hrs] at habs; omega
          · rintro ⟨t, ht, hb, -, hg2⟩
            exfalso
            by_cases h1t : t = curr
            · subst h1t
              rw [hG1curr, hclgen] at hg2
              omega
            · by_cases h2t : t = T
              · subst h2t
                unfold getCell at hb
                rw [hTold] at hb
                simp at hb
              · rw [hG1other t h1t h2t] at hg2
                omega
        · constructor
          · intro _
            exact ⟨ho, by rw [hG1curr]; exact hclocc, hda, hrd, hpop⟩
          · intro _
            exact hmv
      case _ hmvc =>
        split at hpc
        case _ result es2 heval =>
          -- successful catalytic reaction: target cell rewritten, generation + 1
          obtain ⟨h1, -, -⟩ := tripleEq hpc
          obtain ⟨T, c1v, cc, cr, hcells, hc1occ, hc1gen, hccocc, hccgen,
              hcrocc, hcrgen, hTocc, hTgi⟩ :
              ∃ T c1v cc cr,
                G1.cells = ((g.cells.set curr c1v).set curr cc).set T cr ∧
                c1v.occupied = (getCell g curr).occupied ∧
                c1v.generation = (getCell g curr).generation ∧
                cc.occupied = (getCell g curr).occupied ∧
                cc.generation = (getCell g curr).generation ∧
                cr.occupied = ((g.cells.set curr c1v).getD T cell0).occupied ∧
                cr.generation =
                  ((g.cells.set curr c1v).getD T cell0).generation + 1 ∧
                ((g.cells.set curr c1v).getD T cell0).occupied = true ∧
                (∃ x y, T = grid_idx { g with cells := g.cells.set curr c1v } x y) :=
            ⟨_, _, _, _, congrArg Grid.cells h1, rfl, rfl, rfl, rfl, rfl, rfl,
             Bool.eq_true_of_not_eq_false hmvc, ⟨_, _, rfl⟩⟩
          have hw : G1.width = g.width := by rw [h1]
          have hh : G1.height = g.height := by rw [h1]
          have hst : G1.steps = g.steps := by rw [h1]
          have hrs : G1.reactions_success = g.reactions_success + 1 := by rw [h1]
          have hmv : G1.movements = g.movements := by rw [h1]
          have hda : G1.deaths_age = g.deaths_age := by rw [h1]
          have hrd : G1.reactions_diverged = g.reactions_diverged := by rw [h1]
          have hcs : G1.cosmic_spawns = g.cosmic_spawns := by rw [h1]
          have hTlt : T < g.cells.length := by
            obtain ⟨x, y, hTxy⟩ := hTgi
            rw [hTxy, hlen]
            exact grid_idx_lt _ x y hW hH
          have hlen1 : (g.cells.set curr c1v).length = g.cells.length :=
            List.length_set _ _ _
          have hlen2 : ((g.cells.set curr c1v).set curr cc).length =
              g.cells.length := by
            rw [List.length_set, hlen1]
          have hlen3 : G1.cells.length = g.cells.length := by
            rw [hcells, List.length_set, hlen2]
          have hG1T : getCell G1 T = cr := by
            unfold getCell
            rw [hcells]
            exact getCell_set_self cr (by rw [hlen2]; exact hTlt)
          have hG1curr : curr ≠ T → getCell G1 curr = cc := by
            intro hct
            unfold getCell
            rw [hcells, getCell_set_other cr hct]
            exact getCell_set_self cc (by rw [hlen1]; exact hcur)
          have hG1other : ∀ t, t ≠ T → t ≠ curr → getCell G1 t = getCell g t := by
            intro t h1t h2t
            unfold getCell
            rw [hcells, getCell_set_other cr h1t, getCell_set_other cc h2t,
                getCell_set_other c1v h2t]
          have hTocc3 : (getCell g T).occupied = true := by
            by_cases hTc : T = curr
            · rw [hTc, getCell_set_self c1v hcur] at hTocc
              rw [hc1occ] at hTocc
              rw [hTc]
              exact hTocc
            · rw [getCell_set_other c1v hTc] at hTocc
              exact hTocc
          have hTgen : ((g.cells.set curr c1v).getD T cell0).generation =
              (getCell g T).generation := by
            by_cases hTc : T = curr
            · rw [hTc, getCell_set_self c1v hcur, hc1gen]
            · rw [getCell_set_other c1v hTc]
              rfl
          have hpop : grid_population G1 = grid_population g := by
            unfold grid_population
            rw [hcells]
            have e1 : (g.cells.set curr c1v).countP (fun c => c.occupied) =
                g.cells.countP (fun c => c.occupied) :=
              pop_set_occ_eq hcur (hc1occ.trans rfl)
            have e2 : ((g.cells.set curr c1v).set curr cc).countP
                  (fun c => c.occupied) =
                (g.cells.set curr c1v).countP (fun c => c.occupied) :=
              pop_set_occ_eq (by rw [hlen1]; exact hcur)
                (by rw [hccocc, getCell_set_self c1v hcur, hc1occ])
            have e3 : (((g.cells.set curr c1v).set curr cc).set T cr).countP
                  (fun c => c.occupied) =
                ((g.cells.set curr c1v).set curr cc).countP
                  (fun c => c.occupied) := by
              apply pop_set_occ_eq (by rw [hlen2]; exact hTlt)
              by_cases hTc : T = curr
              · rw [hcrocc, hTc, getCell_set_self c1v hcur,
                    getCell_set_self cc (by rw [hlen1]; exact hcur), hccocc,
                    hc1occ]
              · rw [hcrocc, getCell_set_other cc hTc]
            rw [e3, e2, e1]
          refine ⟨hw, hh, hlen3, hst, by rw [hpop, hda, hrd, hcs],
            Or.inl hrs, ?_, Or.inr hmv, ?_⟩
          · constructor
            · intro _
              refine ⟨T, hTlt, hTocc3, ?_, ?_⟩
              · rw [hG1T, hcrocc]
                exact hTocc
              · rw [hG1T, hcrgen, hTgen]
            · intro _
              exact hrs
          · constructor
            · intro habs
              rw [hmv] at habs
              omega
            · rintro ⟨-, hb, -, -, -⟩
              exfalso
              by_cases hTc : curr = T
              · rw [hTc, hG1T, hcrocc, hTocc] at hb
                simp at hb
              · rw [hG1curr hTc, hccocc, ho] at hb
                simp at hb
        case _ fst es2 hguard heval =>
          -- diverged or errored reaction: the target cell dies
          obtain ⟨h1, -, -⟩ := tripleEq hpc
          obtain ⟨T, c1v, cg, hcells, hc1occ, hc1gen, hcgocc, hTocc, hTgi⟩ :
              ∃ T c1v cg,
                G1.cells = (g.cells.set curr c1v).set T cg ∧
                c1v.occupied = (getCell g curr).occupied ∧
                c1v.generation = (getCell g curr).generation ∧
                cg.occupied = false ∧
                ((g.cells.set curr c1v).getD T cell0).occupied = true ∧
                (∃ x y, T = grid_idx { g with cells := g.cells.set curr c1v } x y) :=
            ⟨_, _, _, congrArg Grid.cells h1, rfl, rfl, rfl,
             Bool.eq_true_of_not_eq_false hmvc, ⟨_, _, rfl⟩⟩
          have hw : G1.width = g.width := by rw [h1]
          have hh : G1.height = g.height := by rw [h1]
          have hst : G1.steps = g.steps := by rw [h1]
          have hrs : G1.reactions_success = g.reactions_success := by rw [h1]
          have hmv : G1.movements = g.movements := by rw [h1]
          have hda : G1.deaths_age = g.deaths_age := by rw [h1]
          have hrd : G1.reactions_diverged = g.reactions_diverged + 1 := by rw [h1]
          have hcs : G1.cosmic_spawns = g.cosmic_spawns := by rw [h1]
          have hTlt : T < g.cells.length := by
            obtain ⟨x, y, hTxy⟩ := hTgi
            rw [hTxy, hlen]
            exact grid_idx_lt _ x y hW hH
          have hlen1 : (g.cells.set curr c1v).length = g.cells.length :=
            List.length_set _ _ _
          have hlen3 : G1.cells.length = g.cells.length := by
            rw [hcells, List.length_set, hlen1]
          have hG1T : getCell G1 T = cg := by
            unfold getCell
            rw [hcells]
            exact getCell_set_self cg (by rw [hlen1]; exact hTlt)
          have hG1curr : curr ≠ T → getCell G1 curr = c1v := by
            intro hct
            unfold getCell
            rw [hcells, getCell_set_other cg hct]
            exact getCell_set_self c1v hcur
          have hG1other : ∀ t, t ≠ T → t ≠ curr → getCell G1 t = getCell g t := by
            intro t h1t h2t
            unfold getCell
            rw [hcells, getCell_set_other cg h1t, getCell_set_other c1v h2t]
          have hpop : grid_population G1 + 1 = grid_population g := by
            unfold grid_population
            rw [hcells]
            have e1 : (g.cells.set curr c1v).countP (fun c => c.occupied) =
                g.cells.countP (fun c => c.occupied) :=
              pop_set_occ_eq hcur (hc1occ.trans rfl)
            have e2 : ((g.cells.set curr c1v).set T cg).countP
                  (fun c => c.occupied) + 1 =
                (g.cells.set curr c1v).countP (fun c => c.occupied) :=
              pop_set_true_false (by rw [hlen1]; exact hTlt) hTocc hcgocc
            rw [e2, e1]
          refine ⟨hw, hh, hlen3, hst, by rw [hda, hrd, hcs]; omega,
            Or.inr hrs, ?_, Or.inr hmv, ?_⟩
          · constructor
            · intro habs
              rw [hrs] at habs
              omega
            · rintro ⟨t, htlt, hb, ha, hg2⟩
              exfalso
              by_cases htT : t = T
              · rw [htT, hG1T, hcgocc] at ha
                simp at ha
              · by_cases htc : t = curr
                · rw [htc] at hg2
                  rw [hG1curr (htc ▸ htT), hc1gen] at hg2
                  omega
                · rw [hG1other t htT htc] at hg2
                  omega
          · constructor
            · intro habs
              rw [hmv] at habs
              omega
            · rintro ⟨-, -, -, hrdeq, -⟩
              rw [hrd] at hrdeq
              omega
        case _ heval =>
          -- the reducer ran out of fuel: grid unchanged except cell aging
          obtain ⟨h1, -, -⟩ := tripleEq hpc
          obtain ⟨c1v, hcells, hc1occ, hc1gen⟩ :
              ∃ c1v, G1.cells = g.cells.set curr c1v ∧
                c1v.occupied = (getCell g curr).occupied ∧
                c1v.generation = (getCell g curr).generation :=
            ⟨_, congrArg Grid.cells h1, rfl, rfl⟩
          have hw : G1.width = g.width := by rw [h1]
          have hh : G1.height = g.height := by rw [h1]
          have hst : G1.steps = g.steps := by rw [h1]
          have hrs : G1.reactions_success = g.reactions_success := by rw [h1]
          have hmv : G1.movements = g.movements := by rw [h1]
          have hda : G1.deaths_age = g.deaths_age := by rw [h1]
          have hrd : G1.reactions_diverged = g.reactions_diverged := by rw [h1]
          have hcs : G1.cosmic_spawns = g.cosmic_spawns := by rw [h1]
          have hpop : grid_population G1 = grid_population g := by
            unfold grid_population
            rw [hcells]
            exact pop_set_occ_eq hcur (hc1occ.trans rfl)
          have hG1curr : getCell G1 curr = c1v := by
            unfold getCell
            rw [hcells]
            exact getCell_set_self c1v hcur
          have hG1other : ∀ t, t ≠ curr → getCell G1 t = getCell g t := by
            intro t h1t
            unfold getCell
            rw [hcells, getCell_set_other c1v h1t]
          refine ⟨hw, hh, by rw [hcells, List.length_set], hst,
            by rw [hpop, hda, hrd, hcs], Or.inr hrs, ?_, Or.inr hmv, ?_⟩
          · constructor
            · intro habs
              rw [hrs] at habs
              omega
            · rintro ⟨t, htlt, hb, ha, hg2⟩
              exfalso
              by_cases htc : t = curr
              · rw [htc] at hg2
                rw [hG1curr, hc1gen] at hg2
                omega
              · rw [hG1other t htc] at hg2
                omega
          · constructor
            · intro habs
              rw [hmv] at habs
              omega
            · rintro ⟨-, hb, -⟩
              rw [hG1curr, hc1occ, ho] at hb
              simp at hb
  case _ ho =>
    have hof : (getCell g curr).occupied = false := by simpa using ho
    split at hpc
    case _ hray =>
      -- cosmic-ray spawn into an empty cell
      obtain ⟨h1, -, -⟩ := tripleEq hpc
      obtain ⟨cn, hcells, hcnocc⟩ :
          ∃ cn, G1.cells = g.cells.set curr cn ∧ cn.occupied = true :=
        ⟨_, congrArg Grid.cells h1, rfl⟩
      have hw : G1.width = g.width := by rw [h1]
      have hh : G1.height = g.height := by rw [h1]
      have hst : G1.steps = g.steps := by rw [h1]
      have hrs : G1.reactions_success = g.reactions_success := by rw [h1]
      have hmv : G1.movements = g.movements := by rw [h1]
      have hda : G1.deaths_age = g.deaths_age := by rw [h1]
      have hrd : G1.reactions_diverged = g.reactions_diverged := by rw [h1]
      have hcs : G1.cosmic_spawns = g.cosmic_spawns + 1 := by rw [h1]
      have hpop : grid_population G1 = grid_population g + 1 := by
        unfold grid_population
        rw [hcells]
        exact pop_set_false_true hcur hof hcnocc
      refine ⟨hw, hh, by rw [hcells, List.length_set], hst,
        by rw [hpop, hda, hrd, hcs]; omega, Or.inr hrs, ?_, Or.inr hmv, ?_⟩
      · constructor
        · intro habs
          rw [hrs] at habs
          omega
        · rintro ⟨t, htlt, hb, ha, hg2⟩
          exfalso
          by_cases htc : t = curr
          · rw [htc, hof] at hb
            simp at hb
          · have he : getCell G1 t = getCell g t := by
              unfold getCell
              rw [hcells, getCell_set_other cn htc]
            rw [he] at hg2
            omega
      · constructor
        · intro habs
          rw [hmv] at habs
          omega
        · rintro ⟨hb, -⟩
          rw [hof] at hb
          simp at hb
    case _ hray =>
      -- empty cell, no cosmic ray: nothing happens
      obtain ⟨h1, -, -⟩ := tripleEq hpc
      subst h1
      refine ⟨rfl, rfl, rfl, rfl, rfl, Or.inr rfl, ?_, Or.inr rfl, ?_⟩
      · constructor
        · intro habs
          omega
        · rintro ⟨t, -, -, -, hg2⟩
          omega
      · constructor
        · intro habs
          omega
        · rintro ⟨hb, -⟩
          rw [hof] at hb
          simp at hb

/-- Folding `processCell` over any list of in-bounds cell indices keeps
the grid dimensions and the step counter, and preserves the population
accounting equation: population + age deaths + diverged deaths is
constant up to the cosmic-ray spawns. -/
theorem gridFold_spec (evalSteps maxMass fuel : Nat) (f : Nat → Nat)
    (order : List Nat) :
    ∀ g es k, 0 < Grid.width g → 0 < Grid.height g →
    (Grid.cells g).length = Grid.width g * Grid.height g →
    (∀ i ∈ order, i < Grid.width g * Grid.height g) →
    ∀ G1 es1 k1,
      order.foldl (processCell evalSteps maxMass fuel f) (g, es, k) =
        (G1, es1, k1) →
      G1.width = g.width ∧ G1.height = g.height ∧
      G1.cells.length = g.cells.length ∧ G1.steps = g.steps ∧
      grid_population G1 + G1.deaths_age + G1.reactions_diverged +
          g.cosmic_spawns =
        grid_population g + g.deaths_age + g.reactions_diverged +
          G1.cosmic_spawns := by
  induction order with
  | nil =>
    intro g es k hW hH hlen hmem G1 es1 k1 hfold
    rw [List.foldl_nil] at hfold
    obtain ⟨h1, -, -⟩ := tripleEq hfold
    subst h1
    exact ⟨rfl, rfl, rfl, rfl, rfl⟩
  | cons i rest ih =>
    intro g es k hW hH hlen hmem G1 es1 k1 hfold
    rw [List.foldl_cons] at hfold
    obtain ⟨⟨g2, es2, k2⟩, hp⟩ :
        ∃ r, processCell evalSteps maxMass fuel f (g, es, k) i = r := ⟨_, rfl⟩
    rw [hp] at hfold
    have hi : i < g.cells.length := by
      rw [hlen]
      exact hmem i (List.mem_cons_self i rest)
    obtain ⟨hw2, hh2, hlen2, hst2, hpop2, -, -, -, -⟩ :=
      processCell_spec evalSteps maxMass fuel f g es k i hi hW hH hlen
        g2 es2 k2 hp
    obtain ⟨hw1, hh1, hlen1, hst1, hpop1⟩ :=
      ih g2 es2 k2 (by rw [hw2]; exact hW) (by rw [hh2]; exact hH)
        (by rw [hlen2, hw2, hh2]; exact hlen)
        (fun j hj => by
          rw [hw2, hh2]
          exact hmem j (List.mem_cons_of_mem i hj))
        G1 es1 k1 hfold
    refine ⟨hw1.trans hw2, hh1.trans hh2, hlen1.trans hlen2,
      hst1.trans hst2, ?_⟩
    omega

/-- C8: over one `grid_step`, the occupied-cell count changes by exactly
the cosmic-ray spawns minus the old-age deaths minus the diverged
reactions (movements and successful reactions preserve the population);
and per processed cell, `reactions_success` is incremented exactly when
some occupied cell's expression survives with its generation incremented,
and `movements` is incremented exactly when the source cell becomes
empty with no death and no divergence and an unchanged population. -/
theorem C8_grid_step_population (evalSteps maxMass fuel : Nat)
    (f : Nat → Nat) (g : Grid) (es : EngineState) (bindings : List Nat)
    (k : Nat) (hW : 0 < g.width) (hH : 0 < g.height)
    (hlen : g.cells.length = g.width * g.height) :
    (∀ G1 es1 k1,
      grid_step g es bindings f k evalSteps maxMass fuel = (G1, es1, k1) →
      grid_population G1 + G1.deaths_age + G1.reactions_diverged +
          g.cosmic_spawns =
        grid_population g + g.deaths_age + g.reactions_diverged +
          G1.cosmic_spawns) ∧
    (∀ curr G1 es1 k1, curr < g.cells.length →
      processCell evalSteps maxMass fuel f (g, es, k) curr = (G1, es1, k1) →
      (G1.reactions_success = g.reactions_success + 1 ↔
        ∃ t, t < g.cells.length ∧ (getCell g t).occupied = true ∧
          (getCell G1 t).occupied = true ∧
          (getCell G1 t).generation = (getCell g t).generation + 1) ∧
      (G1.movements = g.movements + 1 ↔
        ((getCell g curr).occupied = true ∧
         (getCell G1 curr).occupied = false ∧
         G1.deaths_age = g.deaths_age ∧
         G1.reactions_diverged = g.reactions_diverged ∧
         grid_population G1 = grid_population g))) := by
  constructor
  · intro G1 es1 k1 hstep
    rw [grid_step] at hstep
    obtain ⟨⟨order, k2⟩, hord⟩ :
        ∃ r, fisherYates f (g.width * g.height) k = r := ⟨_, rfl⟩
    rw [hord] at hstep
    dsimp only at hstep
    obtain ⟨⟨g2, es2, k3⟩, hfold⟩ :
        ∃ r, order.foldl (processCell evalSteps maxMass fuel f) (g, es, k2) =
          r := ⟨_, rfl⟩
    rw [hfold] at hstep
    dsimp only at hstep
    have hmem : ∀ i ∈ order, i < g.width * g.height := by
      intro i hi
      refine fisherYates_mem f (g.width * g.height) k
        (Nat.mul_pos hW hH) i ?_
      rw [hord]
      exact hi
    obtain ⟨-, -, -, -, hpop⟩ :=
      gridFold_spec evalSteps maxMass fuel f order g es k2 hW hH hlen hmem
        g2 es2 k3 hfold
    have hG1 : G1.cells = g2.cells ∧ G1.deaths_age = g2.deaths_age ∧
        G1.reactions_diverged = g2.reactions_diverged ∧
        G1.cosmic_spawns = g2.cosmic_spawns := by
      split at hstep
      · obtain ⟨h1, -, -⟩ := tripleEq hstep
        rw [h1]
        exact ⟨rfl, rfl, rfl, rfl⟩
      · obtain ⟨h1, -, -⟩ := tripleEq hstep
        rw [h1]
        exact ⟨rfl, rfl, rfl, rfl⟩
    obtain ⟨hc, hd, hr, hs⟩ := hG1
    have hgp : grid_population G1 = grid_population g2 := by
      unfold grid_population
      rw [hc]
    rw [hgp, hd, hr, hs]
    exact hpop
  · intro curr G1 es1 k1 hcur hpc
    obtain ⟨-, -, -, -, -, -, hsucc, -, hmv⟩ :=
      processCell_spec evalSteps maxMass fuel f g es k curr hcur hW hH hlen
        G1 es1 k1 hpc
    exact ⟨hsucc, hmv⟩

/-- A one-cell grid with an empty cell, for the C8 witness. -/
def cg8 : Grid := ⟨1, 1, [cell0], 0, 0, 0, 0, 0, 0⟩

/-- An empty arena for the C8 witness. -/
def es8 : EngineState := ⟨[], [], [], [], false, 0⟩

/-- A random stream that never fires a cosmic ray, for the C8 witness. -/
def f8 : Nat → Nat := fun _ => 3

/-- Witness for C8 on the one-cell empty grid: the population equation
holds over `grid_step`, and the per-cell success and movement
characterisations hold for `processCell`. -/
theorem C8_grid_step_population_witness :
    (∀ G1 es1 k1,
      grid_step cg8 es8 [] f8 0 1 0 5 = (G1, es1, k1) →
      grid_population G1 + G1.deaths_age + G1.reactions_diverged +
          cg8.cosmic_spawns =
        grid_population cg8 + cg8.deaths_age + cg8.reactions_diverged +
          G1.cosmic_spawns) ∧
    (∀ curr G1 es1 k1, curr < cg8.cells.length →
      processCell 1 0 5 f8 (cg8, es8, 0) curr = (G1, es1, k1) →
      (G1.reactions_success = cg8.reactions_success + 1 ↔
        ∃ t, t < cg8.cells.length ∧ (getCell cg8 t).occupied = true ∧
          (getCell G1 t).occupied = true ∧
          (getCell G1 t).generation = (getCell cg8 t).generation + 1) ∧
      (G1.movements = cg8.movements + 1 ↔
        ((getCell cg8 curr).occupied = true ∧
         (getCell G1 curr).occupied = false ∧
         G1.deaths_age = cg8.deaths_age ∧
         G1.reactions_diverged = cg8.reactions_diverged ∧
         grid_population G1 = grid_population cg8))) :=
  C8_grid_step_population 1 0 5 f8 cg8 es8 [] 0 (by decide) (by decide)
    (by decide)

end Lamb
